import Mathlib

/-!
Verification development for square/goprotowrap.

Go strings are modelled as `List Char`; Go maps keyed by strings are
modelled as association lists or lookup functions; Go `*T` pointers that
may be nil are modelled as `Option T`; Go panics and other failures are
modelled with `Option`/`Except` results.
-/

set_option maxHeartbeats 1000000

/-- Word for Go source strings: a Go string modelled as its list of characters. -/
abbrev GoStr := List Char

/-- Models Go `unicode.IsLetter` (exact on the ASCII range used by identifiers;
the full Unicode tables of the Go runtime are elided). -/
def goIsLetter (c : Char) : Bool := c.isAlpha

/-- Models Go `unicode.IsDigit` (exact on the ASCII range used by identifiers;
the full Unicode tables of the Go runtime are elided). -/
def goIsDigit (c : Char) : Bool := c.isDigit

/-- Embeds `badToUnderscore` from packages.go: keep letters, digits and
underscore, replace every other rune by underscore. -/
def badToUnderscore (r : Char) : Char :=
  if goIsLetter r || goIsDigit r || r = '_' then r else '_'

/-- Embeds Go `strings.LastIndex(s, string(ch))` for a one-character needle:
the index of the last occurrence of `ch` in `s`, or `-1` when absent. -/
def lastIndexChar (ch : Char) : GoStr → Int
  | [] => -1
  | c :: rest =>
    let r := lastIndexChar ch rest
    if r ≥ 0 then r + 1
    else if c = ch then 0 else -1

/-- Helper for `segments`: accumulate the current slash-free segment (reversed
in `acc`) while scanning the input. -/
def segmentsAux (acc : GoStr) : GoStr → List GoStr
  | [] => if acc.isEmpty then [] else [acc.reverse]
  | c :: rest =>
    if c = '/' then
      if acc.isEmpty then segmentsAux [] rest else acc.reverse :: segmentsAux [] rest
    else segmentsAux (c :: acc) rest

/-- Models splitting a Unix path into its nonempty slash-separated elements,
as Go `path/filepath.Clean` walks them. -/
def segments (s : GoStr) : List GoStr := segmentsAux [] s

/-- Models the element-stack pass of Go `path/filepath.Clean` (Unix rules):
drop `.` elements, resolve `..` against the stack (dropping it at the root of
a rooted path, keeping it at the front of a relative path). The stack `stk`
holds the output elements in reverse. -/
def cleanStack (rooted : Bool) (stk : List GoStr) : List GoStr → List GoStr
  | [] => stk.reverse
  | seg :: rest =>
    if seg = ['.'] then cleanStack rooted stk rest
    else if seg = ['.', '.'] then
      match stk with
      | [] =>
        if rooted then cleanStack rooted [] rest
        else cleanStack rooted [['.', '.']] rest
      | top :: stk' =>
        if top = ['.', '.'] then cleanStack rooted (seg :: top :: stk') rest
        else cleanStack rooted stk' rest
    else cleanStack rooted (seg :: stk) rest

/-- Models joining path elements with `/` separators. -/
def joinSlash : List GoStr → GoStr
  | [] => []
  | [e] => e
  | e :: rest => e ++ '/' :: joinSlash rest

/-- Models Go `path/filepath.Clean` for Unix paths: lexically simplify the
path; the empty path cleans to `.`. -/
def pathClean (s : GoStr) : GoStr :=
  if s = [] then ['.']
  else
    let rooted := s.head? = some '/'
    let out := joinSlash (cleanStack rooted [] (segments s))
    if rooted then '/' :: out
    else if out = [] then ['.'] else out

/-- Models Go `path/filepath.Dir` for Unix paths: everything up to and
including the final separator, cleaned; `.` when there is no separator. -/
def filepathDir (p : GoStr) : GoStr :=
  pathClean ((p.reverse.dropWhile (fun c => c ≠ '/')).reverse)

/-- Embeds `baseName` from packages.go: the last path element of the name,
with the last dotted suffix removed. -/
def baseName (name : GoStr) : GoStr :=
  let i := lastIndexChar '/' name
  let n1 := if i ≥ 0 then name.drop (i.toNat + 1) else name
  let j := lastIndexChar '.' n1
  if j ≥ 0 then n1.take j.toNat else n1

/-- Embeds the `FileInfo` struct of packages.go. -/
structure FileInfo where
  name : GoStr
  fullPath : GoStr
  package : GoStr
  goPackage : GoStr
  deps : List GoStr
  computedPackage : GoStr
deriving DecidableEq, Repr

/-- Embeds the loop body of `ComputeGoLocations` from packages.go for one
file: the computed package in the full form `path;decl`, together with the
flag recording whether the no-go_package/no-package warning was printed. -/
def computeGoLocation (info : FileInfo) : GoStr × Bool :=
  let dir := filepathDir info.name
  let pkg := info.goPackage
  let slash := lastIndexChar '/' pkg
  if slash > 0 then
    if ';' ∈ pkg then (pkg, false)
    else
      let decl := pkg.drop (slash.toNat + 1)
      (pkg ++ ';' :: decl, false)
  else
    let pkg1 := if pkg = [] then info.package else pkg
    let pkg2 := if pkg1 = [] then baseName info.name else pkg1
    ((dir ++ ';' :: pkg2.map badToUnderscore), pkg1 = [])

/-- Embeds `ComputeGoLocations` from packages.go: set `computedPackage` on
every file. The Go code iterates a map; the model takes one iteration order
as a list. -/
def computeGoLocations (infos : List FileInfo) : List FileInfo :=
  infos.map (fun i => { i with computedPackage := (computeGoLocation i).1 })

/-- Embeds the `PackageInfo` struct of packages.go (the transient Tarjan
fields `index`, `lowlink`, `onStack` are kept as side tables by the cycle
detection model instead of being embedded in the record). A `none` entry in
`deps` models the nil `*FileInfo` that Go stores when a dependency name is
missing from the `infos` map. -/
structure PackageInfo where
  computedPackage : GoStr
  files : List FileInfo
  deps : List (Option FileInfo)
deriving DecidableEq, Repr

/-- Keep the first occurrence of every element, dropping later duplicates
(the insertion order of a Go map built left to right). -/
def dedupFirst {α : Type} [DecidableEq α] (seen : List α) : List α → List α
  | [] => []
  | x :: rest =>
    if x ∈ seen then dedupFirst seen rest
    else x :: dedupFirst (x :: seen) rest

/-- Insert a file into the bucket of its computed package, appending a new
bucket at the end on first use (first-insertion order of the Go map). -/
def addToBucket : List (GoStr × List FileInfo) → FileInfo → List (GoStr × List FileInfo)
  | [], f => [(f.computedPackage, [f])]
  | (k, fs) :: rest, f =>
    if k = f.computedPackage then (k, fs ++ [f]) :: rest
    else (k, fs) :: addToBucket rest f

/-- Embeds the first loop of `CollectPackages` from packages.go: bucket the
files by `computedPackage`. -/
def groupByPackage (infos : List FileInfo) : List (GoStr × List FileInfo) :=
  infos.foldl addToBucket []

/-- Embeds the Go map lookup `infos[dep]`: `none` models the nil pointer a
Go map returns for a missing key. -/
def lookupInfo (infos : List FileInfo) (n : GoStr) : Option FileInfo :=
  infos.find? (fun i => i.name = n)

/-- Embeds `CollectPackages` from packages.go: bucket files by computed
package, then for each bucket record, keyed and deduplicated by dependency
name, the `infos` lookup of every dependency of a member file (`none` for a
name that is not in `infos`, as Go silently stores a nil pointer). The Go
code iterates maps; the model fixes first-insertion iteration order. -/
def collectPackages (infos : List FileInfo) : List PackageInfo :=
  (groupByPackage infos).map (fun b =>
    { computedPackage := b.1, files := b.2,
      deps := (dedupFirst [] (b.2.flatMap (fun f => f.deps))).map (lookupInfo infos) })

/-- Embeds the full Go signature of `CollectPackages`, whose error result is
always nil: the function has no error path. -/
def collectPackagesE (infos : List FileInfo) : Except GoStr (List PackageInfo) :=
  Except.ok (collectPackages infos)

/-- Helper for `importedPackageComputedNames`: walk the dependency list with
the `seen` set and the accumulated result (reversed). A `none` dependency
entry aborts the walk: reading `d.ComputedPackage` through a nil pointer is
a Go runtime panic. -/
def ipcnGo (seen : List GoStr) (acc : List GoStr) : List (Option FileInfo) → Option (List GoStr)
  | [] => some acc.reverse
  | none :: _ => none
  | some d :: rest =>
    let pkg := d.computedPackage
    if pkg ∈ seen then ipcnGo seen acc rest
    else ipcnGo (pkg :: seen) (pkg :: acc) rest

/-- Embeds `PackageInfo.ImportedPackageComputedNames` from packages.go: the
deduplicated computed-package names of the package's dependencies, with the
package's own name pre-seeded into the seen set (so never listed). `none`
models the nil-pointer panic on an unresolved dependency entry. -/
def importedPackageComputedNames (p : PackageInfo) : Option (List GoStr) :=
  ipcnGo [p.computedPackage] [] p.deps

/-- Spec-side reading of "the text after the last path separator" (and, with
another character, "after the last occurrence"): the longest suffix free of
the character. -/
def textAfterLast (ch : Char) (s : GoStr) : GoStr :=
  (s.reverse.takeWhile (fun x => decide (x ≠ ch))).reverse

theorem takeWhile_append_all {p : Char → Bool} {xs : GoStr} (ys : GoStr)
    (h : ∀ x ∈ xs, p x) : (xs ++ ys).takeWhile p = xs ++ ys.takeWhile p := by
  induction xs with
  | nil => simp
  | cons a l ih =>
    have ha : p a := h a (by simp)
    simp [List.takeWhile_cons, ha, ih (fun x hx => h x (by simp [hx]))]

theorem takeWhile_append_stop {p : Char → Bool} {xs : GoStr} (ys : GoStr)
    (h : ∃ x ∈ xs, ¬ p x) : (xs ++ ys).takeWhile p = xs.takeWhile p := by
  induction xs with
  | nil => simp at h
  | cons a l ih =>
    by_cases hpa : p a
    · obtain ⟨x, hx, hnp⟩ := h
      rcases List.mem_cons.mp hx with rfl | hx'
      · exact absurd hpa hnp
      · simp [List.takeWhile_cons, hpa, ih ⟨x, hx', hnp⟩]
    · simp [List.takeWhile_cons, hpa]

theorem lastIndexChar_nonneg_iff (ch : Char) (s : GoStr) :
    0 ≤ lastIndexChar ch s ↔ ch ∈ s := by
  induction s with
  | nil => simp [lastIndexChar]
  | cons c rest ih =>
    simp only [lastIndexChar]
    by_cases h : lastIndexChar ch rest ≥ 0
    · rw [if_pos h]
      simp only [List.mem_cons]
      constructor
      · intro _; exact Or.inr (ih.mp h)
      · intro _; omega
    · rw [if_neg h]
      by_cases hc : c = ch
      · simp [hc]
      · rw [if_neg hc]
        simp only [List.mem_cons]
        constructor
        · intro h0; omega
        · intro hm
          rcases hm with hm | hm
          · exact absurd hm.symm hc
          · exact absurd (ih.mpr hm) h

theorem lastIndexChar_pos_of_mem_drop (ch : Char) (s : GoStr)
    (h : ch ∈ s.drop 1) : 0 < lastIndexChar ch s := by
  cases s with
  | nil => simp at h
  | cons c rest =>
    simp only [List.drop_succ_cons, List.drop_zero] at h
    have h0 : 0 ≤ lastIndexChar ch rest := (lastIndexChar_nonneg_iff ch rest).mpr h
    simp only [lastIndexChar]
    rw [if_pos h0]
    omega

theorem drop_lastIndexChar (ch : Char) (s : GoStr) (h : ch ∈ s) :
    s.drop ((lastIndexChar ch s).toNat + 1) = textAfterLast ch s := by
  induction s with
  | nil => cases h
  | cons c rest ih =>
    by_cases hr : ch ∈ rest
    · have h0 : 0 ≤ lastIndexChar ch rest := (lastIndexChar_nonneg_iff ch rest).mpr hr
      have hval : lastIndexChar ch (c :: rest) = lastIndexChar ch rest + 1 := by
        simp only [lastIndexChar]; rw [if_pos h0]
      have htn : (lastIndexChar ch (c :: rest)).toNat
          = (lastIndexChar ch rest).toNat + 1 := by omega
      rw [htn]
      have hdrop : (c :: rest).drop ((lastIndexChar ch rest).toNat + 1 + 1)
          = rest.drop ((lastIndexChar ch rest).toNat + 1) := rfl
      rw [hdrop, ih hr]
      unfold textAfterLast
      have : (c :: rest).reverse = rest.reverse ++ [c] := by simp
      rw [this, takeWhile_append_stop]
      obtain ⟨x, hx⟩ : ∃ x, x ∈ rest.reverse ∧ x = ch := ⟨ch, by simp [hr]⟩
      exact ⟨x, hx.1, by simp [hx.2]⟩
    · have hc : c = ch := by
        rcases List.mem_cons.mp h with h' | h'
        · exact h'.symm
        · exact absurd h' hr
      have h0 : ¬ lastIndexChar ch rest ≥ 0 := by
        intro hge; exact hr ((lastIndexChar_nonneg_iff ch rest).mp hge)
      have hval : lastIndexChar ch (c :: rest) = 0 := by
        simp only [lastIndexChar]; rw [if_neg h0, if_pos hc]
      rw [hval]
      unfold textAfterLast
      have : (c :: rest).reverse = rest.reverse ++ [c] := by simp
      rw [this, takeWhile_append_all]
      · simp [hc]
      · intro x hx
        simp only [decide_eq_true_eq]
        intro hxe
        exact hr (by rw [← hxe]; exact (List.mem_reverse).mp hx)

/-- Claim C5 as stated is false: the annotation "/a;b" contains a path
separator and the explicit-name separator, yet the computed package is not
the annotation verbatim (the code requires the last separator's index to be
strictly positive, so a leading-slash-only annotation falls through to the
sanitizing branch). -/
theorem claim5_counterexample :
    ¬ ((computeGoLocation
        ⟨"x.proto".toList, [], [], "/a;b".toList, [], []⟩).1 = "/a;b".toList) := by
  decide

/-- Claim C5 (amended): for every file whose target annotation contains a
path separator at an index greater than zero (equivalently: a separator
occurs after the first character), the computed package is the annotation
verbatim when the annotation contains the explicit-name separator, and
otherwise the annotation followed by a semicolon and the text after the last
path separator; no character sanitization is applied in either case. -/
theorem claim5_amended (info : FileInfo) (h : '/' ∈ info.goPackage.drop 1) :
    (computeGoLocation info).1 =
      (if ';' ∈ info.goPackage then info.goPackage
       else info.goPackage ++ ';' :: textAfterLast '/' info.goPackage) := by
  have hpos : 0 < lastIndexChar '/' info.goPackage :=
    lastIndexChar_pos_of_mem_drop '/' info.goPackage h
  have hmem : '/' ∈ info.goPackage := by
    have := List.drop_subset 1 info.goPackage
    exact this h
  simp only [computeGoLocation]
  rw [if_pos hpos]
  by_cases hsemi : ';' ∈ info.goPackage
  · rw [if_pos hsemi, if_pos hsemi]
  · rw [if_neg hsemi, if_neg hsemi, drop_lastIndexChar '/' info.goPackage hmem]

/-- Witness for `claim5_amended` at the annotation "a/b". -/
theorem claim5_witness :
    '/' ∈ ("a/b".toList).drop 1 ∧
      (computeGoLocation ⟨"x.proto".toList, [], [], "a/b".toList, [], []⟩).1 =
        (if ';' ∈ "a/b".toList then "a/b".toList
         else "a/b".toList ++ ';' :: textAfterLast '/' "a/b".toList) :=
  ⟨by decide, claim5_amended ⟨"x.proto".toList, [], [], "a/b".toList, [], []⟩ (by decide)⟩

/-- Spec-side reading of C6's "declared name chosen as: the annotation if
non-empty, else the file's declaredPackage, else the file's base name
without extension". -/
def chosenDeclName (info : FileInfo) : GoStr :=
  if info.goPackage ≠ [] then info.goPackage
  else if info.package ≠ [] then info.package
  else baseName info.name

/-- Claim C6: for every file whose target annotation contains no path
separator, the computed package is the directory portion of the file's name,
a semicolon, and the chosen declared name (annotation, else declared
package, else base name) with every non-identifier character replaced by an
underscore; the warning is surfaced exactly in the base-name fallback case. -/
theorem claim6_no_separator (info : FileInfo) (h : '/' ∉ info.goPackage) :
    (computeGoLocation info).1 =
      filepathDir info.name ++ ';' :: (chosenDeclName info).map badToUnderscore
    ∧ ((computeGoLocation info).2 = true ↔
        info.goPackage = [] ∧ info.package = []) := by
  have hneg : ¬ 0 < lastIndexChar '/' info.goPackage := by
    intro hlt
    exact h ((lastIndexChar_nonneg_iff '/' info.goPackage).mp (le_of_lt hlt))
  simp only [computeGoLocation, chosenDeclName]
  rw [if_neg hneg]
  by_cases hgp : info.goPackage = []
  · by_cases hdp : info.package = []
    · simp [hgp, hdp]
    · simp [hgp, hdp]
  · simp [hgp]

/-- Witness for `claim6_no_separator` at a file with neither annotation nor
declared package (the warning fallback case). -/
theorem claim6_witness :
    '/' ∉ (("".toList : GoStr)) ∧
      ((computeGoLocation ⟨"x/foo-bar.baz.proto".toList, [], [], [], [], []⟩).1 =
        filepathDir "x/foo-bar.baz.proto".toList ++ ';' ::
          (chosenDeclName ⟨"x/foo-bar.baz.proto".toList, [], [], [], [], []⟩).map badToUnderscore
      ∧ ((computeGoLocation ⟨"x/foo-bar.baz.proto".toList, [], [], [], [], []⟩).2 = true ↔
          ([] : GoStr) = [] ∧ ([] : GoStr) = [])) :=
  ⟨by decide, claim6_no_separator ⟨"x/foo-bar.baz.proto".toList, [], [], [], [], []⟩ (by decide)⟩

theorem dedupFirst_mem {α : Type} [DecidableEq α] (seen l : List α) (x : α) :
    x ∈ dedupFirst seen l ↔ x ∈ l ∧ x ∉ seen := by
  induction l generalizing seen with
  | nil => simp [dedupFirst]
  | cons a rest ih =>
    simp only [dedupFirst]
    by_cases ha : a ∈ seen
    · rw [if_pos ha, ih]
      simp only [List.mem_cons]
      constructor
      · exact fun h => ⟨Or.inr h.1, h.2⟩
      · rintro ⟨h1 | h1, h2⟩
        · exact absurd ha (h1 ▸ h2)
        · exact ⟨h1, h2⟩
    · rw [if_neg ha]
      simp only [List.mem_cons, ih]
      constructor
      · rintro (rfl | ⟨h1, h2⟩)
        · exact ⟨Or.inl rfl, ha⟩
        · exact ⟨Or.inr h1, fun hx => h2 (Or.inr hx)⟩
      · rintro ⟨rfl | h1, h2⟩
        · exact Or.inl rfl
        · by_cases hxa : x = a
          · exact Or.inl hxa
          · exact Or.inr ⟨h1, fun hx => hx.elim hxa h2⟩

theorem dedupFirst_nodup {α : Type} [DecidableEq α] (seen l : List α) :
    (dedupFirst seen l).Nodup := by
  induction l generalizing seen with
  | nil => simp [dedupFirst]
  | cons a rest ih =>
    simp only [dedupFirst]
    by_cases ha : a ∈ seen
    · rw [if_pos ha]; exact ih seen
    · rw [if_neg ha]
      refine List.nodup_cons.mpr ⟨?_, ih (a :: seen)⟩
      intro hmem
      exact ((dedupFirst_mem (a :: seen) rest a).mp hmem).2 (List.mem_cons_self a seen)

/-- Bucket lookup in an association list of package buckets: the file list
stored under a key, or `[]` when the key is absent. -/
def bucketOf (B : List (GoStr × List FileInfo)) (k : GoStr) : List FileInfo :=
  match B.find? (fun b => b.1 = k) with
  | some b => b.2
  | none => []

theorem bucketOf_addToBucket (B : List (GoStr × List FileInfo)) (f : FileInfo) (k : GoStr) :
    bucketOf (addToBucket B f) k =
      if k = f.computedPackage then bucketOf B k ++ [f] else bucketOf B k := by
  induction B with
  | nil =>
    by_cases h : k = f.computedPackage
    · subst h; simp [addToBucket, bucketOf, List.find?]
    · rw [if_neg h]
      simp only [addToBucket, bucketOf, List.find?]
      have : ¬ (f.computedPackage = k) := fun he => h he.symm
      simp [this]
  | cons b rest ih =>
    obtain ⟨bk, bfs⟩ := b
    simp only [addToBucket]
    by_cases hb : bk = f.computedPackage
    · rw [if_pos hb]
      by_cases hk : k = f.computedPackage
      · subst hk
        simp only [bucketOf, List.find?, hb, decide_eq_true_eq]
        simp [hb, if_pos rfl]
      · rw [if_neg hk]
        have hbk : ¬ (bk = k) := fun he => hk (he ▸ hb ▸ rfl)
        simp only [bucketOf, List.find?]
        simp [hbk]
    · rw [if_neg hb]
      by_cases hbk : bk = k
      · subst hbk
        simp only [bucketOf, List.find?]
        simp [hb]
      · simp only [bucketOf, List.find?]
        have h1 : (decide (bk = k)) = false := by simp [hbk]
        simp only [h1, cond_false]
        have := ih
        simp only [bucketOf] at this
        exact this

theorem keys_addToBucket (B : List (GoStr × List FileInfo)) (f : FileInfo) :
    (addToBucket B f).map Prod.fst =
      if f.computedPackage ∈ B.map Prod.fst then B.map Prod.fst
      else B.map Prod.fst ++ [f.computedPackage] := by
  induction B with
  | nil => simp [addToBucket]
  | cons b rest ih =>
    obtain ⟨bk, bfs⟩ := b
    simp only [addToBucket]
    by_cases hb : bk = f.computedPackage
    · subst hb
      simp
    · rw [if_neg hb]
      simp only [List.map_cons, ih, List.mem_cons]
      by_cases hmem : f.computedPackage ∈ rest.map Prod.fst
      · rw [if_pos hmem, if_pos (Or.inr hmem)]
      · rw [if_neg hmem, if_neg ?_]
        · simp
        · rintro (h | h)
          · exact hb h.symm
          · exact hmem h

theorem keysNodup_addToBucket (B : List (GoStr × List FileInfo)) (f : FileInfo)
    (h : (B.map Prod.fst).Nodup) : ((addToBucket B f).map Prod.fst).Nodup := by
  rw [keys_addToBucket]
  by_cases hmem : f.computedPackage ∈ B.map Prod.fst
  · rwa [if_pos hmem]
  · rw [if_neg hmem]
    simp [List.nodup_append, h, hmem]

theorem bucketOf_foldl (l : List FileInfo) (B : List (GoStr × List FileInfo)) (k : GoStr) :
    bucketOf (l.foldl addToBucket B) k
      = bucketOf B k ++ l.filter (fun f => f.computedPackage = k) := by
  induction l generalizing B with
  | nil => simp
  | cons f rest ih =>
    simp only [List.foldl_cons, ih, bucketOf_addToBucket, List.filter_cons]
    by_cases h : f.computedPackage = k
    · rw [if_pos h.symm]
      simp [h, List.append_assoc]
    · rw [if_neg (fun he => h he.symm)]
      simp [h]

theorem keys_mem_foldl (l : List FileInfo) (B : List (GoStr × List FileInfo)) (k : GoStr) :
    k ∈ (l.foldl addToBucket B).map Prod.fst ↔
      k ∈ B.map Prod.fst ∨ ∃ f ∈ l, f.computedPackage = k := by
  induction l generalizing B with
  | nil => simp
  | cons f rest ih =>
    simp only [List.foldl_cons, ih, keys_addToBucket]
    by_cases hmem : f.computedPackage ∈ B.map Prod.fst
    · rw [if_pos hmem]
      constructor
      · rintro (h | h)
        · exact Or.inl h
        · obtain ⟨g, hg, hgk⟩ := h
          exact Or.inr ⟨g, List.mem_cons_of_mem f hg, hgk⟩
      · rintro (h | ⟨g, hg, hgk⟩)
        · exact Or.inl h
        · rcases List.mem_cons.mp hg with rfl | hg'
          · exact Or.inl (hgk ▸ hmem)
          · exact Or.inr ⟨g, hg', hgk⟩
    · rw [if_neg hmem]
      simp only [List.mem_append, List.mem_singleton]
      constructor
      · rintro ((h | h) | h)
        · exact Or.inl h
        · exact Or.inr ⟨f, List.mem_cons_self f rest, h.symm⟩
        · obtain ⟨g, hg, hgk⟩ := h
          exact Or.inr ⟨g, List.mem_cons_of_mem f hg, hgk⟩
      · rintro (h | ⟨g, hg, hgk⟩)
        · exact Or.inl (Or.inl h)
        · rcases List.mem_cons.mp hg with rfl | hg'
          · exact Or.inl (Or.inr hgk.symm)
          · exact Or.inr ⟨g, hg', hgk⟩

theorem keysNodup_foldl (l : List FileInfo) (B : List (GoStr × List FileInfo))
    (h : (B.map Prod.fst).Nodup) : ((l.foldl addToBucket B).map Prod.fst).Nodup := by
  induction l generalizing B with
  | nil => exact h
  | cons f rest ih => exact ih _ (keysNodup_addToBucket B f h)

theorem bucketOf_of_mem (B : List (GoStr × List FileInfo))
    (hnd : (B.map Prod.fst).Nodup) (b : GoStr × List FileInfo) (hb : b ∈ B) :
    bucketOf B b.1 = b.2 := by
  induction B with
  | nil => cases hb
  | cons c rest ih =>
    rcases List.mem_cons.mp hb with rfl | hb'
    · simp [bucketOf, List.find?]
    · obtain ⟨ck, cfs⟩ := c
      have hck : ¬ (ck = b.1) := by
        intro he
        have : b.1 ∈ rest.map Prod.fst := List.mem_map_of_mem Prod.fst hb'
        rw [← he] at this
        exact (List.nodup_cons.mp (by simpa using hnd)).1 this
      simp only [bucketOf, List.find?]
      have h1 : (decide (ck = b.1)) = false := by simp [hck]
      simp only [h1, cond_false]
      have := ih (List.nodup_cons.mp (by simpa using hnd)).2 hb'
      simpa [bucketOf] using this

theorem groupByPackage_files (infos : List FileInfo) (b : GoStr × List FileInfo)
    (hb : b ∈ groupByPackage infos) :
    b.2 = infos.filter (fun f => f.computedPackage = b.1) := by
  have hnd : ((groupByPackage infos).map Prod.fst).Nodup :=
    keysNodup_foldl infos [] (by simp)
  have h1 := bucketOf_of_mem _ hnd b hb
  have h2 := bucketOf_foldl infos [] b.1
  unfold groupByPackage at h1
  rw [h1] at h2
  simpa [bucketOf, List.find?] using h2

theorem groupByPackage_keys (infos : List FileInfo) (k : GoStr) :
    k ∈ (groupByPackage infos).map Prod.fst ↔ ∃ f ∈ infos, f.computedPackage = k := by
  have := keys_mem_foldl infos [] k
  simpa [groupByPackage] using this

theorem ipcnGo_none (deps : List (Option FileInfo)) (seen acc : List GoStr)
    (h : none ∈ deps) : ipcnGo seen acc deps = none := by
  induction deps generalizing seen acc with
  | nil => cases h
  | cons d rest ih =>
    match d with
    | none => rfl
    | some f =>
      have h' : none ∈ rest := by
        rcases List.mem_cons.mp h with h0 | h0
        · cases h0
        · exact h0
      simp only [ipcnGo]
      by_cases hseen : f.computedPackage ∈ seen
      · rw [if_pos hseen]; exact ih _ _ h'
      · rw [if_neg hseen]; exact ih _ _ h'

theorem ipcnGo_mem (deps : List (Option FileInfo)) (seen acc l : List GoStr)
    (h : ipcnGo seen acc deps = some l) : ∀ x ∈ l, x ∈ acc ∨ x ∉ seen := by
  induction deps generalizing seen acc with
  | nil =>
    simp only [ipcnGo, Option.some_inj] at h
    subst h
    intro x hx
    exact Or.inl (List.mem_reverse.mp hx)
  | cons d rest ih =>
    match d with
    | none => simp [ipcnGo] at h
    | some f =>
      simp only [ipcnGo] at h
      by_cases hseen : f.computedPackage ∈ seen
      · rw [if_pos hseen] at h
        exact ih _ _ h
      · rw [if_neg hseen] at h
        intro x hx
        rcases ih _ _ h x hx with hacc | hns
        · rcases List.mem_cons.mp hacc with rfl | h'
          · exact Or.inr hseen
          · exact Or.inl h'
        · exact Or.inr (fun hs => hns (List.mem_cons_of_mem _ hs))

/-- Claim C3 as stated is false: with two files of the same computed package
where one imports the other, the package's dependency set contains a member
of the same bucket (the code never filters same-bucket dependencies out of
`PackageInfo.Deps`). -/
theorem claim3_counterexample :
    ∃ p ∈ collectPackages
        [⟨"a.proto".toList, [], [], [], ["b.proto".toList], "k".toList⟩,
         ⟨"b.proto".toList, [], [], [], [], "k".toList⟩],
      ∃ d ∈ p.deps, ∃ f ∈ p.files, d = some f := by
  refine ⟨⟨"k".toList,
      [⟨"a.proto".toList, [], [], [], ["b.proto".toList], "k".toList⟩,
       ⟨"b.proto".toList, [], [], [], [], "k".toList⟩],
      [some ⟨"b.proto".toList, [], [], [], [], "k".toList⟩]⟩,
    by decide, some ⟨"b.proto".toList, [], [], [], [], "k".toList⟩, by decide,
    ⟨"b.proto".toList, [], [], [], [], "k".toList⟩, by decide, by decide⟩

/-- Claim C3 (amended): each bucket holds exactly the files of its computed
package; its dependency list is the name-deduplicated list of the `infos`
lookups of all member dependencies — including dependencies that are
themselves members of the same bucket; the exclusion of the package's own
key happens only later, in `ImportedPackageComputedNames`, which never lists
the package's own computed package. -/
theorem claim3_amended (infos : List FileInfo) (p : PackageInfo)
    (hp : p ∈ collectPackages infos) :
    p.files = infos.filter (fun f => f.computedPackage = p.computedPackage)
    ∧ (∃ names : List GoStr, names.Nodup
        ∧ (∀ n, n ∈ names ↔ n ∈ p.files.flatMap (fun f => f.deps))
        ∧ p.deps = names.map (lookupInfo infos))
    ∧ (∀ l, importedPackageComputedNames p = some l → p.computedPackage ∉ l) := by
  obtain ⟨b, hb, rfl⟩ := List.mem_map.mp hp
  refine ⟨groupByPackage_files infos b hb, ?_, ?_⟩
  · refine ⟨dedupFirst [] (b.2.flatMap (fun f => f.deps)), dedupFirst_nodup _ _, ?_, rfl⟩
    intro n
    rw [dedupFirst_mem]
    simp
  · intro l hl hmem
    rcases ipcnGo_mem _ _ _ _ hl _ hmem with hacc | hns
    · cases hacc
    · exact hns (List.mem_cons_self _ _)

/-- Example files for the witness of `claim3_amended`. -/
def exA3 : FileInfo := ⟨"c.proto".toList, [], [], [], ["d.proto".toList], "q".toList⟩

/-- Second example file for the witness of `claim3_amended`. -/
def exB3 : FileInfo := ⟨"d.proto".toList, [], [], [], [], "q".toList⟩

/-- Example package for the witness of `claim3_amended`. -/
def exP3 : PackageInfo := ⟨"q".toList, [exA3, exB3], [some exB3]⟩

/-- Witness for `claim3_amended` on a two-file package. -/
theorem claim3_witness :
    exP3 ∈ collectPackages [exA3, exB3]
    ∧ (exP3.files = [exA3, exB3].filter (fun f => f.computedPackage = exP3.computedPackage)
      ∧ (∃ names : List GoStr, names.Nodup
          ∧ (∀ n, n ∈ names ↔ n ∈ exP3.files.flatMap (fun f => f.deps))
          ∧ exP3.deps = names.map (lookupInfo [exA3, exB3]))
      ∧ (∀ l, importedPackageComputedNames exP3 = some l → exP3.computedPackage ∉ l)) :=
  ⟨by decide, claim3_amended [exA3, exB3] exP3 (by decide)⟩

/-- Claim C7 as stated is false: a dependency name that resolves to no
discovered file is not a reported error — `CollectPackages` records a nil
(`none`) entry for it and returns success; the failure surfaces only later
as a runtime panic (modelled `none`) when the dependency's computed package
is read in `ImportedPackageComputedNames`. -/
theorem claim7_counterexample :
    collectPackagesE [⟨"a.proto".toList, [], [], [], ["missing.proto".toList], "k".toList⟩]
      = Except.ok
          [⟨"k".toList, [⟨"a.proto".toList, [], [], [], ["missing.proto".toList], "k".toList⟩],
            [none]⟩]
    ∧ importedPackageComputedNames
        ⟨"k".toList, [⟨"a.proto".toList, [], [], [], ["missing.proto".toList], "k".toList⟩],
          [none]⟩ = none := by
  exact ⟨by rfl, by decide⟩

/-- Claim C7 (amended): an unresolved dependency name is not reported as an
error and is not dropped: `CollectPackages` always returns success, records
a `none` entry for every unresolved member dependency, and any package whose
dependency list contains such an entry panics (modelled `none`) as soon as
`ImportedPackageComputedNames` is called on it (e.g. by cycle checking). -/
theorem claim7_amended (infos : List FileInfo) :
    collectPackagesE infos = Except.ok (collectPackages infos)
    ∧ (∀ p ∈ collectPackages infos, ∀ n, n ∈ p.files.flatMap (fun f => f.deps) →
        lookupInfo infos n = none → none ∈ p.deps)
    ∧ (∀ p ∈ collectPackages infos, none ∈ p.deps →
        importedPackageComputedNames p = none) := by
  refine ⟨rfl, ?_, ?_⟩
  · intro p hp n hn hlook
    obtain ⟨b, hb, rfl⟩ := List.mem_map.mp hp
    have hmem : n ∈ dedupFirst [] (b.2.flatMap (fun f => f.deps)) := by
      rw [dedupFirst_mem]
      exact ⟨hn, by simp⟩
    have : lookupInfo infos n ∈
        (dedupFirst [] (b.2.flatMap (fun f => f.deps))).map (lookupInfo infos) :=
      List.mem_map_of_mem _ hmem
    rw [hlook] at this
    exact this
  · intro p _ hnone
    exact ipcnGo_none p.deps _ _ hnone

/-- Witness for `claim7_amended` on a one-file input with a missing
dependency. -/
theorem claim7_witness :
    collectPackagesE [⟨"e.proto".toList, [], [], [], ["gone.proto".toList], "r".toList⟩]
      = Except.ok (collectPackages [⟨"e.proto".toList, [], [], [], ["gone.proto".toList], "r".toList⟩])
    ∧ (∀ p ∈ collectPackages [⟨"e.proto".toList, [], [], [], ["gone.proto".toList], "r".toList⟩],
        ∀ n, n ∈ p.files.flatMap (fun f => f.deps) →
        lookupInfo [⟨"e.proto".toList, [], [], [], ["gone.proto".toList], "r".toList⟩] n = none →
        none ∈ p.deps)
    ∧ (∀ p ∈ collectPackages [⟨"e.proto".toList, [], [], [], ["gone.proto".toList], "r".toList⟩],
        none ∈ p.deps → importedPackageComputedNames p = none) :=
  claim7_amended [⟨"e.proto".toList, [], [], [], ["gone.proto".toList], "r".toList⟩]

theorem lookupInfo_perm (l1 l2 : List FileInfo)
    (hnd : (l1.map FileInfo.name).Nodup) (hp : l1.Perm l2) (n : GoStr) :
    lookupInfo l1 n = lookupInfo l2 n := by
  unfold lookupInfo
  cases h1 : l1.find? (fun i => i.name = n) with
  | none =>
    rw [List.find?_eq_none] at h1
    symm
    rw [List.find?_eq_none]
    intro x hx
    exact h1 x (hp.mem_iff.mpr hx)
  | some f =>
    have hf := List.find?_some h1
    have hfm := List.mem_of_find?_eq_some h1
    simp only [decide_eq_true_eq] at hf
    cases h2 : l2.find? (fun i => i.name = n) with
    | none =>
      rw [List.find?_eq_none] at h2
      exact absurd (by simp [hf]) (h2 f (hp.mem_iff.mp hfm))
    | some g =>
      have hg := List.find?_some h2
      have hgm := List.mem_of_find?_eq_some h2
      simp only [decide_eq_true_eq] at hg
      have : f = g :=
        List.inj_on_of_nodup_map hnd hfm (hp.mem_iff.mpr hgm) (by rw [hf, hg])
      rw [this]

/-- Claim C8: a file's computed package depends only on the file's own
`name`, `package` and `go_package` fields, and permuting the file iteration
order changes neither the computed packages nor the bucket structure of
`CollectPackages` (keys, member sets and dependency sets all correspond). -/
theorem claim8_order_independence :
    (∀ f g : FileInfo, f.name = g.name → f.package = g.package →
        f.goPackage = g.goPackage → computeGoLocation f = computeGoLocation g)
    ∧ (∀ l1 l2 : List FileInfo, (l1.map FileInfo.name).Nodup → l1.Perm l2 →
        ((computeGoLocations l1).Perm (computeGoLocations l2)
        ∧ ∀ p1 ∈ collectPackages l1, ∃ p2 ∈ collectPackages l2,
            p1.computedPackage = p2.computedPackage
            ∧ p1.files.Perm p2.files
            ∧ ∀ d, d ∈ p1.deps ↔ d ∈ p2.deps)) := by
  constructor
  · intro f g h1 h2 h3
    simp only [computeGoLocation, h1, h2, h3]
  · intro l1 l2 hnd hperm
    constructor
    · exact hperm.map _
    · intro p1 hp1
      obtain ⟨b, hb, rfl⟩ := List.mem_map.mp hp1
      have hk1 : b.1 ∈ (groupByPackage l1).map Prod.fst := List.mem_map_of_mem Prod.fst hb
      obtain ⟨f0, hf0, hf0k⟩ := (groupByPackage_keys l1 b.1).mp hk1
      have hk2 : b.1 ∈ (groupByPackage l2).map Prod.fst :=
        (groupByPackage_keys l2 b.1).mpr ⟨f0, hperm.mem_iff.mp hf0, hf0k⟩
      obtain ⟨b2, hb2, hb2k⟩ := List.mem_map.mp hk2
      refine ⟨_, List.mem_map_of_mem _ hb2, hb2k.symm, ?_, ?_⟩
      · have e1 := groupByPackage_files l1 b hb
        have e2 := groupByPackage_files l2 b2 hb2
        rw [e1, e2, hb2k]
        exact hperm.filter _
      · intro d
        have hfilesPerm : b.2.Perm b2.2 := by
          have e1 := groupByPackage_files l1 b hb
          have e2 := groupByPackage_files l2 b2 hb2
          rw [e1, e2, hb2k]
          exact hperm.filter _
        simp only [List.mem_map]
        constructor
        · rintro ⟨n, hn, rfl⟩
          rw [dedupFirst_mem] at hn
          refine ⟨n, ?_, (lookupInfo_perm l1 l2 hnd hperm n).symm⟩
          rw [dedupFirst_mem]
          refine ⟨?_, by simp⟩
          rw [List.mem_flatMap] at hn ⊢
          obtain ⟨f1, hf1, hf1d⟩ := hn.1
          exact ⟨f1, hfilesPerm.mem_iff.mp hf1, hf1d⟩
        · rintro ⟨n, hn, rfl⟩
          rw [dedupFirst_mem] at hn
          refine ⟨n, ?_, lookupInfo_perm l1 l2 hnd hperm n⟩
          rw [dedupFirst_mem]
          refine ⟨?_, by simp⟩
          rw [List.mem_flatMap] at hn ⊢
          obtain ⟨f1, hf1, hf1d⟩ := hn.1
          exact ⟨f1, hfilesPerm.mem_iff.mpr hf1, hf1d⟩

/-- Witness for `claim8_order_independence` on a two-file shuffle. -/
theorem claim8_witness :
    (([⟨"m.proto".toList, [], [], [], [], "s".toList⟩,
       ⟨"n.proto".toList, [], [], [], [], "t".toList⟩] : List FileInfo).map
        FileInfo.name).Nodup
    ∧ ([⟨"m.proto".toList, [], [], [], [], "s".toList⟩,
        ⟨"n.proto".toList, [], [], [], [], "t".toList⟩] : List FileInfo).Perm
        [⟨"n.proto".toList, [], [], [], [], "t".toList⟩,
         ⟨"m.proto".toList, [], [], [], [], "s".toList⟩]
    ∧ ((computeGoLocations
          [⟨"m.proto".toList, [], [], [], [], "s".toList⟩,
           ⟨"n.proto".toList, [], [], [], [], "t".toList⟩]).Perm
        (computeGoLocations
          [⟨"n.proto".toList, [], [], [], [], "t".toList⟩,
           ⟨"m.proto".toList, [], [], [], [], "s".toList⟩])
      ∧ ∀ p1 ∈ collectPackages
            [⟨"m.proto".toList, [], [], [], [], "s".toList⟩,
             ⟨"n.proto".toList, [], [], [], [], "t".toList⟩],
          ∃ p2 ∈ collectPackages
            [⟨"n.proto".toList, [], [], [], [], "t".toList⟩,
             ⟨"m.proto".toList, [], [], [], [], "s".toList⟩],
            p1.computedPackage = p2.computedPackage
            ∧ p1.files.Perm p2.files
            ∧ ∀ d, d ∈ p1.deps ↔ d ∈ p2.deps) :=
  ⟨by decide, by decide,
    claim8_order_independence.2 _ _ (by decide) (by decide)⟩

/-- Embeds the loop of `Disjoint` from finding.go: `set` holds the strings
seen so far (initially the existing files); an additional file already in the
set is skipped, otherwise it is added to the set and kept. -/
def disjointLoop (set : List GoStr) : List GoStr → List GoStr
  | [] => []
  | p :: rest =>
    if p ∈ set then disjointLoop set rest
    else p :: disjointLoop (p :: set) rest

/-- Embeds `Disjoint` from finding.go: the subset of the new files with
distinct paths not in the existing set. (Named `goDisjoint` because `Disjoint`
is taken by Mathlib.) -/
def goDisjoint (existing additional : List GoStr) : List GoStr :=
  disjointLoop existing additional

/-- Embeds the expansion step of `Wrapper.Init` (wrapper.go): the caller's
proto files followed by the expansion; `neighbors` stands for the result of
the filesystem walk `ProtosBelow`, which is an external input here. -/
def initAllProtos (protoFiles neighbors : List GoStr) (noExpand : Bool) : List GoStr :=
  let expanded := if noExpand then [] else goDisjoint protoFiles neighbors
  protoFiles ++ expanded

theorem disjointLoop_eq_dedupFirst (set l : List GoStr) :
    disjointLoop set l = dedupFirst set l := by
  induction l generalizing set with
  | nil => rfl
  | cons p rest ih =>
    simp only [disjointLoop, dedupFirst]
    by_cases h : p ∈ set
    · rw [if_pos h, if_pos h, ih]
    · rw [if_neg h, if_neg h, ih]

/-- Spec-side reading of "keeping only the first occurrence of each
duplicate and preserving their relative order". -/
def firstOccur {α : Type} [DecidableEq α] : List α → List α
  | [] => []
  | x :: rest => x :: firstOccur (rest.filter (fun y => decide (y ≠ x)))
termination_by l => l.length
decreasing_by
  simp only [List.length_cons]
  exact Nat.lt_succ_of_le (List.length_filter_le _ _)

theorem dedupFirst_filter_out {α : Type} [DecidableEq α] (seen l : List α) (x : α)
    (hx : x ∈ seen) :
    dedupFirst seen l = dedupFirst seen (l.filter (fun y => decide (y ≠ x))) := by
  induction l generalizing seen with
  | nil => rfl
  | cons a rest ih =>
    simp only [List.filter_cons]
    by_cases hax : a = x
    · subst hax
      rw [if_neg (by simp)]
      simp only [dedupFirst]
      rw [if_pos hx]
      exact ih seen hx
    · rw [if_pos (by simp [hax])]
      simp only [dedupFirst]
      by_cases ha : a ∈ seen
      · rw [if_pos ha, if_pos ha]
        exact ih seen hx
      · rw [if_neg ha, if_neg ha, ih (a :: seen) (List.mem_cons_of_mem a hx)]

theorem dedupFirst_eq_firstOccur_filter :
    ∀ (n : Nat) (seen l : List GoStr), l.length = n →
      dedupFirst seen l = firstOccur (l.filter (fun p => decide (p ∉ seen))) := by
  intro n
  induction n using Nat.strong_induction_on with
  | _ n ih =>
    intro seen l hn
    cases l with
    | nil => simp [dedupFirst, firstOccur]
    | cons p rest =>
      simp only [List.filter_cons, dedupFirst]
      by_cases h : p ∈ seen
      · rw [if_pos h, if_neg (by simp [h])]
        exact ih rest.length (by simp [← hn]) seen rest rfl
      · rw [if_neg h, if_pos (by simp [h])]
        simp only [firstOccur]
        congr 1
        have hfilter : (rest.filter (fun y => decide (y ∉ seen))).filter
              (fun y => decide (y ≠ p))
            = (rest.filter (fun y => decide (y ≠ p))).filter
              (fun y => decide (y ∉ p :: seen)) := by
          rw [List.filter_filter, List.filter_filter]
          apply List.filter_congr
          intro x _
          by_cases h1 : x = p <;> by_cases h2 : x ∈ seen <;> simp [h1, h2]
        rw [hfilter]
        have hlen : (rest.filter (fun y => decide (y ≠ p))).length < n := by
          simp only [← hn, List.length_cons]
          exact Nat.lt_succ_of_le (List.length_filter_le _ _)
        rw [← ih _ hlen (p :: seen) _ rfl]
        exact dedupFirst_filter_out (p :: seen) rest p (List.mem_cons_self p seen)

theorem disjointLoop_sublist (set l : List GoStr) : (disjointLoop set l).Sublist l := by
  induction l generalizing set with
  | nil => simp [disjointLoop]
  | cons p rest ih =>
    simp only [disjointLoop]
    by_cases h : p ∈ set
    · rw [if_pos h]
      exact (ih set).cons p
    · rw [if_neg h]
      exact (ih (p :: set)).cons₂ p

/-- Claim C9's consequence for Init as stated is false when the caller's
proto file list itself contains a duplicate: Init never deduplicates the
caller-supplied files, only the discovered ones against them. -/
theorem claim9_counterexample :
    ¬ (initAllProtos ["a.proto".toList, "a.proto".toList] [] false).Nodup := by
  decide

/-- Claim C9 (amended): `Disjoint` returns exactly the elements of the new
list that are not in the existing list, first occurrences only, in order
(stated three ways: as the spec-side first-occurrence function, as a
membership characterization with no duplicates, and as an order-preserving
sublist); the expanded list of Init is the caller's files followed by those,
so no discovered path appears twice or duplicates a caller path — and no
path at all appears twice provided the caller's own list is duplicate-free. -/
theorem claim9_amended :
    (∀ e a : List GoStr,
        goDisjoint e a = firstOccur (a.filter (fun p => decide (p ∉ e)))
        ∧ (∀ x, x ∈ goDisjoint e a ↔ x ∈ a ∧ x ∉ e)
        ∧ (goDisjoint e a).Nodup
        ∧ (goDisjoint e a).Sublist a)
    ∧ (∀ protoFiles neighbors : List GoStr,
        initAllProtos protoFiles neighbors false
          = protoFiles ++ goDisjoint protoFiles neighbors
        ∧ (protoFiles.Nodup → (initAllProtos protoFiles neighbors false).Nodup)) := by
  have hdedup : ∀ e a : List GoStr, goDisjoint e a = dedupFirst e a := by
    intro e a
    exact disjointLoop_eq_dedupFirst e a
  constructor
  · intro e a
    refine ⟨?_, ?_, ?_, disjointLoop_sublist e a⟩
    · rw [hdedup]
      exact dedupFirst_eq_firstOccur_filter a.length e a rfl
    · intro x
      rw [hdedup]
      exact dedupFirst_mem e a x
    · rw [hdedup]
      exact dedupFirst_nodup e a
  · intro protoFiles neighbors
    constructor
    · rfl
    · intro hnd
      unfold initAllProtos
      simp only [Bool.false_eq_true, if_false]
      rw [List.nodup_append]
      refine ⟨hnd, by rw [hdedup]; exact dedupFirst_nodup _ _, ?_⟩
      intro x hx hx2
      rw [hdedup] at hx2
      exact ((dedupFirst_mem _ _ x).mp hx2).2 hx

/-- Witness for `claim9_amended` on concrete file lists with an overlapping
and a repeated discovered path. -/
theorem claim9_witness :
    initAllProtos ["x.proto".toList]
        ["x.proto".toList, "y.proto".toList, "y.proto".toList] false
      = ["x.proto".toList] ++ goDisjoint ["x.proto".toList]
          ["x.proto".toList, "y.proto".toList, "y.proto".toList]
    ∧ (["x.proto".toList].Nodup →
        (initAllProtos ["x.proto".toList]
          ["x.proto".toList, "y.proto".toList, "y.proto".toList] false).Nodup) :=
  claim9_amended.2 ["x.proto".toList]
    ["x.proto".toList, "y.proto".toList, "y.proto".toList]

/-- Embeds the `noValueFlags` set of flags.go: protoc flags that take no
value. -/
def noValueFlags : List GoStr :=
  ["-h".toList, "--help".toList, "--disallow_services".toList,
   "--include_imports".toList, "--include_source_info".toList,
   "--version".toList, "--decode_raw".toList,
   "--print_free_field_numbers".toList]

/-- Models Go `strings.SplitN(s, "=", 2)`: the part before the first `=`,
and the remainder after it (`none` when there is no `=`, matching a
one-element split). -/
def splitEq1 : GoStr → GoStr × Option GoStr
  | [] => ([], none)
  | c :: rest =>
    if c = '=' then ([], some rest)
    else
      let r := splitEq1 rest
      (c :: r.1, r.2)

/-- Embeds the local parsing state of `ParseArgs` in flags.go: the four
accumulating results and the three `nextIs...` flags with the pending custom
flag name. The customFlags Go map is modelled as a lookup function. -/
structure ParseSt where
  customFlags : GoStr → Option GoStr
  protocFlags : List GoStr
  protos : List GoStr
  importDirs : List GoStr
  nextIsFlag : Bool
  nextIsCustomFlag : Bool
  nextIsImportDir : Bool
  customName : GoStr

/-- Embeds the two error returns of `ParseArgs`: a disallowed bare argument,
or a trailing flag without its value. On error Go returns nil for all other
results, which the `Except.error` constructor models by carrying none of
them. -/
inductive ParseErr where
  | notAllowed (arg : GoStr)
  | missingValue (arg : GoStr)
deriving DecidableEq, Repr

/-- Embeds one iteration of the argument loop of `ParseArgs` (flags.go):
the branches appear in the source's order — disallowed argument, pending
custom-flag value, pending flag value (also captured as an import directory
when flagged), no-value flags, positional file, double-dash flag (custom or
passthrough), and single-dash flag with attached or following value. -/
def parseStep (custom : GoStr → Option Bool) (st : ParseSt) (arg : GoStr) :
    Except ParseErr ParseSt :=
  if arg = [] ∨ arg = ['-'] ∨ arg = ['-', '-'] then
    .error (.notAllowed arg)
  else if st.nextIsCustomFlag then
    .ok { st with
      customFlags := fun n => if n = st.customName then some arg else st.customFlags n,
      nextIsCustomFlag := false }
  else if st.nextIsFlag then
    .ok { st with
      protocFlags := st.protocFlags ++ [arg],
      nextIsFlag := false,
      importDirs := if st.nextIsImportDir then st.importDirs ++ [arg] else st.importDirs,
      nextIsImportDir := false }
  else if arg ∈ noValueFlags then
    .ok { st with protocFlags := st.protocFlags ++ [arg] }
  else if arg.head? ≠ some '-' then
    .ok { st with protos := st.protos ++ [arg] }
  else if arg[1]? = some '-' then
    let parts := splitEq1 (arg.drop 2)
    match custom parts.1 with
    | some needsValue =>
      match parts.2 with
      | none =>
        if needsValue then
          .ok { st with nextIsCustomFlag := true, customName := parts.1 }
        else
          .ok { st with
            customFlags := fun n => if n = parts.1 then some [] else st.customFlags n }
      | some v =>
        .ok { st with
          customFlags := fun n => if n = parts.1 then some v else st.customFlags n }
    | none =>
      .ok { st with
        protocFlags := st.protocFlags ++ [arg],
        nextIsFlag := parts.2.isNone }
  else
    let st1 := { st with protocFlags := st.protocFlags ++ [arg] }
    if arg.length = 2 then
      .ok { st1 with nextIsFlag := true, nextIsImportDir := arg[1]? = some 'I' }
    else if arg[1]? = some 'I' then
      .ok { st1 with importDirs := st1.importDirs ++ [arg.drop 2] }
    else
      .ok st1

/-- Embeds `ParseArgs` from flags.go: fold the argument loop over an empty
state, then fail when a flag is still expecting a value (Go formats the last
argument into the message). -/
def parseArgsGo (args : List GoStr) (custom : GoStr → Option Bool) :
    Except ParseErr ParseSt := do
  let st ← args.foldlM (parseStep custom)
    ⟨fun _ => none, [], [], [], false, false, false, []⟩
  if st.nextIsFlag || st.nextIsCustomFlag then
    .error (.missingValue ((args.getLast?).getD []))
  else
    .ok st

/-- Spec-side scan of C10's "a flag still expecting a value": how one
argument changes whether the next argument would be consumed as a value. -/
def pendingStep (custom : GoStr → Option Bool) (pending : Bool) (arg : GoStr) : Bool :=
  if pending then false
  else if arg ∈ noValueFlags then false
  else if arg.head? ≠ some '-' then false
  else if arg[1]? = some '-' then
    match custom (splitEq1 (arg.drop 2)).1 with
    | some needsValue => needsValue && (splitEq1 (arg.drop 2)).2.isNone
    | none => (splitEq1 (arg.drop 2)).2.isNone
  else decide (arg.length = 2)

/-- Spec-side scan of C10: whether, after all arguments, a flag is still
expecting a value that never arrived. -/
def pendingAfter (custom : GoStr → Option Bool) (pending : Bool) : List GoStr → Bool
  | [] => pending
  | a :: rest => pendingAfter custom (pendingStep custom pending a) rest

/-- Spec-side scan of C10: whether the next argument would be recorded as
an import directory (it is the value following a bare `-I`). -/
def impStep (custom : GoStr → Option Bool) (pending pendImp : Bool) (arg : GoStr) : Bool :=
  if pending then false
  else if arg ∈ noValueFlags then false
  else if arg.head? ≠ some '-' then false
  else if arg[1]? = some '-' then false
  else decide (arg.length = 2) && decide (arg[1]? = some 'I')

/-- Spec-side scan of C10: the import directories contributed by one
argument — the argument itself when it is the value of a preceding bare
`-I`, or its tail when it is an attached `-Idir`. -/
def iDirsDelta (pending pendImp : Bool) (arg : GoStr) : List GoStr :=
  if pending then (if pendImp then [arg] else [])
  else if arg ∈ noValueFlags then []
  else if arg.head? ≠ some '-' then []
  else if arg[1]? = some '-' then []
  else if arg.length = 2 then []
  else if arg[1]? = some 'I' then [arg.drop 2]
  else []

/-- Spec-side scan of C10: all import-directory values supplied to
single-dash `-I` flags, in order. -/
def iDirsAfter (custom : GoStr → Option Bool) (pending pendImp : Bool) :
    List GoStr → List GoStr
  | [] => []
  | a :: rest =>
    iDirsDelta pending pendImp a
      ++ iDirsAfter custom (pendingStep custom pending a)
          (impStep custom pending pendImp a) rest

/-- Invariants of the `ParseArgs` state: the two pending kinds are mutually
exclusive, and the import-directory marker only accompanies a pending plain
flag. -/
def ParseInv (st : ParseSt) : Prop :=
  (st.nextIsFlag = false ∨ st.nextIsCustomFlag = false)
  ∧ (st.nextIsImportDir = true → st.nextIsFlag = true ∧ st.nextIsCustomFlag = false)

/-- Every recorded import directory was passed through to the protoc flags,
either as the bare value following `-I` or inside an attached `-Idir`. -/
def ParseGood (st : ParseSt) : Prop :=
  ∀ d ∈ st.importDirs, d ∈ st.protocFlags ∨ ('-' :: 'I' :: d) ∈ st.protocFlags

theorem goodExtend (imp pf pf' : List GoStr)
    (hg : ∀ d ∈ imp, d ∈ pf ∨ ('-' :: 'I' :: d) ∈ pf)
    (hsub : ∀ x ∈ pf, x ∈ pf') :
    ∀ d ∈ imp, d ∈ pf' ∨ ('-' :: 'I' :: d) ∈ pf' := by
  intro d hd
  rcases hg d hd with h | h
  · exact Or.inl (hsub _ h)
  · exact Or.inr (hsub _ h)

theorem parseStep_spec (custom : GoStr → Option Bool) (st : ParseSt) (arg : GoStr)
    (st₁ : ParseSt) (hinv : ParseInv st)
    (h : parseStep custom st arg = .ok st₁) :
    ParseInv st₁
    ∧ (st₁.nextIsFlag || st₁.nextIsCustomFlag)
        = pendingStep custom (st.nextIsFlag || st.nextIsCustomFlag) arg
    ∧ st₁.nextIsImportDir
        = impStep custom (st.nextIsFlag || st.nextIsCustomFlag) st.nextIsImportDir arg
    ∧ st₁.importDirs
        = st.importDirs
          ++ iDirsDelta (st.nextIsFlag || st.nextIsCustomFlag) st.nextIsImportDir arg
    ∧ (∀ x ∈ st.protocFlags, x ∈ st₁.protocFlags)
    ∧ (ParseGood st → ParseGood st₁) := by
  simp only [parseStep] at h
  by_cases hbad : (arg = [] ∨ arg = ['-'] ∨ arg = ['-', '-'])
  · rw [if_pos hbad] at h
    cases h
  rw [if_neg hbad] at h
  by_cases hc : st.nextIsCustomFlag = true
  · -- pending custom value
    rw [if_pos hc] at h
    have himp : st.nextIsImportDir = false := by
      by_contra hni
      have := (hinv.2 (by revert hni; cases st.nextIsImportDir <;> simp)).2
      rw [this] at hc
      cases hc
    cases h
    have hf0 : st.nextIsFlag = false := by
      rcases hinv.1 with h1 | h1
      · exact h1
      · rw [h1] at hc; cases hc
    refine ⟨⟨Or.inr rfl, by simp [himp]⟩, ?_, ?_, ?_, by simp, fun hg => hg⟩
    · simp [pendingStep, hc, hf0]
    · simp [impStep, hc, himp]
    · simp [iDirsDelta, hc, himp]
  rw [if_neg hc] at h
  have hc' : st.nextIsCustomFlag = false := by revert hc; cases st.nextIsCustomFlag <;> simp
  by_cases hf : st.nextIsFlag = true
  · -- pending plain-flag value
    rw [if_pos hf] at h
    cases h
    refine ⟨⟨Or.inl rfl, by simp⟩, by simp [pendingStep, hf, hc'], by simp [impStep, hf], ?_, ?_, ?_⟩
    · simp only [iDirsDelta, hf, hc', Bool.true_or, if_true]
      cases hni : st.nextIsImportDir <;> simp [hni]
    · intro x hx
      simp [List.mem_append, hx]
    · intro hg d hd
      simp only at hd
      by_cases hni : st.nextIsImportDir
      · rw [if_pos hni] at hd
        rcases List.mem_append.mp hd with hd' | hd'
        · rcases hg d hd' with h1 | h1
          · exact Or.inl (List.mem_append.mpr (Or.inl h1))
          · exact Or.inr (List.mem_append.mpr (Or.inl h1))
        · rcases List.mem_singleton.mp hd' with rfl
          exact Or.inl (List.mem_append.mpr (Or.inr (by simp)))
      · rw [if_neg hni] at hd
        rcases hg d hd with h1 | h1
        · exact Or.inl (List.mem_append.mpr (Or.inl h1))
        · exact Or.inr (List.mem_append.mpr (Or.inl h1))
  rw [if_neg hf] at h
  have hf' : st.nextIsFlag = false := by revert hf; cases st.nextIsFlag <;> simp
  have himp : st.nextIsImportDir = false := by
    by_contra hni
    have := (hinv.2 (by revert hni; cases st.nextIsImportDir <;> simp)).1
    rw [this] at hf'
    cases hf'
  by_cases hnv : arg ∈ noValueFlags
  · rw [if_pos hnv] at h
    cases h
    refine ⟨⟨Or.inl hf', by simp [himp]⟩, ?_, ?_, ?_, ?_, ?_⟩
    · simp [pendingStep, hf', hc', hnv]
    · simp [impStep, hf', hc', hnv, himp]
    · simp [iDirsDelta, hf', hc', hnv]
    · intro x hx
      simp [List.mem_append, hx]
    · intro hg d hd
      simp only at hd
      rcases hg d hd with h1 | h1
      · exact Or.inl (List.mem_append.mpr (Or.inl h1))
      · exact Or.inr (List.mem_append.mpr (Or.inl h1))
  rw [if_neg hnv] at h
  by_cases hnd : arg.head? ≠ some '-'
  · rw [if_pos hnd] at h
    cases h
    refine ⟨⟨Or.inl hf', by simp [himp]⟩, ?_, ?_, ?_, by simp, fun hg => hg⟩
    · simp [pendingStep, hf', hc', hnv, hnd]
    · simp [impStep, hf', hc', hnv, hnd, himp]
    · simp [iDirsDelta, hf', hc', hnv, hnd]
  rw [if_neg hnd] at h
  push_neg at hnd
  by_cases h2 : arg[1]? = some '-'
  · -- double dash
    rw [if_pos h2] at h
    cases hcu : custom (splitEq1 (arg.drop 2)).1 with
    | some needsValue =>
      simp only [hcu] at h
      cases hp2 : (splitEq1 (arg.drop 2)).2 with
      | none =>
        simp only [hp2] at h
        cases needsValue with
        | true =>
          rw [if_pos rfl] at h
          cases h
          refine ⟨⟨Or.inl hf', by simp [himp]⟩, ?_, ?_, ?_, by simp, fun hg => hg⟩
          · simp [pendingStep, hf', hc', hnv, hnd, h2, hcu, hp2]
          · simp [impStep, hf', hc', hnv, hnd, h2, himp]
          · simp [iDirsDelta, hf', hc', hnv, hnd, h2]
        | false =>
          rw [if_neg (by simp)] at h
          cases h
          refine ⟨⟨Or.inl hf', by simp [himp]⟩, ?_, ?_, ?_, by simp, fun hg => hg⟩
          · simp [pendingStep, hf', hc', hnv, hnd, h2, hcu, hp2]
          · simp [impStep, hf', hc', hnv, hnd, h2, himp]
          · simp [iDirsDelta, hf', hc', hnv, hnd, h2]
      | some v =>
        simp only [hp2] at h
        cases h
        refine ⟨⟨Or.inl hf', by simp [himp]⟩, ?_, ?_, ?_, by simp, fun hg => hg⟩
        · simp [pendingStep, hf', hc', hnv, hnd, h2, hcu, hp2]
        · simp [impStep, hf', hc', hnv, hnd, h2, himp]
        · simp [iDirsDelta, hf', hc', hnv, hnd, h2]
    | none =>
      simp only [hcu] at h
      cases h
      refine ⟨⟨Or.inr hc', by simp [himp]⟩, ?_, ?_, ?_, ?_, ?_⟩
      · simp [pendingStep, hf', hc', hnv, hnd, h2, hcu]
      · simp [impStep, hf', hc', hnv, hnd, h2, himp]
      · simp [iDirsDelta, hf', hc', hnv, hnd, h2]
      · intro x hx
        simp [List.mem_append, hx]
      · intro hg
        exact goodExtend _ _ _ hg (fun x hx => List.mem_append.mpr (Or.inl hx))
  · -- single dash
    rw [if_neg h2] at h
    by_cases hlen : arg.length = 2
    · rw [if_pos hlen] at h
      cases h
      have h1lt : 1 < arg.length := by omega
      have h2' : arg[1] ≠ '-' := by
        intro he
        exact h2 (by rw [List.getElem?_eq_getElem h1lt, he])
      refine ⟨⟨Or.inr hc', fun _ => ⟨rfl, hc'⟩⟩, ?_, ?_, ?_, ?_, ?_⟩
      · simp [pendingStep, hf', hc', hnv, hnd, h2, h2', hlen]
      · simp [impStep, hf', hc', hnv, hnd, h2, h2', hlen]
      · simp [iDirsDelta, hf', hc', hnv, hnd, h2, h2', hlen]
      · intro x hx
        simp [List.mem_append, hx]
      · intro hg
        exact goodExtend _ _ _ hg (fun x hx => List.mem_append.mpr (Or.inl hx))
    · rw [if_neg hlen] at h
      by_cases hI : arg[1]? = some 'I'
      · rw [if_pos hI] at h
        cases h
        have harg : arg = '-' :: 'I' :: arg.drop 2 := by
          cases arg with
          | nil => simp at hnd
          | cons a t =>
            cases t with
            | nil => simp at hI
            | cons b t2 =>
              simp only [List.head?] at hnd
              have ha : a = '-' := by injection hnd
              have hb : b = 'I' := by
                simp only [List.getElem?_cons_succ, List.getElem?_cons_zero] at hI
                injection hI
              simp [ha, hb]
        refine ⟨⟨Or.inl hf', by simp [himp]⟩, ?_, ?_, ?_, ?_, ?_⟩
        · simp [pendingStep, hf', hc', hnv, hnd, h2, hlen]
        · simp [impStep, hf', hc', hnv, hnd, h2, hlen, himp]
        · simp [iDirsDelta, hf', hc', hnv, hnd, h2, hlen, hI]
        · intro x hx
          simp [List.mem_append, hx]
        · intro hg d hd
          simp only at hd
          rcases List.mem_append.mp hd with hd' | hd'
          · exact goodExtend _ _ _ hg (fun x hx => List.mem_append.mpr (Or.inl hx)) d hd'
          · rcases List.mem_singleton.mp hd' with rfl
            refine Or.inr (List.mem_append.mpr (Or.inr ?_))
            rw [← harg]
            simp
      · rw [if_neg hI] at h
        cases h
        refine ⟨⟨Or.inl hf', by simp [himp]⟩, ?_, ?_, ?_, ?_, ?_⟩
        · simp [pendingStep, hf', hc', hnv, hnd, h2, hlen]
        · simp [impStep, hf', hc', hnv, hnd, h2, hlen, himp]
        · simp [iDirsDelta, hf', hc', hnv, hnd, h2, hlen, hI]
        · intro x hx
          simp [List.mem_append, hx]
        · intro hg
          exact goodExtend _ _ _ hg (fun x hx => List.mem_append.mpr (Or.inl hx))

theorem parseStep_bad (custom : GoStr → Option Bool) (st : ParseSt) (arg : GoStr)
    (hbad : arg = [] ∨ arg = ['-'] ∨ arg = ['-', '-']) :
    parseStep custom st arg = .error (.notAllowed arg) := by
  simp only [parseStep]
  rw [if_pos hbad]

theorem parseStep_ok_exists (custom : GoStr → Option Bool) (st : ParseSt) (arg : GoStr)
    (hbad : ¬(arg = [] ∨ arg = ['-'] ∨ arg = ['-', '-'])) :
    ∃ st₁, parseStep custom st arg = .ok st₁ := by
  simp only [parseStep]
  rw [if_neg hbad]
  split
  · exact ⟨_, rfl⟩
  split
  · exact ⟨_, rfl⟩
  split
  · exact ⟨_, rfl⟩
  split
  · exact ⟨_, rfl⟩
  split
  · split
    · split
      · split
        · exact ⟨_, rfl⟩
        · exact ⟨_, rfl⟩
      · exact ⟨_, rfl⟩
    · exact ⟨_, rfl⟩
  · split
    · exact ⟨_, rfl⟩
    · split
      · exact ⟨_, rfl⟩
      · exact ⟨_, rfl⟩

theorem parseFold_spec (custom : GoStr → Option Bool) (args : List GoStr) :
    ∀ st : ParseSt, ParseInv st →
      ((∃ e, args.foldlM (parseStep custom) st = .error e)
        ↔ ∃ a ∈ args, (a = [] ∨ a = ['-'] ∨ a = ['-', '-']))
      ∧ (∀ st', args.foldlM (parseStep custom) st = .ok st' →
          ParseInv st'
          ∧ (st'.nextIsFlag || st'.nextIsCustomFlag)
              = pendingAfter custom (st.nextIsFlag || st.nextIsCustomFlag) args
          ∧ st'.importDirs = st.importDirs
              ++ iDirsAfter custom (st.nextIsFlag || st.nextIsCustomFlag)
                  st.nextIsImportDir args
          ∧ (∀ x ∈ st.protocFlags, x ∈ st'.protocFlags)
          ∧ (ParseGood st → ParseGood st')) := by
  induction args with
  | nil =>
    intro st hinv
    constructor
    · constructor
      · rintro ⟨e, he⟩
        cases he
      · rintro ⟨a, ha, _⟩
        cases ha
    · intro st' hok
      cases hok
      exact ⟨hinv, rfl, by simp [iDirsAfter], fun x hx => hx, fun hg => hg⟩
  | cons a rest ih =>
    intro st hinv
    by_cases hbad : (a = [] ∨ a = ['-'] ∨ a = ['-', '-'])
    · have hstep : (a :: rest).foldlM (parseStep custom) st
          = Except.error (ParseErr.notAllowed a) := by
        rw [List.foldlM_cons, parseStep_bad custom st a hbad]
        rfl
      rw [hstep]
      constructor
      · constructor
        · intro _
          exact ⟨a, List.mem_cons_self a rest, hbad⟩
        · intro _
          exact ⟨ParseErr.notAllowed a, rfl⟩
      · intro st' hok
        cases hok
    · obtain ⟨st₁, hst₁⟩ := parseStep_ok_exists custom st a hbad
      obtain ⟨hinv₁, hpend₁, himp₁, hdirs₁, hmono₁, hgood₁⟩ :=
        parseStep_spec custom st a st₁ hinv hst₁
      have hstep : (a :: rest).foldlM (parseStep custom) st
          = rest.foldlM (parseStep custom) st₁ := by
        rw [List.foldlM_cons, hst₁]
        rfl
      rw [hstep]
      obtain ⟨ihErr, ihOk⟩ := ih st₁ hinv₁
      constructor
      · rw [ihErr]
        constructor
        · rintro ⟨b, hb, hbbad⟩
          exact ⟨b, List.mem_cons_of_mem a hb, hbbad⟩
        · rintro ⟨b, hb, hbbad⟩
          rcases List.mem_cons.mp hb with rfl | hb'
          · exact absurd hbbad hbad
          · exact ⟨b, hb', hbbad⟩
      · intro st' hok
        obtain ⟨hinv', hpend', hdirs', hmono', hgood'⟩ := ihOk st' hok
        refine ⟨hinv', ?_, ?_, ?_, ?_⟩
        · rw [hpend', hpend₁]
          rfl
        · rw [hdirs', hdirs₁, hpend₁, himp₁]
          simp [iDirsAfter, List.append_assoc]
        · exact fun x hx => hmono' x (hmono₁ x hx)
        · exact fun hg => hgood' (hgood₁ hg)

/-- Claim C10: ParseArgs fails exactly when some argument is one of the
disallowed bare forms or a flag is still expecting a value after the last
argument (on failure the error constructor carries no partial results,
matching Go's all-nil returns); on success the import directories are
exactly the values supplied to single-dash `-I` flags, in order, and each of
them was passed through to the protoc flags (as the bare value after `-I`,
or inside the attached `-Idir`). -/
theorem claim10_parse_args (args : List GoStr) (custom : GoStr → Option Bool) :
    ((∃ e, parseArgsGo args custom = .error e)
      ↔ ((∃ a ∈ args, a = [] ∨ a = ['-'] ∨ a = ['-', '-'])
          ∨ pendingAfter custom false args = true))
    ∧ (∀ st, parseArgsGo args custom = .ok st →
        st.importDirs = iDirsAfter custom false false args
        ∧ ∀ d ∈ st.importDirs,
            d ∈ st.protocFlags ∨ ('-' :: 'I' :: d) ∈ st.protocFlags) := by
  have hinv0 : ParseInv ⟨fun _ => none, [], [], [], false, false, false, []⟩ := by
    constructor
    · exact Or.inl rfl
    · intro h
      cases h
  obtain ⟨hErr, hOk⟩ := parseFold_spec custom args _ hinv0
  cases hfold : args.foldlM (parseStep custom)
      ⟨fun _ => none, [], [], [], false, false, false, []⟩ with
  | error e =>
    have hrun : parseArgsGo args custom = Except.error e := by
      unfold parseArgsGo
      rw [hfold]
      rfl
    constructor
    · constructor
      · intro _
        exact Or.inl (hErr.mp ⟨e, hfold⟩)
      · intro _
        exact ⟨e, hrun⟩
    · intro st hok
      rw [hrun] at hok
      cases hok
  | ok st' =>
    obtain ⟨hinv', hpend0, hdirs0, hmono', hgood'⟩ := hOk st' hfold
    have hpend' : (st'.nextIsFlag || st'.nextIsCustomFlag)
        = pendingAfter custom false args := hpend0
    have hdirs' : st'.importDirs = iDirsAfter custom false false args := by
      have h0 : st'.importDirs = [] ++ iDirsAfter custom false false args := hdirs0
      simpa using h0
    have hnobad : ¬ ∃ a ∈ args, (a = [] ∨ a = ['-'] ∨ a = ['-', '-']) := by
      intro hex
      obtain ⟨e, he⟩ := hErr.mpr hex
      rw [hfold] at he
      cases he
    have hrun : parseArgsGo args custom
        = (if st'.nextIsFlag || st'.nextIsCustomFlag then
            Except.error (ParseErr.missingValue ((args.getLast?).getD []))
          else Except.ok st') := by
      unfold parseArgsGo
      rw [hfold]
      rfl
    rw [hrun]
    constructor
    · by_cases hp : (st'.nextIsFlag || st'.nextIsCustomFlag) = true
      · rw [if_pos hp]
        rw [hp] at hpend'
        constructor
        · intro _
          exact Or.inr hpend'.symm
        · intro _
          exact ⟨ParseErr.missingValue ((args.getLast?).getD []), rfl⟩
      · rw [if_neg hp]
        constructor
        · rintro ⟨e, he⟩
          cases he
        · rintro (hex | hpend)
          · exact absurd hex hnobad
          · rw [← hpend'] at hpend
            exact absurd hpend hp
    · intro st hok
      by_cases hp : (st'.nextIsFlag || st'.nextIsCustomFlag) = true
      · rw [if_pos hp] at hok
        cases hok
      · rw [if_neg hp] at hok
        cases hok
        refine ⟨hdirs', ?_⟩
        exact hgood' (by intro d hd; cases hd)

/-- Witness for `claim10_parse_args` on the repository's own "basic" test
arguments. -/
theorem claim10_witness :
    ((∃ e, parseArgsGo
        ["-I.".toList, "foo1.proto".toList, "-I".toList, "includes".toList,
         "foo2.proto".toList, "--parallelism=3".toList]
        (fun n => if n = "parallelism".toList then some true else none) = .error e)
      ↔ ((∃ a ∈ ["-I.".toList, "foo1.proto".toList, "-I".toList, "includes".toList,
            "foo2.proto".toList, "--parallelism=3".toList],
            a = [] ∨ a = ['-'] ∨ a = ['-', '-'])
          ∨ pendingAfter (fun n => if n = "parallelism".toList then some true else none)
              false
              ["-I.".toList, "foo1.proto".toList, "-I".toList, "includes".toList,
               "foo2.proto".toList, "--parallelism=3".toList] = true))
    ∧ (∀ st, parseArgsGo
        ["-I.".toList, "foo1.proto".toList, "-I".toList, "includes".toList,
         "foo2.proto".toList, "--parallelism=3".toList]
        (fun n => if n = "parallelism".toList then some true else none) = .ok st →
        st.importDirs = iDirsAfter
            (fun n => if n = "parallelism".toList then some true else none) false false
            ["-I.".toList, "foo1.proto".toList, "-I".toList, "includes".toList,
             "foo2.proto".toList, "--parallelism=3".toList]
        ∧ ∀ d ∈ st.importDirs,
            d ∈ st.protocFlags ∨ ('-' :: 'I' :: d) ∈ st.protocFlags) :=
  claim10_parse_args
    ["-I.".toList, "foo1.proto".toList, "-I".toList, "includes".toList,
     "foo2.proto".toList, "--parallelism=3".toList]
    (fun n => if n = "parallelism".toList then some true else none)

/-- Status of one goroutine of the `Generate` worker pool (wrapper.go): at
the `range pkgChan` receive, running the per-package `Generate` call, blocked
on the `errChan` send after a failure, or exited. -/
inductive WStatus (P : Type) where
  | idle
  | working (p : P)
  | sending (p : P)
  | done
deriving DecidableEq

/-- Phase of the submitting goroutine of `Generate` (wrapper.go): inside the
submission loop, between `break OUTER` and `close(pkgChan)`, in `wg.Wait()`,
or returned. -/
inductive MPhase where
  | submitting
  | closing
  | waiting
  | returned
deriving DecidableEq

/-- State of the `Generate` scheduler of wrapper.go: the packages not yet
submitted (in sorted submission order), the main goroutine's phase, the
worker pool, the `errChan` buffer (an error is identified by its failing
package), whether `pkgChan` is closed, the error recorded by the submission
loop, and the `errChan` capacity. -/
structure Sched (P : Type) where
  pending : List P
  main : MPhase
  workers : List (WStatus P)
  buf : List P
  closed : Bool
  err : Option P
  cap : Nat
deriving DecidableEq

/-- Embeds the setup of `Generate` (wrapper.go): effective worker count is
the configured parallelism capped by the number of packages; `errChan` is
buffered to the worker count; all workers start at the channel receive. -/
def schedInit {P : Type} (parallelism : Nat) (pkgs : List P) : Sched P :=
  { pending := pkgs, main := .submitting,
    workers := List.replicate (min parallelism pkgs.length) .idle,
    buf := [], closed := false, err := none,
    cap := min parallelism pkgs.length }

/-- One interleaving step of the `Generate` scheduler (wrapper.go), with
`fails` telling which packages' external generation calls fail:
`sendPkg`/`recvErr` are the two arms of the submission loop's `select`
(available only while packages remain to submit; the unbuffered `pkgChan`
send needs a worker at the receive); `closeChan`/`finishSubmit` close
`pkgChan` after a received error or after the loop ends; `workOk`/`workFail`
finish a package; `sendErr` is the buffered `errChan` send, possible only
when the buffer is below capacity; `exitWorker` is the `range` loop ending on
the closed channel; `ret` is `wg.Wait()` returning once every worker exited. -/
inductive SchedStep {P : Type} (fails : P → Bool) : Sched P → Sched P → Prop where
  | sendPkg (s : Sched P) (p : P) (rest : List P) (l1 l2 : List (WStatus P)) :
      s.main = .submitting → s.pending = p :: rest → s.closed = false →
      s.workers = l1 ++ .idle :: l2 →
      SchedStep fails s
        { s with pending := rest, workers := l1 ++ .working p :: l2 }
  | recvErr (s : Sched P) (e : P) (rest : List P) :
      s.main = .submitting → s.pending ≠ [] → s.buf = e :: rest →
      SchedStep fails s
        { s with buf := rest, err := some e, main := .closing }
  | closeChan (s : Sched P) :
      s.main = .closing →
      SchedStep fails s { s with closed := true, main := .waiting }
  | finishSubmit (s : Sched P) :
      s.main = .submitting → s.pending = [] →
      SchedStep fails s { s with closed := true, main := .waiting }
  | workOk (s : Sched P) (p : P) (l1 l2 : List (WStatus P)) :
      s.workers = l1 ++ .working p :: l2 → fails p = false →
      SchedStep fails s { s with workers := l1 ++ .idle :: l2 }
  | workFail (s : Sched P) (p : P) (l1 l2 : List (WStatus P)) :
      s.workers = l1 ++ .working p :: l2 → fails p = true →
      SchedStep fails s { s with workers := l1 ++ .sending p :: l2 }
  | sendErr (s : Sched P) (p : P) (l1 l2 : List (WStatus P)) :
      s.workers = l1 ++ .sending p :: l2 → s.buf.length < s.cap →
      SchedStep fails s
        { s with workers := l1 ++ .idle :: l2, buf := s.buf ++ [p] }
  | exitWorker (s : Sched P) (l1 l2 : List (WStatus P)) :
      s.workers = l1 ++ .idle :: l2 → s.closed = true →
      SchedStep fails s { s with workers := l1 ++ .done :: l2 }
  | ret (s : Sched P) :
      s.main = .waiting → (∀ w ∈ s.workers, w = .done) →
      SchedStep fails s { s with main := .returned }

/-- Runs of the `Generate` scheduler: reflexive-transitive closure of the
interleaving step. -/
def SchedReach {P : Type} (fails : P → Bool) (s t : Sched P) : Prop :=
  Relation.ReflTransGen (SchedStep fails) s t

/-- Number of packages in a list whose generation fails. -/
def countFail {P : Type} (fails : P → Bool) (l : List P) : Nat :=
  (l.filter fails).length

/-- Executable check that some scheduler step is enabled, one disjunct per
step rule; used to certify stuck states. -/
def schedEnabled {P : Type} [DecidableEq P] (fails : P → Bool) (s : Sched P) : Bool :=
  (decide (s.main = .submitting) && !s.pending.isEmpty && !s.closed
      && s.workers.any (fun w => decide (w = .idle)))
  || (decide (s.main = .submitting) && !s.pending.isEmpty && !s.buf.isEmpty)
  || decide (s.main = .closing)
  || (decide (s.main = .submitting) && s.pending.isEmpty)
  || s.workers.any (fun w => match w with | .working _ => true | _ => false)
  || (s.workers.any (fun w => match w with | .sending _ => true | _ => false)
      && decide (s.buf.length < s.cap))
  || (s.workers.any (fun w => decide (w = .idle)) && s.closed)
  || (decide (s.main = .waiting) && s.workers.all (fun w => decide (w = .done)))

theorem schedStep_enabled {P : Type} [DecidableEq P] (fails : P → Bool)
    (s t : Sched P) (h : SchedStep fails s t) : schedEnabled fails s = true := by
  cases h with
  | sendPkg p rest l1 l2 hm hp hc hw =>
    simp [schedEnabled, hm, hp, hc, hw, List.any_append]
  | recvErr e rest hm hp hb =>
    simp [schedEnabled, hm, hp, hb]
  | closeChan hm =>
    simp [schedEnabled, hm]
  | finishSubmit hm hp =>
    simp [schedEnabled, hm, hp]
  | workOk p l1 l2 hw hf =>
    simp [schedEnabled, hw, List.any_append]
  | workFail p l1 l2 hw hf =>
    simp [schedEnabled, hw, List.any_append]
  | sendErr p l1 l2 hw hb =>
    simp [schedEnabled, hw, hb, List.any_append]
  | exitWorker l1 l2 hw hc =>
    simp [schedEnabled, hw, hc, List.any_append]
  | ret hm hall =>
    have hallb : s.workers.all (fun w => decide (w = WStatus.done)) = true := by
      rw [List.all_eq_true]
      intro w hw
      simp [hall w hw]
    simp [schedEnabled, hm, hallb]

/-- Claim C1 as stated is false: with a single package whose generation
fails, there is a run in which the worker's error is sent on the buffered
result channel only after the submission loop has already submitted every
package, so the error is never received and Generate returns no error even
though the package's generation failed. -/
theorem claim1_counterexample :
    ∃ s : Sched Nat, SchedReach (fun _ => true) (schedInit 1 [0]) s
      ∧ s.main = MPhase.returned ∧ s.err = none ∧ (fun _ : Nat => true) 0 = true := by
  refine ⟨⟨[], .returned, [.done], [0], true, none, 1⟩, ?_, rfl, rfl, rfl⟩
  have h1 : SchedStep (fun _ : Nat => true) (schedInit 1 [0])
      ⟨[], .submitting, [.working 0], [], false, none, 1⟩ :=
    SchedStep.sendPkg _ 0 [] [] [] rfl rfl rfl rfl
  have h2 : SchedStep (fun _ : Nat => true)
      ⟨[], .submitting, [.working 0], [], false, none, 1⟩
      ⟨[], .waiting, [.working 0], [], true, none, 1⟩ :=
    SchedStep.finishSubmit _ rfl rfl
  have h3 : SchedStep (fun _ : Nat => true)
      ⟨[], .waiting, [.working 0], [], true, none, 1⟩
      ⟨[], .waiting, [.sending 0], [], true, none, 1⟩ :=
    SchedStep.workFail _ 0 [] [] rfl rfl
  have h4 : SchedStep (fun _ : Nat => true)
      ⟨[], .waiting, [.sending 0], [], true, none, 1⟩
      ⟨[], .waiting, [.idle], [0], true, none, 1⟩ :=
    SchedStep.sendErr _ 0 [] [] rfl (by decide)
  have h5 : SchedStep (fun _ : Nat => true)
      ⟨[], .waiting, [.idle], [0], true, none, 1⟩
      ⟨[], .waiting, [.done], [0], true, none, 1⟩ :=
    SchedStep.exitWorker _ [] [] rfl rfl
  have h6 : SchedStep (fun _ : Nat => true)
      ⟨[], .waiting, [.done], [0], true, none, 1⟩
      ⟨[], .returned, [.done], [0], true, none, 1⟩ :=
    SchedStep.ret _ rfl (by decide)
  exact .head h1 (.head h2 (.head h3 (.head h4 (.head h5 (.head h6 .refl)))))

/-- Claim C2 as stated is false: with two workers and four failing packages
there is a run in which both error-channel slots fill, both workers block on
further error sends, the submission loop finishes and closes the work
channel without ever receiving — and the system is stuck: no worker can
finish its send, so Generate never returns after the work channel is closed. -/
theorem claim2_counterexample :
    ∃ s : Sched Nat, SchedReach (fun _ => true) (schedInit 2 [0, 1, 2, 3]) s
      ∧ s.closed = true ∧ s.main ≠ MPhase.returned
      ∧ (∃ p l1 l2, s.workers = l1 ++ WStatus.sending p :: l2
          ∧ ¬ s.buf.length < s.cap)
      ∧ ∀ t, ¬ SchedStep (fun _ => true) s t := by
  refine ⟨⟨[], .waiting, [.sending 2, .sending 3], [0, 1], true, none, 2⟩, ?_,
    rfl, by decide, ⟨2, [], [.sending 3], rfl, by decide⟩, ?_⟩
  · have h1 : SchedStep (fun _ : Nat => true) (schedInit 2 [0, 1, 2, 3])
        ⟨[1, 2, 3], .submitting, [.working 0, .idle], [], false, none, 2⟩ :=
      SchedStep.sendPkg _ 0 [1, 2, 3] [] [.idle] rfl rfl rfl rfl
    have h2 : SchedStep (fun _ : Nat => true)
        ⟨[1, 2, 3], .submitting, [.working 0, .idle], [], false, none, 2⟩
        ⟨[2, 3], .submitting, [.working 0, .working 1], [], false, none, 2⟩ :=
      SchedStep.sendPkg _ 1 [2, 3] [.working 0] [] rfl rfl rfl rfl
    have h3 : SchedStep (fun _ : Nat => true)
        ⟨[2, 3], .submitting, [.working 0, .working 1], [], false, none, 2⟩
        ⟨[2, 3], .submitting, [.sending 0, .working 1], [], false, none, 2⟩ :=
      SchedStep.workFail _ 0 [] [.working 1] rfl rfl
    have h4 : SchedStep (fun _ : Nat => true)
        ⟨[2, 3], .submitting, [.sending 0, .working 1], [], false, none, 2⟩
        ⟨[2, 3], .submitting, [.idle, .working 1], [0], false, none, 2⟩ :=
      SchedStep.sendErr _ 0 [] [.working 1] rfl (by decide)
    have h5 : SchedStep (fun _ : Nat => true)
        ⟨[2, 3], .submitting, [.idle, .working 1], [0], false, none, 2⟩
        ⟨[3], .submitting, [.working 2, .working 1], [0], false, none, 2⟩ :=
      SchedStep.sendPkg _ 2 [3] [] [.working 1] rfl rfl rfl rfl
    have h6 : SchedStep (fun _ : Nat => true)
        ⟨[3], .submitting, [.working 2, .working 1], [0], false, none, 2⟩
        ⟨[3], .submitting, [.working 2, .sending 1], [0], false, none, 2⟩ :=
      SchedStep.workFail _ 1 [.working 2] [] rfl rfl
    have h7 : SchedStep (fun _ : Nat => true)
        ⟨[3], .submitting, [.working 2, .sending 1], [0], false, none, 2⟩
        ⟨[3], .submitting, [.working 2, .idle], [0, 1], false, none, 2⟩ :=
      SchedStep.sendErr _ 1 [.working 2] [] rfl (by decide)
    have h8 : SchedStep (fun _ : Nat => true)
        ⟨[3], .submitting, [.working 2, .idle], [0, 1], false, none, 2⟩
        ⟨[], .submitting, [.working 2, .working 3], [0, 1], false, none, 2⟩ :=
      SchedStep.sendPkg _ 3 [] [.working 2] [] rfl rfl rfl rfl
    have h9 : SchedStep (fun _ : Nat => true)
        ⟨[], .submitting, [.working 2, .working 3], [0, 1], false, none, 2⟩
        ⟨[], .waiting, [.working 2, .working 3], [0, 1], true, none, 2⟩ :=
      SchedStep.finishSubmit _ rfl rfl
    have h10 : SchedStep (fun _ : Nat => true)
        ⟨[], .waiting, [.working 2, .working 3], [0, 1], true, none, 2⟩
        ⟨[], .waiting, [.sending 2, .working 3], [0, 1], true, none, 2⟩ :=
      SchedStep.workFail _ 2 [] [.working 3] rfl rfl
    have h11 : SchedStep (fun _ : Nat => true)
        ⟨[], .waiting, [.sending 2, .working 3], [0, 1], true, none, 2⟩
        ⟨[], .waiting, [.sending 2, .sending 3], [0, 1], true, none, 2⟩ :=
      SchedStep.workFail _ 3 [.sending 2] [] rfl rfl
    exact .head h1 (.head h2 (.head h3 (.head h4 (.head h5 (.head h6 (.head h7
      (.head h8 (.head h9 (.head h10 (.head h11 .refl))))))))))
  · intro t hstep
    have := schedStep_enabled (fun _ : Nat => true) _ t hstep
    revert this
    decide

/-- Number of workers currently running a failing package. -/
def workingFailCount {P : Type} (fails : P → Bool) (ws : List (WStatus P)) : Nat :=
  (ws.filter (fun w => match w with | .working p => fails p | _ => false)).length

/-- Number of workers currently blocked in (or about to perform) the error
send. -/
def sendingCount {P : Type} (ws : List (WStatus P)) : Nat :=
  (ws.filter (fun w => match w with | .sending _ => true | _ => false)).length

/-- One if the submission loop has recorded an error. -/
def errCount {P : Type} (s : Sched P) : Nat :=
  if s.err.isSome then 1 else 0

theorem filterCount_append_cons {α : Type} (f : α → Bool) (l1 l2 : List α) (x : α) :
    ((l1 ++ x :: l2).filter f).length
      = (l1.filter f).length + (if f x then 1 else 0) + (l2.filter f).length := by
  rw [List.filter_append, List.filter_cons]
  by_cases h : f x
  · rw [if_pos h, if_pos h]
    simp only [List.length_append, List.length_cons]
    omega
  · rw [if_neg h, if_neg h]
    simp only [List.length_append]
    omega

theorem mapSum_append_cons {P : Type} (g : WStatus P → Nat)
    (l1 l2 : List (WStatus P)) (x : WStatus P) :
    (((l1 ++ x :: l2).map g).sum)
      = ((l1.map g).sum) + g x + ((l2.map g).sum) := by
  simp only [List.map_append, List.map_cons, List.sum_append, List.sum_cons]
  omega

/-- Invariant of all reachable states of the `Generate` scheduler: channel
capacity and pool size are the effective worker count; the unsubmitted
packages are a suffix of the submission order; the work channel is closed
exactly from the `waiting` phase on; the recorded error and all in-flight
errors come from failing packages of the run; and the failing packages are
conserved across the pipeline stages. -/
structure SchedInv {P : Type} (fails : P → Bool) (par : Nat) (pkgs : List P)
    (s : Sched P) : Prop where
  capEq : s.cap = min par pkgs.length
  wlen : s.workers.length = min par pkgs.length
  pendSuffix : s.pending.IsSuffix pkgs
  closedIff : s.closed = true ↔ (s.main = .waiting ∨ s.main = .returned)
  errNone : s.main = .submitting → s.err = none
  workerOk : ∀ w ∈ s.workers,
      (∀ p, w = .working p → p ∈ pkgs)
      ∧ (∀ p, w = .sending p → fails p = true ∧ p ∈ pkgs)
      ∧ (w = .done → s.closed = true)
  bufOk : ∀ p ∈ s.buf, fails p = true ∧ p ∈ pkgs
  errOk : ∀ e, s.err = some e → fails e = true ∧ e ∈ pkgs
  conserve : countFail fails pkgs
      = countFail fails s.pending + workingFailCount fails s.workers
        + sendingCount s.workers + s.buf.length + errCount s

theorem schedInit_inv {P : Type} (fails : P → Bool) (par : Nat) (pkgs : List P) :
    SchedInv fails par pkgs (schedInit par pkgs) := by
  refine ⟨rfl, by simp [schedInit], List.suffix_refl pkgs, by simp [schedInit], ?_, ?_, ?_, ?_, ?_⟩
  · intro _
    rfl
  · intro w hw
    have hidle : w = WStatus.idle := List.eq_of_mem_replicate hw
    subst hidle
    refine ⟨?_, ?_, ?_⟩
    · intro p hp
      cases hp
    · intro p hp
      cases hp
    · intro hp
      cases hp
  · intro p hp
    cases hp
  · intro e he
    cases he
  · simp only [schedInit, workingFailCount, sendingCount, errCount]
    rw [List.filter_eq_nil_iff.mpr, List.filter_eq_nil_iff.mpr]
    · simp [countFail]
    · intro w hw
      have : w = WStatus.idle := List.eq_of_mem_replicate hw
      subst this
      simp
    · intro w hw
      have : w = WStatus.idle := List.eq_of_mem_replicate hw
      subst this
      simp

theorem countFail_cons {P : Type} (fails : P → Bool) (p : P) (l : List P) :
    countFail fails (p :: l) = (if fails p then 1 else 0) + countFail fails l := by
  unfold countFail
  rw [List.filter_cons]
  by_cases h : fails p
  · rw [if_pos h, if_pos h]
    simp [List.length_cons]
    omega
  · rw [if_neg h, if_neg h]
    omega

theorem wfc_append_cons {P : Type} (fails : P → Bool)
    (l1 l2 : List (WStatus P)) (x : WStatus P) :
    workingFailCount fails (l1 ++ x :: l2)
      = workingFailCount fails l1
        + (if (match x with | WStatus.working p => fails p | _ => false) then 1 else 0)
        + workingFailCount fails l2 := by
  unfold workingFailCount
  exact filterCount_append_cons _ l1 l2 x

theorem sc_append_cons {P : Type} (l1 l2 : List (WStatus P)) (x : WStatus P) :
    sendingCount (l1 ++ x :: l2)
      = sendingCount l1
        + (if (match x with | WStatus.sending _ => true | _ => false) then 1 else 0)
        + sendingCount l2 := by
  unfold sendingCount
  exact filterCount_append_cons _ l1 l2 x

theorem mem_split_cases {P : Type} (w x : WStatus P) (l1 l2 : List (WStatus P))
    (h : w ∈ l1 ++ x :: l2) : w ∈ l1 ∨ w = x ∨ w ∈ l2 := by
  rcases List.mem_append.mp h with h1 | h1
  · exact Or.inl h1
  · rcases List.mem_cons.mp h1 with h2 | h2
    · exact Or.inr (Or.inl h2)
    · exact Or.inr (Or.inr h2)

theorem mem_of_split {P : Type} (w x : WStatus P) (l1 l2 : List (WStatus P))
    (h : w ∈ l1 ∨ w ∈ l2) : w ∈ l1 ++ x :: l2 := by
  rcases h with h1 | h1
  · exact List.mem_append.mpr (Or.inl h1)
  · exact List.mem_append.mpr (Or.inr (List.mem_cons_of_mem x h1))

theorem schedStep_inv {P : Type} (fails : P → Bool) (par : Nat) (pkgs : List P)
    (s t : Sched P) (hinv : SchedInv fails par pkgs s) (h : SchedStep fails s t) :
    SchedInv fails par pkgs t := by
  obtain ⟨capEq, wlen, pendSuffix, closedIff, errNone, workerOk, bufOk, errOk, conserve⟩ := hinv
  cases h with
  | sendPkg p rest l1 l2 hm hp hc hw =>
    have hpmem : p ∈ pkgs := pendSuffix.subset (by rw [hp]; exact List.mem_cons_self p rest)
    refine ⟨capEq, ?_, ?_, closedIff, errNone, ?_, bufOk, errOk, ?_⟩
    · have := wlen
      rw [hw] at this
      simpa using this
    · have : rest.IsSuffix (p :: rest) := by
        exact ⟨[p], rfl⟩
      exact this.trans (hp ▸ pendSuffix)
    · intro w hwm
      rcases mem_split_cases w _ l1 l2 hwm with h1 | h1 | h1
      · exact workerOk w (by rw [hw]; exact mem_of_split w _ l1 l2 (Or.inl h1))
      · subst h1
        refine ⟨?_, ?_, ?_⟩
        · intro q hq
          cases hq
          exact hpmem
        · intro q hq
          cases hq
        · intro hq
          cases hq
      · exact workerOk w (by rw [hw]; exact mem_of_split w _ l1 l2 (Or.inr h1))
    · have e0 := conserve
      rw [hp, hw, countFail_cons] at e0
      rw [wfc_append_cons, sc_append_cons] at e0
      rw [wfc_append_cons, sc_append_cons]
      simp [errCount] at e0 ⊢
      omega
  | recvErr e rest hm hp hb =>
    have hbuf := bufOk e (by rw [hb]; exact List.mem_cons_self e rest)
    refine ⟨capEq, wlen, pendSuffix, ?_, ?_, ?_, ?_, ?_, ?_⟩
    · simp only
      rw [closedIff, hm]
      constructor
      · rintro (h1 | h1) <;> cases h1
      · rintro (h1 | h1) <;> cases h1
    · intro hmm
      cases hmm
    · intro w hwm
      exact workerOk w hwm
    · intro q hq
      exact bufOk q (by rw [hb]; exact List.mem_cons_of_mem e hq)
    · intro q hq
      cases hq
      exact hbuf
    · have e0 := conserve
      rw [hb] at e0
      have herr : errCount s = 0 := by
        unfold errCount
        rw [errNone hm]
        rfl
      rw [herr] at e0
      simp only [errCount, List.length_cons] at e0 ⊢
      simp only [Option.isSome_some, if_true]
      omega
  | closeChan hm =>
    refine ⟨capEq, wlen, pendSuffix, ?_, ?_, ?_, bufOk, errOk, conserve⟩
    · simp
    · intro hmm
      cases hmm
    · intro w hwm
      refine ⟨(workerOk w hwm).1, (workerOk w hwm).2.1, fun _ => rfl⟩
  | finishSubmit hm hp =>
    refine ⟨capEq, wlen, pendSuffix, ?_, ?_, ?_, bufOk, errOk, conserve⟩
    · simp
    · intro hmm
      cases hmm
    · intro w hwm
      refine ⟨(workerOk w hwm).1, (workerOk w hwm).2.1, fun _ => rfl⟩
  | workOk p l1 l2 hw hf =>
    refine ⟨capEq, ?_, pendSuffix, closedIff, errNone, ?_, bufOk, errOk, ?_⟩
    · have := wlen
      rw [hw] at this
      simpa using this
    · intro w hwm
      rcases mem_split_cases w _ l1 l2 hwm with h1 | h1 | h1
      · exact workerOk w (by rw [hw]; exact mem_of_split w _ l1 l2 (Or.inl h1))
      · subst h1
        refine ⟨?_, ?_, ?_⟩
        · intro q hq
          cases hq
        · intro q hq
          cases hq
        · intro hq
          cases hq
      · exact workerOk w (by rw [hw]; exact mem_of_split w _ l1 l2 (Or.inr h1))
    · have e0 := conserve
      rw [hw, wfc_append_cons, sc_append_cons] at e0
      simp only [hf] at e0
      rw [wfc_append_cons, sc_append_cons]
      simp [errCount] at e0 ⊢
      omega
  | workFail p l1 l2 hw hf =>
    have hwork := workerOk (WStatus.working p)
      (by rw [hw]; exact List.mem_append.mpr (Or.inr (List.mem_cons_self _ _)))
    have hpmem : p ∈ pkgs := hwork.1 p rfl
    refine ⟨capEq, ?_, pendSuffix, closedIff, errNone, ?_, bufOk, errOk, ?_⟩
    · have := wlen
      rw [hw] at this
      simpa using this
    · intro w hwm
      rcases mem_split_cases w _ l1 l2 hwm with h1 | h1 | h1
      · exact workerOk w (by rw [hw]; exact mem_of_split w _ l1 l2 (Or.inl h1))
      · subst h1
        refine ⟨?_, ?_, ?_⟩
        · intro q hq
          cases hq
        · intro q hq
          cases hq
          exact ⟨hf, hpmem⟩
        · intro hq
          cases hq
      · exact workerOk w (by rw [hw]; exact mem_of_split w _ l1 l2 (Or.inr h1))
    · have e0 := conserve
      rw [hw, wfc_append_cons, sc_append_cons] at e0
      simp only [hf] at e0
      rw [wfc_append_cons, sc_append_cons]
      simp [errCount] at e0 ⊢
      omega
  | sendErr p l1 l2 hw hb =>
    have hsend := workerOk (WStatus.sending p)
      (by rw [hw]; exact List.mem_append.mpr (Or.inr (List.mem_cons_self _ _)))
    have hps := hsend.2.1 p rfl
    refine ⟨capEq, ?_, pendSuffix, closedIff, errNone, ?_, ?_, errOk, ?_⟩
    · have := wlen
      rw [hw] at this
      simpa using this
    · intro w hwm
      rcases mem_split_cases w _ l1 l2 hwm with h1 | h1 | h1
      · exact workerOk w (by rw [hw]; exact mem_of_split w _ l1 l2 (Or.inl h1))
      · subst h1
        refine ⟨?_, ?_, ?_⟩
        · intro q hq
          cases hq
        · intro q hq
          cases hq
        · intro hq
          cases hq
      · exact workerOk w (by rw [hw]; exact mem_of_split w _ l1 l2 (Or.inr h1))
    · intro q hq
      simp only at hq
      rcases List.mem_append.mp hq with h1 | h1
      · exact bufOk q h1
      · rcases List.mem_singleton.mp h1 with rfl
        exact hps
    · have e0 := conserve
      rw [hw, wfc_append_cons, sc_append_cons] at e0
      rw [wfc_append_cons, sc_append_cons]
      simp [errCount] at e0 ⊢
      omega
  | exitWorker l1 l2 hw hc =>
    refine ⟨capEq, ?_, pendSuffix, closedIff, errNone, ?_, bufOk, errOk, ?_⟩
    · have := wlen
      rw [hw] at this
      simpa using this
    · intro w hwm
      rcases mem_split_cases w _ l1 l2 hwm with h1 | h1 | h1
      · exact workerOk w (by rw [hw]; exact mem_of_split w _ l1 l2 (Or.inl h1))
      · subst h1
        refine ⟨?_, ?_, ?_⟩
        · intro q hq
          cases hq
        · intro q hq
          cases hq
        · intro _
          exact hc
      · exact workerOk w (by rw [hw]; exact mem_of_split w _ l1 l2 (Or.inr h1))
    · have e0 := conserve
      rw [hw, wfc_append_cons, sc_append_cons] at e0
      rw [wfc_append_cons, sc_append_cons]
      simp [errCount] at e0 ⊢
      omega
  | ret hm hall =>
    refine ⟨capEq, wlen, pendSuffix, ?_, ?_, ?_, bufOk, errOk, conserve⟩
    · rw [closedIff, hm]
      simp
    · intro hmm
      cases hmm
    · intro w hwm
      refine ⟨(workerOk w hwm).1, (workerOk w hwm).2.1, ?_⟩
      intro hq
      exact (workerOk w hwm).2.2 hq

theorem schedReach_inv {P : Type} (fails : P → Bool) (par : Nat) (pkgs : List P)
    (s : Sched P) (h : SchedReach fails (schedInit par pkgs) s) :
    SchedInv fails par pkgs s := by
  induction h with
  | refl => exact schedInit_inv fails par pkgs
  | tail hreach hstep ih => exact schedStep_inv fails par pkgs _ _ ih hstep

/-- Claim C1 (amended): any error Generate returns was received through the
submission-loop race and is the generation failure of a package of the run;
if every package generates successfully Generate returns no error; but the
converse fails — an error arriving after the last submission is never
received, so Generate can return no error although a package failed. -/
theorem claim1_amended {P : Type} (fails : P → Bool) (par : Nat) (pkgs : List P)
    (s : Sched P) (h : SchedReach fails (schedInit par pkgs) s) :
    (∀ e, s.err = some e → fails e = true ∧ e ∈ pkgs)
    ∧ ((∀ p ∈ pkgs, fails p = false) → s.err = none) := by
  have hinv := schedReach_inv fails par pkgs s h
  refine ⟨hinv.errOk, ?_⟩
  intro hall
  cases he : s.err with
  | none => rfl
  | some e =>
    have h1 := hinv.errOk e he
    rw [hall e h1.2] at h1
    cases h1.1

/-- Witness for `claim1_amended` at the initial state of a one-package run. -/
theorem claim1_witness :
    (∀ e, (schedInit 1 [0] : Sched Nat).err = some e
        → (fun _ : Nat => false) e = true ∧ e ∈ [0])
    ∧ ((∀ p ∈ [0], (fun _ : Nat => false) p = false)
        → (schedInit 1 [0] : Sched Nat).err = none) :=
  claim1_amended (fun _ : Nat => false) 1 [0] (schedInit 1 [0]) Relation.ReflTransGen.refl

/-- Weight of a worker status in the termination measure: a worker always
moves down in weight, except when pulling a package, which is paid for by
the submitted package. -/
def wWeight {P : Type} : WStatus P → Nat
  | .idle => 1
  | .working _ => 3
  | .sending _ => 2
  | .done => 0

/-- Weight of the main goroutine's phase in the termination measure. -/
def mWeight : MPhase → Nat
  | .submitting => 3
  | .closing => 2
  | .waiting => 1
  | .returned => 0

/-- Termination measure of the scheduler: every interleaving step strictly
decreases it, so every run of Generate is finite. -/
def schedMeasure {P : Type} (s : Sched P) : Nat :=
  5 * s.pending.length + (s.workers.map wWeight).sum + mWeight s.main

theorem schedStep_measure {P : Type} (fails : P → Bool) (t u : Sched P)
    (h : SchedStep fails t u) : schedMeasure u < schedMeasure t := by
  cases h with
  | sendPkg p rest l1 l2 hm hp hc hw =>
    simp only [schedMeasure, hm, hp, hw, mapSum_append_cons, List.length_cons, wWeight]
    omega
  | recvErr e rest hm hp hb =>
    simp only [schedMeasure, hm, mWeight]
    omega
  | closeChan hm =>
    simp only [schedMeasure, hm, mWeight]
    omega
  | finishSubmit hm hp =>
    simp only [schedMeasure, hm, mWeight]
    omega
  | workOk p l1 l2 hw hf =>
    simp only [schedMeasure, hw, mapSum_append_cons, wWeight]
    omega
  | workFail p l1 l2 hw hf =>
    simp only [schedMeasure, hw, mapSum_append_cons, wWeight]
    omega
  | sendErr p l1 l2 hw hb =>
    simp only [schedMeasure, hw, mapSum_append_cons, wWeight]
    omega
  | exitWorker l1 l2 hw hc =>
    simp only [schedMeasure, hw, mapSum_append_cons, wWeight]
    omega
  | ret hm hall =>
    simp only [schedMeasure, hm, mWeight]
    omega

/-- Claim C2 (amended): when the number of failing packages does not exceed
the effective worker count, buffer capacity is available in every reachable
state in which a worker is at the error send — the send never blocks — and
the scheduler never gets stuck: every reachable non-returned state has an
enabled step, and every step strictly decreases a termination measure, so
Generate always returns after the work channel is closed. (Without that
bound, workers can block forever on the error send: see the
counterexample.) -/
theorem claim2_amended {P : Type} (fails : P → Bool) (par : Nat) (pkgs : List P)
    (hpar : 1 ≤ par) (hfail : countFail fails pkgs ≤ min par pkgs.length)
    (s : Sched P) (h : SchedReach fails (schedInit par pkgs) s) :
    (∀ p l1 l2, s.workers = l1 ++ WStatus.sending p :: l2 → s.buf.length < s.cap)
    ∧ (s.main = MPhase.returned ∨ ∃ t, SchedStep fails s t)
    ∧ (∀ t u : Sched P, SchedStep fails t u → schedMeasure u < schedMeasure t) := by
  have hinv := schedReach_inv fails par pkgs s h
  have hnoblock : ∀ p l1 l2, s.workers = l1 ++ WStatus.sending p :: l2 →
      s.buf.length < s.cap := by
    intro p l1 l2 hw
    have hc := hinv.conserve
    have hs : 1 ≤ sendingCount s.workers := by
      rw [hw, sc_append_cons]
      simp
      omega
    rw [hinv.capEq]
    omega
  refine ⟨hnoblock, ?_, fun t u => schedStep_measure fails t u⟩
  cases hm : s.main with
  | returned => exact Or.inl rfl
  | closing => exact Or.inr ⟨_, SchedStep.closeChan s hm⟩
  | submitting =>
    have hclosed : s.closed = false := by
      cases hcl : s.closed with
      | false => rfl
      | true =>
        rcases hinv.closedIff.mp hcl with h1 | h1 <;> rw [hm] at h1 <;> cases h1
    cases hp : s.pending with
    | nil => exact Or.inr ⟨_, SchedStep.finishSubmit s hm hp⟩
    | cons p rest =>
      cases hb : s.buf with
      | cons e brest =>
        exact Or.inr ⟨_, SchedStep.recvErr s e brest hm (by rw [hp]; simp) hb⟩
      | nil =>
        have hpkgs : pkgs ≠ [] := by
          intro hnil
          have hsf := hinv.pendSuffix
          rw [hnil] at hsf
          rw [List.suffix_nil.mp hsf] at hp
          cases hp
        have hmin : 1 ≤ min par pkgs.length := by
          have h1 : 0 < pkgs.length := List.length_pos.mpr hpkgs
          omega
        cases hws : s.workers with
        | nil =>
          have := hinv.wlen
          rw [hws] at this
          simp at this
          omega
        | cons w0 ws =>
          cases w0 with
          | idle =>
            exact Or.inr ⟨_, SchedStep.sendPkg s p rest [] ws hm hp hclosed hws⟩
          | working q =>
            cases hq : fails q with
            | true => exact Or.inr ⟨_, SchedStep.workFail s q [] ws hws hq⟩
            | false => exact Or.inr ⟨_, SchedStep.workOk s q [] ws hws hq⟩
          | sending q =>
            refine Or.inr ⟨_, SchedStep.sendErr s q [] ws hws ?_⟩
            rw [hinv.capEq, hb]
            simpa using hmin
          | done =>
            have := (hinv.workerOk WStatus.done
              (by rw [hws]; exact List.mem_cons_self _ _)).2.2 rfl
            rw [hclosed] at this
            cases this
  | waiting =>
    by_cases hall : ∀ w ∈ s.workers, w = WStatus.done
    · exact Or.inr ⟨_, SchedStep.ret s hm hall⟩
    · push_neg at hall
      obtain ⟨w, hwmem, hwne⟩ := hall
      obtain ⟨l1, l2, hsplit⟩ := List.append_of_mem hwmem
      have hclosed : s.closed = true := hinv.closedIff.mpr (Or.inl hm)
      cases w with
      | idle => exact Or.inr ⟨_, SchedStep.exitWorker s l1 l2 hsplit hclosed⟩
      | working q =>
        cases hq : fails q with
        | true => exact Or.inr ⟨_, SchedStep.workFail s q l1 l2 hsplit hq⟩
        | false => exact Or.inr ⟨_, SchedStep.workOk s q l1 l2 hsplit hq⟩
      | sending q =>
        exact Or.inr ⟨_, SchedStep.sendErr s q l1 l2 hsplit
          (hnoblock q l1 l2 hsplit)⟩
      | done => exact absurd rfl hwne

/-- Witness for `claim2_amended` at the initial state of a one-package run
with no failures. -/
theorem claim2_witness :
    (∀ p l1 l2, (schedInit 1 [0] : Sched Nat).workers = l1 ++ WStatus.sending p :: l2
        → (schedInit 1 [0] : Sched Nat).buf.length < (schedInit 1 [0] : Sched Nat).cap)
    ∧ ((schedInit 1 [0] : Sched Nat).main = MPhase.returned
        ∨ ∃ t, SchedStep (fun _ : Nat => false) (schedInit 1 [0]) t)
    ∧ (∀ t u : Sched Nat, SchedStep (fun _ : Nat => false) t u →
        schedMeasure u < schedMeasure t) :=
  claim2_amended (fun _ : Nat => false) 1 [0] (by decide) (by decide)
    (schedInit 1 [0]) Relation.ReflTransGen.refl

/-- Reachability in a successor-list digraph: zero or more edge steps. -/
def GReach {V : Type} (adj : V → List V) (u v : V) : Prop :=
  Relation.ReflTransGen (fun x y => y ∈ adj x) u v

/-- Embeds the mutable analysis state of the Go `tarjan` method
(generate.go): the strictly increasing visit counter (`index`, starting at
1), the per-node `index` (0 meaning unvisited) and `lowlink` side tables,
the explicit stack with its membership table (`onStack`), and the collected
strongly connected components (in Go's append order: earliest pop first). -/
structure TState (V : Type) where
  next : Nat
  num : V → Nat
  low : V → Nat
  stk : List V
  onStk : V → Bool
  sccs : List (List V)

/-- Initial Tarjan state: counter 1, nothing visited, empty stack. -/
def initTState (V : Type) : TState V :=
  ⟨1, fun _ => 0, fun _ => 0, [], fun _ => false, []⟩

/-- Embeds the entry of Go's `strongConnect`: set index and lowlink to the
counter, advance the counter, push the node. -/
def visitV {V : Type} [DecidableEq V] (v : V) (s : TState V) : TState V :=
  { next := s.next + 1,
    num := Function.update s.num v s.next,
    low := Function.update s.low v s.next,
    stk := v :: s.stk,
    onStk := Function.update s.onStk v true,
    sccs := s.sccs }

/-- Assignment `v.lowlink = x`. -/
def updateLow {V : Type} [DecidableEq V] (v : V) (x : Nat) (s : TState V) : TState V :=
  { s with low := Function.update s.low v x }

/-- Embeds the pop loop of `strongConnect`: pop until (and including) `v`,
returning the popped component in pop order and the remaining stack. -/
def popTo {V : Type} [DecidableEq V] (v : V) : List V → List V × List V
  | [] => ([], [])
  | w :: rest =>
    if w = v then ([w], rest)
    else
      let r := popTo v rest
      (w :: r.1, r.2)

/-- Embeds the root check at the end of `strongConnect`: when `lowlink`
equals `index`, pop the component, clear its `onStack` marks, and append it
to the component list. -/
def popSCC {V : Type} [DecidableEq V] (v : V) (s : TState V) : TState V :=
  if s.low v = s.num v then
    let r := popTo v s.stk
    ⟨s.next, s.num, s.low, r.2,
      fun x => if x ∈ r.1 then false else s.onStk x,
      s.sccs ++ [r.1]⟩
  else s

mutual
/-- Embeds Go's recursive `strongConnect` (generate.go): visit the node,
walk its successors (recursing on unvisited ones and folding lowlinks,
taking the index of on-stack visited ones), then pop a component if the
node is a root. The fuel argument only bounds the recursion depth; with
fuel at least the number of unvisited vertices it is never exhausted. -/
def scT {V : Type} [DecidableEq V] (adj : V → List V) : Nat → V → TState V → TState V
  | 0, _, s => s
  | fuel + 1, v, s => popSCC v (scFoldT adj fuel v (adj v) (visitV v s))
  termination_by fuel v s => (fuel, 0)

/-- The successor loop of `strongConnect` over the remaining successor
list. -/
def scFoldT {V : Type} [DecidableEq V] (adj : V → List V) (fuel : Nat) (v : V) :
    List V → TState V → TState V
  | [], s => s
  | w :: ws, s =>
    let s2 :=
      if s.num w = 0 then
        let s1 := scT adj fuel w s
        if s1.low w < s1.low v then updateLow v (s1.low w) s1 else s1
      else if s.onStk w then
        if s.num w < s.low v then updateLow v (s.num w) s else s
      else s
    scFoldT adj fuel v ws s2
  termination_by l s => (fuel, l.length + 1)
end

/-- Embeds the root loop of `tarjan`: run `strongConnect` from every
not-yet-visited needed package, in the given order. -/
def tarjanCore {V : Type} [DecidableEq V] (adj : V → List V) (roots : List V)
    (fuel : Nat) : TState V :=
  roots.foldl (fun s v => if s.num v = 0 then scT adj fuel v s else s) (initTState V)

theorem gReach_refl {V : Type} (adj : V → List V) (u : V) : GReach adj u u :=
  Relation.ReflTransGen.refl

theorem gReach_trans {V : Type} (adj : V → List V) {u v w : V}
    (h1 : GReach adj u v) (h2 : GReach adj v w) : GReach adj u w :=
  Relation.ReflTransGen.trans h1 h2

theorem gReach_edge {V : Type} (adj : V → List V) {u v : V} (h : v ∈ adj u) :
    GReach adj u v :=
  Relation.ReflTransGen.single h

theorem pairwise_lt_nodup {V : Type} (f : V → Nat) (l : List V)
    (h : l.Pairwise (fun a b => f b < f a)) : l.Nodup := by
  induction l with
  | nil => exact List.nodup_nil
  | cons a rest ih =>
    rcases List.pairwise_cons.mp h with ⟨ha, hrest⟩
    refine List.nodup_cons.mpr ⟨?_, ih hrest⟩
    intro hmem
    exact absurd (ha a hmem) (lt_irrefl _)

theorem popTo_split {V : Type} [DecidableEq V] (v : V) (pre rest : List V)
    (hv : v ∉ pre) : popTo v (pre ++ v :: rest) = (pre ++ [v], rest) := by
  induction pre with
  | nil => simp [popTo]
  | cons a l ih =>
    have hav : ¬ (a = v) := fun he => hv (he ▸ List.mem_cons_self a l)
    have hvl : v ∉ l := fun hm => hv (List.mem_cons_of_mem a hm)
    have hstep : popTo v ((a :: l) ++ v :: rest)
        = (a :: (popTo v (l ++ v :: rest)).1, (popTo v (l ++ v :: rest)).2) := by
      simp [popTo, hav]
    rw [hstep, ih hvl]
    simp

/-- Number of vertices not yet visited; the recursion depth bound. -/
def unvisCount {V : Type} [DecidableEq V] (verts : List V) (s : TState V) : Nat :=
  verts.countP (fun x => s.num x = 0)

theorem unvisCount_le {V : Type} [DecidableEq V] (verts : List V) (s s' : TState V)
    (h : ∀ x, s.num x ≠ 0 → s'.num x ≠ 0) : unvisCount verts s' ≤ unvisCount verts s := by
  unfold unvisCount
  induction verts with
  | nil => simp
  | cons a rest ih =>
    rw [List.countP_cons, List.countP_cons]
    by_cases ha' : s'.num a = 0
    · have ha : s.num a = 0 := by
        by_contra hne
        exact h a hne ha'
      simp only [ha, ha', decide_eq_true_eq]
      omega
    · by_cases ha : s.num a = 0 <;> simp only [ha, ha', decide_eq_true_eq] <;> simp <;> omega

theorem unvisCount_lt {V : Type} [DecidableEq V] (verts : List V) (s s' : TState V) (v : V)
    (h : ∀ x, s.num x ≠ 0 → s'.num x ≠ 0) (hv0 : s.num v = 0) (hv1 : s'.num v ≠ 0)
    (hvm : v ∈ verts) : unvisCount verts s' < unvisCount verts s := by
  unfold unvisCount
  induction verts with
  | nil => cases hvm
  | cons a rest ih =>
    rw [List.countP_cons, List.countP_cons]
    rcases List.mem_cons.mp hvm with rfl | hvm'
    · have hle : rest.countP (fun x => decide (s'.num x = 0))
          ≤ rest.countP (fun x => decide (s.num x = 0)) := by
        have := unvisCount_le rest s s' h
        unfold unvisCount at this
        exact this
      simp only [hv0, hv1, decide_eq_true_eq]
      simp
      omega
    · have hlt := ih hvm'
      by_cases ha' : s'.num a = 0
      · have ha : s.num a = 0 := by
          by_contra hne
          exact h a hne ha'
        simp only [ha, ha', decide_eq_true_eq]
        omega
      · by_cases ha : s.num a = 0 <;> simp only [ha, ha', decide_eq_true_eq] <;> simp <;> omega

section TarjanInv

variable {V : Type} [DecidableEq V]

/-- Well-formedness of a Tarjan state: the visit counter dominates all
assigned indices, indices are injective, lowlinks are bounded by indices
and witnessed by reachable stack nodes, the stack holds visited nodes in
strictly decreasing index order, collected components are mutually
reachable, off the stack, and closed (edges leave a component only into
earlier-collected components). -/
structure TWF (adj : V → List V) (verts : List V) (s : TState V) : Prop where
  next_pos : 1 ≤ s.next
  num_lt : ∀ x, s.num x < s.next
  num_inj : ∀ x y, s.num x ≠ 0 → s.num x = s.num y → x = y
  low_le : ∀ x, s.num x ≠ 0 → s.low x ≤ s.num x
  vis_verts : ∀ x, s.num x ≠ 0 → x ∈ verts
  stk_vis : ∀ x ∈ s.stk, s.num x ≠ 0
  onstk_iff : ∀ x, s.onStk x = true ↔ x ∈ s.stk
  stk_num : s.stk.Pairwise (fun a b => s.num b < s.num a)
  low_wit : ∀ u ∈ s.stk, ∃ w ∈ s.stk, GReach adj u w ∧ s.num w = s.low u
  sccs_vis : ∀ c ∈ s.sccs, ∀ x ∈ c, s.num x ≠ 0
  sccs_off : ∀ c ∈ s.sccs, ∀ x ∈ c, x ∉ s.stk
  vis_in : ∀ x, s.num x ≠ 0 → x ∈ s.stk ∨ ∃ c ∈ s.sccs, x ∈ c
  sccs_nd : s.sccs.flatten.Nodup
  sccs_mut : ∀ c ∈ s.sccs, ∀ x ∈ c, ∀ y ∈ c, GReach adj x y
  sccs_closed : ∀ A c B, s.sccs = A ++ c :: B → ∀ x ∈ c, ∀ y ∈ adj x,
      y ∈ c ∨ y ∈ A.flatten

/-- Invariant relative to the chain of active DFS calls (`path`, most
recent first): the chain lies on the stack in decreasing index order;
stack nodes whose call has returned have strictly smaller lowlink than
index, all their edges recorded in their lowlink, and an anchor on the
chain (the deepest chain node below them) whose lowlink is no larger;
every chain node reaches every stack node above it. -/
structure TPath (adj : V → List V) (path : List V) (s : TState V) : Prop where
  sub : ∀ p ∈ path, p ∈ s.stk
  nums : path.Pairwise (fun a b => s.num b < s.num a)
  comp_low : ∀ u ∈ s.stk, u ∉ path → s.low u < s.num u
  record : ∀ x, s.num x ≠ 0 → x ∉ path → ∀ y ∈ adj x,
      s.num y ≠ 0 ∧ (y ∈ s.stk → s.low x ≤ s.num y)
  anchor : ∀ u ∈ s.stk, u ∉ path → ∃ p ∈ path,
      s.low p ≤ s.low u ∧ s.num p < s.num u ∧
      ∀ q ∈ path, s.num q < s.num u → s.num q ≤ s.num p
  reach_up : ∀ p ∈ path, ∀ u ∈ s.stk, s.num p ≤ s.num u → GReach adj p u

/-- Precondition of `scT` on an unvisited vertex `v`. -/
def SCPre (adj : V → List V) (verts : List V) (fuel : Nat) (path : List V)
    (v : V) (s : TState V) : Prop :=
  TWF adj verts s ∧ TPath adj path s ∧ s.num v = 0 ∧ v ∈ verts ∧
    (∀ p ∈ path, GReach adj p v) ∧ unvisCount verts s ≤ fuel

/-- Postcondition of `scT`: well-formedness and the path invariant are
maintained, old vertices keep their index and lowlink, new vertices are
reachable from `v` and carry fresh indices, `v` got index `s.next`, all of
`v`'s edges are recorded in its lowlink, and either `v`'s component was
popped (stack restored) or `v` stays on the stack with `low v < num v`. -/
def SCPost (adj : V → List V) (verts : List V) (path : List V) (v : V)
    (s s' : TState V) : Prop :=
  TWF adj verts s' ∧
  (∀ x, s.num x ≠ 0 → s'.num x = s.num x ∧ s'.low x = s.low x) ∧
  s.next ≤ s'.next ∧
  s'.num v = s.next ∧
  (∀ x, s'.num x ≠ 0 → s.num x ≠ 0 ∨ (GReach adj v x ∧ s.next ≤ s'.num x)) ∧
  unvisCount verts s' < unvisCount verts s ∧
  (∀ y ∈ adj v, s'.num y ≠ 0 ∧ (y ∈ s'.stk → s'.low v ≤ s'.num y)) ∧
  ((s'.stk = s.stk ∧ v ∉ s'.stk ∧ TPath adj path s' ∧ s'.low v = s'.num v) ∨
   (∃ d, s'.stk = d ++ s.stk ∧ v ∈ d ∧ (∀ u ∈ d, s.num u = 0) ∧
     TPath adj (v :: path) s' ∧ s'.low v < s'.num v))

/-- Precondition of `scFoldT` for active vertex `v` with remaining
successors `l`. -/
def SFPre (adj : V → List V) (verts : List V) (fuel : Nat) (path : List V)
    (v : V) (l : List V) (s : TState V) : Prop :=
  TWF adj verts s ∧ TPath adj (v :: path) s ∧ v ∈ verts ∧
    (∀ y ∈ l, y ∈ adj v) ∧ unvisCount verts s ≤ fuel

/-- Postcondition of `scFoldT`: invariants maintained with `v` still
active, old vertices frozen (only `v`'s lowlink may drop), new vertices
reachable from `v` with fresh indices, the stack only grew by new
vertices, and every processed successor is visited and recorded in `v`'s
lowlink. -/
def SFPost (adj : V → List V) (verts : List V) (path : List V) (v : V)
    (l : List V) (s s' : TState V) : Prop :=
  TWF adj verts s' ∧
  (∀ x, s.num x ≠ 0 → s'.num x = s.num x ∧ (x ≠ v → s'.low x = s.low x)) ∧
  s.next ≤ s'.next ∧
  (∀ x, s'.num x ≠ 0 → s.num x ≠ 0 ∨ (GReach adj v x ∧ s.next ≤ s'.num x)) ∧
  unvisCount verts s' ≤ unvisCount verts s ∧
  (∃ d, s'.stk = d ++ s.stk ∧ (∀ u ∈ d, s.num u = 0)) ∧
  TPath adj (v :: path) s' ∧
  (∀ y ∈ l, s'.num y ≠ 0 ∧ (y ∈ s'.stk → s'.low v ≤ s'.num y)) ∧
  s'.low v ≤ s.low v

/-- `scT` meets its specification at the given fuel. -/
def SCSpec (adj : V → List V) (verts : List V) (fuel : Nat) : Prop :=
  ∀ path v s, SCPre adj verts fuel path v s →
    SCPost adj verts path v s (scT adj fuel v s)

/-- `scFoldT` meets its specification at the given fuel. -/
def SFSpec (adj : V → List V) (verts : List V) (fuel : Nat) : Prop :=
  ∀ path v l s, SFPre adj verts fuel path v l s →
    SFPost adj verts path v l s (scFoldT adj fuel v l s)

end TarjanInv

theorem visitV_TWF {V : Type} [DecidableEq V] {adj : V → List V} {verts : List V}
    {v : V} {s : TState V} (hW : TWF adj verts s) (hv : s.num v = 0)
    (hvm : v ∈ verts) : TWF adj verts (visitV v s) := by
  have hvstk : v ∉ s.stk := fun hm => hW.stk_vis v hm hv
  have hnum : ∀ x, (visitV v s).num x = if x = v then s.next else s.num x := by
    intro x
    simp [visitV, Function.update_apply]
  have hlow : ∀ x, (visitV v s).low x = if x = v then s.next else s.low x := by
    intro x
    simp [visitV, Function.update_apply]
  constructor
  · simp only [visitV]
    omega
  · intro x
    rw [hnum x]
    show _ < s.next + 1
    have := hW.num_lt x
    split <;> omega
  · intro x y hx hxy
    rw [hnum x] at hx hxy
    rw [hnum y] at hxy
    by_cases hxv : x = v
    · by_cases hyv : y = v
      · rw [hxv, hyv]
      · rw [if_pos hxv, if_neg hyv] at hxy
        have := hW.num_lt y
        omega
    · by_cases hyv : y = v
      · rw [if_neg hxv] at hx hxy
        rw [if_pos hyv] at hxy
        have := hW.num_lt x
        omega
      · rw [if_neg hxv] at hx hxy
        rw [if_neg hyv] at hxy
        exact hW.num_inj x y hx hxy
  · intro x hx
    rw [hnum x] at hx
    rw [hnum x, hlow x]
    by_cases hxv : x = v
    · simp [hxv]
    · rw [if_neg hxv] at hx ⊢
      rw [if_neg hxv]
      exact hW.low_le x hx
  · intro x hx
    rw [hnum x] at hx
    by_cases hxv : x = v
    · rw [hxv]
      exact hvm
    · rw [if_neg hxv] at hx
      exact hW.vis_verts x hx
  · intro x hx
    rw [hnum x]
    simp only [visitV] at hx
    rcases List.mem_cons.mp hx with rfl | hx'
    · rw [if_pos rfl]
      have := hW.next_pos
      omega
    · have hxv : x ≠ v := fun he => hvstk (he ▸ hx')
      rw [if_neg hxv]
      exact hW.stk_vis x hx'
  · intro x
    simp only [visitV, Function.update_apply]
    by_cases hxv : x = v
    · subst hxv
      simp
    · rw [if_neg hxv]
      simp only [List.mem_cons]
      rw [hW.onstk_iff x]
      constructor
      · exact fun h => Or.inr h
      · rintro (rfl | h)
        · exact absurd rfl hxv
        · exact h
  · show List.Pairwise _ (v :: s.stk)
    refine List.pairwise_cons.mpr ⟨?_, ?_⟩
    · intro b hb
      have hbv : b ≠ v := fun he => hvstk (he ▸ hb)
      rw [hnum b, hnum v, if_neg hbv, if_pos rfl]
      exact hW.num_lt b
    · refine hW.stk_num.imp_of_mem ?_
      intro a b ha hb hab
      have hav : a ≠ v := fun he => hvstk (he ▸ ha)
      have hbv : b ≠ v := fun he => hvstk (he ▸ hb)
      rw [hnum a, hnum b, if_neg hav, if_neg hbv]
      exact hab
  · intro u hu
    simp only [visitV] at hu
    rcases List.mem_cons.mp hu with rfl | hu'
    · refine ⟨u, List.mem_cons_self u _, gReach_refl adj u, ?_⟩
      rw [hnum u, hlow u, if_pos rfl, if_pos rfl]
    · obtain ⟨w, hw, hreach, hn⟩ := hW.low_wit u hu'
      have hwv : w ≠ v := fun he => hvstk (he ▸ hw)
      have huv : u ≠ v := fun he => hvstk (he ▸ hu')
      refine ⟨w, ?_, hreach, ?_⟩
      · show w ∈ v :: s.stk
        exact List.mem_cons_of_mem _ hw
      · rw [hnum w, hlow u, if_neg hwv, if_neg huv]
        exact hn
  · intro c hc x hx
    have hx0 := hW.sccs_vis c hc x hx
    have hxv : x ≠ v := fun he => hx0 (he ▸ hv)
    rw [hnum x, if_neg hxv]
    exact hx0
  · intro c hc x hx
    have hx0 := hW.sccs_vis c hc x hx
    have hxv : x ≠ v := fun he => hx0 (he ▸ hv)
    show x ∉ v :: s.stk
    simp only [List.mem_cons]
    rintro (rfl | hm)
    · exact hxv rfl
    · exact hW.sccs_off c hc x hx hm
  · intro x hx
    rw [hnum x] at hx
    by_cases hxv : x = v
    · subst hxv
      exact Or.inl (List.mem_cons_self _ _)
    · rw [if_neg hxv] at hx
      rcases hW.vis_in x hx with hm | hc
      · exact Or.inl (List.mem_cons_of_mem _ hm)
      · exact Or.inr hc
  · exact hW.sccs_nd
  · exact hW.sccs_mut
  · exact hW.sccs_closed

theorem visitV_TPath {V : Type} [DecidableEq V] {adj : V → List V} {verts : List V}
    {path : List V} {v : V} {s : TState V} (hW : TWF adj verts s)
    (hP : TPath adj path s) (hv : s.num v = 0)
    (hreach : ∀ p ∈ path, GReach adj p v) :
    TPath adj (v :: path) (visitV v s) := by
  have hvstk : v ∉ s.stk := fun hm => hW.stk_vis v hm hv
  have hvpath : v ∉ path := fun hm => hW.stk_vis v (hP.sub v hm) hv
  have hnum : ∀ x, (visitV v s).num x = if x = v then s.next else s.num x := by
    intro x
    simp [visitV, Function.update_apply]
  have hlow : ∀ x, (visitV v s).low x = if x = v then s.next else s.low x := by
    intro x
    simp [visitV, Function.update_apply]
  constructor
  · intro p hp
    show p ∈ v :: s.stk
    rcases List.mem_cons.mp hp with rfl | hp'
    · exact List.mem_cons_self _ _
    · exact List.mem_cons_of_mem _ (hP.sub p hp')
  · refine List.pairwise_cons.mpr ⟨?_, ?_⟩
    · intro b hb
      have hbv : b ≠ v := fun he => hvpath (he ▸ hb)
      rw [hnum b, hnum v, if_neg hbv, if_pos rfl]
      exact hW.num_lt b
    · refine hP.nums.imp_of_mem ?_
      intro a b ha hb hab
      have hav : a ≠ v := fun he => hvpath (he ▸ ha)
      have hbv : b ≠ v := fun he => hvpath (he ▸ hb)
      rw [hnum a, hnum b, if_neg hav, if_neg hbv]
      exact hab
  · intro u hu hup
    have huv : u ≠ v := fun he => hup (he ▸ List.mem_cons_self v path)
    have hu' : u ∈ s.stk := by
      rcases List.mem_cons.mp hu with rfl | h
      · exact absurd rfl huv
      · exact h
    have hup' : u ∉ path := fun hm => hup (List.mem_cons_of_mem _ hm)
    rw [hnum u, hlow u, if_neg huv, if_neg huv]
    exact hP.comp_low u hu' hup'
  · intro x hx hxp y hy
    have hxv : x ≠ v := fun he => hxp (he ▸ List.mem_cons_self v path)
    rw [hnum x, if_neg hxv] at hx
    have hxp' : x ∉ path := fun hm => hxp (List.mem_cons_of_mem _ hm)
    obtain ⟨hy0, hyrec⟩ := hP.record x hx hxp' y hy
    have hyv : y ≠ v := fun he => hy0 (he ▸ hv)
    refine ⟨by rw [hnum y, if_neg hyv]; exact hy0, ?_⟩
    intro hystk
    rcases List.mem_cons.mp hystk with rfl | hy'
    · exact absurd rfl hyv
    · rw [hnum y, hlow x, if_neg hyv, if_neg hxv]
      exact hyrec hy'
  · intro u hu hup
    have huv : u ≠ v := fun he => hup (he ▸ List.mem_cons_self v path)
    have hu' : u ∈ s.stk := by
      rcases List.mem_cons.mp hu with rfl | h
      · exact absurd rfl huv
      · exact h
    have hup' : u ∉ path := fun hm => hup (List.mem_cons_of_mem _ hm)
    obtain ⟨p, hp, hlo, hnm, hmax⟩ := hP.anchor u hu' hup'
    have hpv : p ≠ v := fun he => hvpath (he ▸ hp)
    refine ⟨p, List.mem_cons_of_mem _ hp, ?_, ?_, ?_⟩
    · rw [hlow p, hlow u, if_neg hpv, if_neg huv]
      exact hlo
    · rw [hnum p, hnum u, if_neg hpv, if_neg huv]
      exact hnm
    · intro q hq hqu
      rcases List.mem_cons.mp hq with rfl | hq'
      · exfalso
        rw [hnum q, hnum u, if_pos rfl, if_neg huv] at hqu
        have := hW.num_lt u
        omega
      · have hqv : q ≠ v := fun he => hvpath (he ▸ hq')
        rw [hnum q, hnum u, if_neg hqv, if_neg huv] at hqu
        rw [hnum q, hnum p, if_neg hqv, if_neg hpv]
        exact hmax q hq' hqu
  · intro p hp u hu hpu
    rcases List.mem_cons.mp hp with hpv | hp'
    · rcases List.mem_cons.mp hu with huv | hu'
      · rw [hpv, huv]
        exact gReach_refl adj v
      · exfalso
        have huv : u ≠ v := fun he => hvstk (he ▸ hu')
        rw [hnum p, hnum u, if_pos hpv, if_neg huv] at hpu
        have := hW.num_lt u
        omega
    · rcases List.mem_cons.mp hu with huv | hu'
      · rw [huv]
        exact hreach p hp'
      · have hpv : p ≠ v := fun he => hvpath (he ▸ hp')
        have huv : u ≠ v := fun he => hvstk (he ▸ hu')
        rw [hnum p, hnum u, if_neg hpv, if_neg huv] at hpu
        exact hP.reach_up p hp' u hu' hpu

theorem onStackStep_spec {V : Type} [DecidableEq V] {adj : V → List V}
    {verts : List V} {path : List V} {a w : V} {s s2 : TState V}
    (hW : TWF adj verts s) (hP : TPath adj (a :: path) s)
    (hwadj : w ∈ adj a) (hwon : s.onStk w = true)
    (hs2 : s2 = if s.num w < s.low a then updateLow a (s.num w) s else s) :
    TWF adj verts s2 ∧ TPath adj (a :: path) s2 ∧ s2.num = s.num ∧
    s2.stk = s.stk ∧ s2.sccs = s.sccs ∧ s2.next = s.next ∧
    (∀ x, x ≠ a → s2.low x = s.low x) ∧ s2.low a ≤ s.low a ∧
    s2.low a ≤ s.num w := by
  have hastk : a ∈ s.stk := hP.sub a (List.mem_cons_self _ _)
  have ha0 : s.num a ≠ 0 := hW.stk_vis a hastk
  have hwstk : w ∈ s.stk := (hW.onstk_iff w).mp hwon
  by_cases hupd : s.num w < s.low a
  · rw [if_pos hupd] at hs2
    subst hs2
    have hlow2 : ∀ x, (updateLow a (s.num w) s).low x
        = if x = a then s.num w else s.low x := by
      intro x
      simp [updateLow, Function.update_apply]
    have hle_a : s.num w < s.low a := hupd
    have hlow_le_a := hW.low_le a ha0
    have hnum2 : (updateLow a (s.num w) s).num = s.num := rfl
    refine ⟨?_, ?_, rfl, rfl, rfl, rfl, ?_, ?_, ?_⟩
    · constructor
      · exact hW.next_pos
      · exact hW.num_lt
      · exact hW.num_inj
      · intro x hx
        rw [hlow2 x, hnum2]
        rw [hnum2] at hx
        by_cases hxa : x = a
        · rw [if_pos hxa, hxa]
          omega
        · rw [if_neg hxa]
          exact hW.low_le x hx
      · exact hW.vis_verts
      · exact hW.stk_vis
      · exact hW.onstk_iff
      · exact hW.stk_num
      · intro u hu
        by_cases hua : u = a
        · refine ⟨w, hwstk, ?_, ?_⟩
          · rw [hua]
            exact gReach_edge adj hwadj
          · rw [hlow2 u, if_pos hua, hnum2]
        · obtain ⟨ww, hww, hr, hn⟩ := hW.low_wit u hu
          exact ⟨ww, hww, hr, by rw [hlow2 u, if_neg hua]; exact hn⟩
      · exact hW.sccs_vis
      · exact hW.sccs_off
      · exact hW.vis_in
      · exact hW.sccs_nd
      · exact hW.sccs_mut
      · exact hW.sccs_closed
    · constructor
      · exact hP.sub
      · exact hP.nums
      · intro u hu hup
        have hua : u ≠ a := fun he => hup (he ▸ List.mem_cons_self a path)
        rw [hlow2 u, if_neg hua]
        exact hP.comp_low u hu hup
      · intro x hx hxp y hy
        have hxa : x ≠ a := fun he => hxp (he ▸ List.mem_cons_self a path)
        obtain ⟨hy0, hyr⟩ := hP.record x hx hxp y hy
        refine ⟨hy0, ?_⟩
        intro hystk
        rw [hlow2 x, if_neg hxa]
        exact hyr hystk
      · intro u hu hup
        have hua : u ≠ a := fun he => hup (he ▸ List.mem_cons_self a path)
        obtain ⟨p, hp, hlo, hnm, hmax⟩ := hP.anchor u hu hup
        refine ⟨p, hp, ?_, hnm, hmax⟩
        rw [hlow2 p, hlow2 u, if_neg hua]
        by_cases hpa : p = a
        · rw [if_pos hpa]
          have : s.low p = s.low a := by rw [hpa]
          omega
        · rw [if_neg hpa]
          exact hlo
      · exact hP.reach_up
    · intro x hx
      rw [hlow2 x, if_neg hx]
    · rw [hlow2 a, if_pos rfl]
      omega
    · rw [hlow2 a, if_pos rfl]
  · rw [if_neg hupd] at hs2
    subst hs2
    exact ⟨hW, hP, rfl, rfl, rfl, rfl, fun x _ => rfl, le_refl _, by omega⟩

theorem returnStep_spec {V : Type} [DecidableEq V] {adj : V → List V}
    {verts : List V} {path : List V} {a w : V} {s1 s2 : TState V}
    (hW : TWF adj verts s1) (hP : TPath adj (w :: a :: path) s1)
    (hwadj : w ∈ adj a) (hwstk : w ∈ s1.stk) (hcomp : s1.low w < s1.num w)
    (hrec : ∀ y ∈ adj w, s1.num y ≠ 0 ∧ (y ∈ s1.stk → s1.low w ≤ s1.num y))
    (hs2 : s2 = if s1.low w < s1.low a then updateLow a (s1.low w) s1 else s1) :
    TWF adj verts s2 ∧ TPath adj (a :: path) s2 ∧ s2.num = s1.num ∧
    s2.stk = s1.stk ∧ s2.sccs = s1.sccs ∧ s2.next = s1.next ∧
    (∀ x, x ≠ a → s2.low x = s1.low x) ∧ s2.low a ≤ s1.low a ∧
    s2.low a ≤ s1.low w := by
  have hcons := List.pairwise_cons.mp hP.nums
  have hnums_tail : (a :: path).Pairwise (fun x y => s1.num y < s1.num x) :=
    hcons.2
  have hlt_w : ∀ q ∈ a :: path, s1.num q < s1.num w := hcons.1
  have hlt_a : ∀ q ∈ path, s1.num q < s1.num a :=
    (List.pairwise_cons.mp hnums_tail).1
  have hastk : a ∈ s1.stk := hP.sub a (List.mem_cons_of_mem _ (List.mem_cons_self _ _))
  have ha0 : s1.num a ≠ 0 := hW.stk_vis a hastk
  have hw0 : s1.num w ≠ 0 := hW.stk_vis w hwstk
  have hwa : w ≠ a := by
    intro he
    have := hlt_w a (List.mem_cons_self _ _)
    rw [he] at this
    omega
  have hwnotin : w ∉ a :: path := by
    intro hm
    have := hlt_w w hm
    omega
  have hnumaw : s1.num a < s1.num w := hlt_w a (List.mem_cons_self _ _)
  -- Facts about the (possibly updated) lowlink table.
  have hbundle : s2.num = s1.num ∧ s2.stk = s1.stk ∧ s2.sccs = s1.sccs ∧
      s2.next = s1.next ∧ s2.onStk = s1.onStk ∧
      (∀ x, x ≠ a → s2.low x = s1.low x) ∧ s2.low a ≤ s1.low a ∧
      s2.low a ≤ s1.low w := by
    by_cases hupd : s1.low w < s1.low a
    · rw [if_pos hupd] at hs2
      subst hs2
      refine ⟨rfl, rfl, rfl, rfl, rfl, ?_, ?_, ?_⟩
      · intro x hx
        simp [updateLow, Function.update_apply, hx]
      · have : (updateLow a (s1.low w) s1).low a = s1.low w := by
          simp [updateLow, Function.update_apply]
        omega
      · have : (updateLow a (s1.low w) s1).low a = s1.low w := by
          simp [updateLow, Function.update_apply]
        omega
    · rw [if_neg hupd] at hs2
      subst hs2
      exact ⟨rfl, rfl, rfl, rfl, rfl, fun x _ => rfl, le_refl _, by omega⟩
  obtain ⟨hn2, hk2, hc2, hx2, ho2, hlne, hlea, hlew⟩ := hbundle
  have hlowa_le : s2.low a ≤ s1.num a := le_trans hlea (hW.low_le a ha0)
  refine ⟨?_, ?_, hn2, hk2, hc2, hx2, hlne, hlea, hlew⟩
  · constructor
    · rw [hx2]; exact hW.next_pos
    · intro x; rw [hn2, hx2]; exact hW.num_lt x
    · intro x y hx hxy
      rw [hn2] at hx hxy
      exact hW.num_inj x y hx hxy
    · intro x hx
      rw [hn2] at hx ⊢
      by_cases hxa : x = a
      · rw [hxa]; exact hlowa_le
      · rw [hlne x hxa]; exact hW.low_le x hx
    · intro x hx; rw [hn2] at hx; exact hW.vis_verts x hx
    · intro x hx; rw [hk2] at hx; rw [hn2]; exact hW.stk_vis x hx
    · intro x; rw [ho2, hk2]; exact hW.onstk_iff x
    · rw [hk2]
      refine hW.stk_num.imp_of_mem ?_
      intro x y _ _ hxy
      rw [hn2]; exact hxy
    · intro u hu
      rw [hk2] at hu
      by_cases hua : u = a
      · subst hua
        by_cases hupd : s1.low w < s1.low u
        · obtain ⟨ww, hww, hr, hnw⟩ := hW.low_wit w hwstk
          refine ⟨ww, by rw [hk2]; exact hww, ?_, ?_⟩
          · exact gReach_trans adj (gReach_edge adj hwadj) hr
          · rw [hn2, hnw]
            rw [if_pos hupd] at hs2
            subst hs2
            simp [updateLow, Function.update_apply]
        · obtain ⟨ww, hww, hr, hnw⟩ := hW.low_wit u hu
          refine ⟨ww, by rw [hk2]; exact hww, hr, ?_⟩
          rw [hn2, hnw]
          rw [if_neg hupd] at hs2
          subst hs2
          rfl
      · obtain ⟨ww, hww, hr, hnw⟩ := hW.low_wit u hu
        refine ⟨ww, by rw [hk2]; exact hww, hr, ?_⟩
        rw [hn2, hnw, hlne u hua]
    · intro c hc x hx
      rw [hc2] at hc
      rw [hn2]
      exact hW.sccs_vis c hc x hx
    · intro c hc x hx
      rw [hc2] at hc
      rw [hk2]
      exact hW.sccs_off c hc x hx
    · intro x hx
      rw [hn2] at hx
      rw [hk2, hc2]
      exact hW.vis_in x hx
    · rw [hc2]; exact hW.sccs_nd
    · rw [hc2]; exact hW.sccs_mut
    · intro A c B hAB x hx y hy
      rw [hc2] at hAB
      exact hW.sccs_closed A c B hAB x hx y hy
  · constructor
    · intro p hp
      rw [hk2]
      exact hP.sub p (List.mem_cons_of_mem _ hp)
    · refine hnums_tail.imp_of_mem ?_
      intro x y _ _ hxy
      rw [hn2]; exact hxy
    · intro u hu hup
      rw [hk2] at hu
      have hua : u ≠ a := fun he => hup (he ▸ List.mem_cons_self a path)
      by_cases huw : u = w
      · rw [hn2, hlne u (huw ▸ hwa), huw]
        exact hcomp
      · have : u ∉ w :: a :: path := by
          simp only [List.mem_cons]
          rintro (rfl | rfl | hm)
          · exact huw rfl
          · exact hua rfl
          · exact hup (List.mem_cons_of_mem _ hm)
        rw [hn2, hlne u hua]
        exact hP.comp_low u hu this
    · intro x hx hxp y hy
      rw [hn2] at hx
      have hxa : x ≠ a := fun he => hxp (he ▸ List.mem_cons_self a path)
      by_cases hxw : x = w
      · subst hxw
        obtain ⟨hy0, hyr⟩ := hrec y hy
        refine ⟨by rw [hn2]; exact hy0, ?_⟩
        intro hystk
        rw [hk2] at hystk
        rw [hn2, hlne x hwa]
        exact hyr hystk
      · have hxout : x ∉ w :: a :: path := by
          simp only [List.mem_cons]
          rintro (rfl | rfl | hm)
          · exact hxw rfl
          · exact hxa rfl
          · exact hxp (List.mem_cons_of_mem _ hm)
        obtain ⟨hy0, hyr⟩ := hP.record x hx hxout y hy
        refine ⟨by rw [hn2]; exact hy0, ?_⟩
        intro hystk
        rw [hk2] at hystk
        rw [hn2, hlne x hxa]
        exact hyr hystk
    · intro u hu hup
      rw [hk2] at hu
      have hua : u ≠ a := fun he => hup (he ▸ List.mem_cons_self a path)
      by_cases huw : u = w
      · subst huw
        refine ⟨a, List.mem_cons_self _ _, ?_, ?_, ?_⟩
        · rw [hlne u hwa]
          exact hlew
        · rw [hn2]
          exact hnumaw
        · intro q hq _
          rw [hn2]
          rcases List.mem_cons.mp hq with rfl | hq'
          · exact le_refl _
          · exact le_of_lt (hlt_a q hq')
      · have huout : u ∉ w :: a :: path := by
          simp only [List.mem_cons]
          rintro (rfl | rfl | hm)
          · exact huw rfl
          · exact hua rfl
          · exact hup (List.mem_cons_of_mem _ hm)
        obtain ⟨p, hp, hlo, hnm, hmax⟩ := hP.anchor u hu huout
        rcases List.mem_cons.mp hp with rfl | hp'
        · -- re-anchor at a
          refine ⟨a, List.mem_cons_self _ _, ?_, ?_, ?_⟩
          · rw [hlne u hua]
            exact le_trans hlew hlo
          · rw [hn2]
            exact lt_trans hnumaw hnm
          · intro q hq _
            rw [hn2]
            rcases List.mem_cons.mp hq with rfl | hq'
            · exact le_refl _
            · exact le_of_lt (hlt_a q hq')
        · refine ⟨p, hp', ?_, ?_, ?_⟩
          · have hpa : p ≠ a ∨ p = a := (ne_or_eq p a)
            rw [hlne u hua]
            rcases hpa with hpa | hpa
            · rw [hlne p hpa]
              exact hlo
            · rw [hpa]
              exact le_trans hlea (hpa ▸ hlo)
          · rw [hn2]
            exact hnm
          · intro q hq hqu
            rw [hn2] at hqu ⊢
            exact hmax q (List.mem_cons_of_mem _ hq) hqu
    · intro p hp u hu hpu
      rw [hk2] at hu
      rw [hn2] at hpu
      exact hP.reach_up p (List.mem_cons_of_mem _ hp) u hu hpu

theorem descent_reaches {V : Type} [DecidableEq V] {adj : V → List V}
    {verts : List V} {path : List V} {v : V} {s1 : TState V}
    (hW : TWF adj verts s1) (hP : TPath adj (v :: path) s1)
    (hroot : s1.low v = s1.num v) :
    ∀ n u, u ∈ s1.stk → s1.num u ≤ n → s1.num v ≤ s1.num u →
      GReach adj u v := by
  have hpathlt : ∀ q ∈ path, s1.num q < s1.num v :=
    (List.pairwise_cons.mp hP.nums).1
  have hvstk : v ∈ s1.stk := hP.sub v (List.mem_cons_self _ _)
  have hv0 : s1.num v ≠ 0 := hW.stk_vis v hvstk
  intro n
  induction n using Nat.strong_induction_on with
  | _ n ih =>
    intro u hu hun hvu
    by_cases huv : u = v
    · rw [huv]
      exact gReach_refl adj v
    · have hvu' : s1.num v < s1.num u := by
        rcases lt_or_eq_of_le hvu with h | h
        · exact h
        · exact absurd (hW.num_inj v u hv0 h).symm huv
      have hunotin : u ∉ v :: path := by
        simp only [List.mem_cons]
        rintro (rfl | hm)
        · exact huv rfl
        · have := hpathlt u hm
          omega
      have hcl := hP.comp_low u hu hunotin
      obtain ⟨p, hp, hlo, hnm, hmax⟩ := hP.anchor u hu hunotin
      have hpv : p = v := by
        rcases List.mem_cons.mp hp with h | h
        · exact h
        · exfalso
          have h1 := hpathlt p h
          have h2 := hmax v (List.mem_cons_self _ _) hvu'
          omega
      rw [hpv] at hlo
      obtain ⟨ww, hww, hr, hnw⟩ := hW.low_wit u hu
      by_cases hwv : ww = v
      · exact gReach_trans adj hr (hwv ▸ gReach_refl adj ww)
      · have hw0 : s1.num ww ≠ 0 := hW.stk_vis ww hww
        have hvww : s1.num v ≤ s1.num ww := by
          rw [hnw]
          omega
        have hwwlt : s1.num ww < n := by
          rw [hnw]
          omega
        exact gReach_trans adj hr
          (ih (s1.num ww) hwwlt ww hww (le_refl _) hvww)

theorem append_singleton_split {α : Type} (l : List (List α)) (c0 : List α)
    (A B : List (List α)) (c : List α) (h : l ++ [c0] = A ++ c :: B) :
    (∃ B0, l = A ++ c :: B0) ∨ (A = l ∧ c = c0 ∧ B = []) := by
  induction A generalizing l with
  | nil =>
    cases l with
    | nil =>
      simp only [List.nil_append] at h
      rcases List.cons.injEq c0 [] c B ▸ h with ⟨h1, h2⟩
      exact Or.inr ⟨rfl, h1.symm, h2.symm⟩
    | cons x l' =>
      simp only [List.cons_append, List.nil_append] at h
      rcases List.cons.injEq x (l' ++ [c0]) c B ▸ h with ⟨h1, h2⟩
      exact Or.inl ⟨l', by rw [List.nil_append, h1]⟩
  | cons a A' ih =>
    cases l with
    | nil =>
      simp only [List.nil_append, List.cons_append] at h
      rcases List.cons.injEq c0 [] a (A' ++ c :: B) ▸ h with ⟨h1, h2⟩
      exact absurd h2.symm (List.append_ne_nil_of_right_ne_nil A' (List.cons_ne_nil c B))
    | cons x l' =>
      simp only [List.cons_append] at h
      rcases List.cons.injEq x (l' ++ [c0]) a (A' ++ c :: B) ▸ h with ⟨h1, h2⟩
      rcases ih l' h2 with ⟨B0, hB0⟩ | ⟨hA, hc, hB⟩
      · exact Or.inl ⟨B0, by rw [hB0, h1, List.cons_append]⟩
      · exact Or.inr ⟨by rw [hA, h1], hc, hB⟩

theorem popSCC_spec {V : Type} [DecidableEq V] {adj : V → List V}
    {verts : List V} {path : List V} {v : V} {s1 : TState V} {d base : List V}
    (hW : TWF adj verts s1) (hP : TPath adj (v :: path) s1)
    (hsplit : s1.stk = d ++ v :: base)
    (hdhi : ∀ u ∈ d, s1.num v < s1.num u)
    (hbaselo : ∀ u ∈ base, s1.num u < s1.num v)
    (hroot : s1.low v = s1.num v)
    (hQ6 : ∀ y ∈ adj v, s1.num y ≠ 0 ∧ (y ∈ s1.stk → s1.low v ≤ s1.num y)) :
    (popSCC v s1).num = s1.num ∧ (popSCC v s1).low = s1.low ∧
    (popSCC v s1).next = s1.next ∧ (popSCC v s1).stk = base ∧
    (popSCC v s1).sccs = s1.sccs ++ [d ++ [v]] ∧
    TWF adj verts (popSCC v s1) ∧ TPath adj path (popSCC v s1) := by
  have hvstk : v ∈ s1.stk := hP.sub v (List.mem_cons_self _ _)
  have hv0 : s1.num v ≠ 0 := hW.stk_vis v hvstk
  have hpathlt : ∀ q ∈ path, s1.num q < s1.num v :=
    (List.pairwise_cons.mp hP.nums).1
  have hvd : v ∉ d := by
    intro hm
    have := hdhi v hm
    omega
  have hpt : popTo v s1.stk = (d ++ [v], base) := by
    rw [hsplit]
    exact popTo_split v d base hvd
  have hpop : popSCC v s1 = ⟨s1.next, s1.num, s1.low, base,
      fun x => if x ∈ d ++ [v] then false else s1.onStk x,
      s1.sccs ++ [d ++ [v]]⟩ := by
    unfold popSCC
    rw [if_pos hroot, hpt]
  -- Membership facts about the popped component and the remaining stack.
  have hCmem : ∀ x, x ∈ d ++ [v] ↔ (x ∈ d ∨ x = v) := by
    intro x
    simp
  have hCsub : ∀ x ∈ d ++ [v], x ∈ s1.stk := by
    intro x hx
    rw [hsplit]
    rcases (hCmem x).mp hx with h | rfl
    · exact List.mem_append_left _ h
    · exact List.mem_append_right _ (List.mem_cons_self _ _)
  have hCge : ∀ x ∈ d ++ [v], s1.num v ≤ s1.num x := by
    intro x hx
    rcases (hCmem x).mp hx with h | rfl
    · exact le_of_lt (hdhi x h)
    · exact le_refl _
  have hCvis : ∀ x ∈ d ++ [v], s1.num x ≠ 0 := fun x hx =>
    hW.stk_vis x (hCsub x hx)
  have hCnotbase : ∀ x ∈ d ++ [v], x ∉ base := by
    intro x hx hb
    have h1 := hCge x hx
    have h2 := hbaselo x hb
    omega
  have hbasesub : ∀ u ∈ base, u ∈ s1.stk := by
    intro u hu
    rw [hsplit]
    exact List.mem_append_right _ (List.mem_cons_of_mem _ hu)
  have hstkcase : ∀ y ∈ s1.stk, y ∈ d ++ [v] ∨ y ∈ base := by
    intro y hy
    rw [hsplit] at hy
    rcases List.mem_append.mp hy with h | h
    · exact Or.inl ((hCmem y).mpr (Or.inl h))
    · rcases List.mem_cons.mp h with rfl | h'
      · exact Or.inl ((hCmem y).mpr (Or.inr rfl))
      · exact Or.inr h'
  -- Every component member reaches v and is reached from v.
  have hCreach : ∀ x ∈ d ++ [v], GReach adj x v := by
    intro x hx
    exact descent_reaches hW hP hroot (s1.num x) x (hCsub x hx) (le_refl _)
      (hCge x hx)
  have hvreach : ∀ x ∈ d ++ [v], GReach adj v x := by
    intro x hx
    exact hP.reach_up v (List.mem_cons_self _ _) x (hCsub x hx) (hCge x hx)
  -- Anchors of popped nodes force the component's lowlinks above num v.
  have hanch : ∀ x ∈ d, s1.num v ≤ s1.low x := by
    intro x hx
    have hxstk : x ∈ s1.stk := hCsub x ((hCmem x).mpr (Or.inl hx))
    have hxv : x ≠ v := fun he => hvd (he ▸ hx)
    have hxnotin : x ∉ v :: path := by
      simp only [List.mem_cons]
      rintro (rfl | hm)
      · exact hxv rfl
      · have h1 := hpathlt x hm
        have h2 := hdhi x hx
        omega
    obtain ⟨p, hp, hlo, hnm, hmax⟩ := hP.anchor x hxstk hxnotin
    have hpv : p = v := by
      rcases List.mem_cons.mp hp with h | h
      · exact h
      · exfalso
        have h1 := hpathlt p h
        have h2 := hmax v (List.mem_cons_self _ _) (hdhi x hx)
        omega
    rw [hpv, hroot] at hlo
    exact hlo
  -- All edges out of the component stay in it or land in older components.
  have hedge : ∀ x ∈ d ++ [v], ∀ y ∈ adj x,
      s1.num y ≠ 0 ∧ y ∉ base ∧ (y ∈ d ++ [v] ∨ y ∈ s1.sccs.flatten) := by
    intro x hx y hy
    have hkey : s1.num y ≠ 0 ∧ (y ∈ s1.stk → s1.num v ≤ s1.num y) := by
      rcases (hCmem x).mp hx with hxd | rfl
      · have hxstk : x ∈ s1.stk := hCsub x hx
        have hxv : x ≠ v := fun he => hvd (he ▸ hxd)
        have hxnotin : x ∉ v :: path := by
          simp only [List.mem_cons]
          rintro (rfl | hm)
          · exact hxv rfl
          · have h1 := hpathlt x hm
            have h2 := hdhi x hxd
            omega
        obtain ⟨hy0, hyr⟩ := hP.record x (hW.stk_vis x hxstk) hxnotin y hy
        refine ⟨hy0, fun hystk => ?_⟩
        have := hyr hystk
        have := hanch x hxd
        omega
      · obtain ⟨hy0, hyr⟩ := hQ6 y hy
        refine ⟨hy0, fun hystk => ?_⟩
        have := hyr hystk
        omega
    obtain ⟨hy0, hge⟩ := hkey
    by_cases hystk : y ∈ s1.stk
    · rcases hstkcase y hystk with hyC | hyb
      · refine ⟨hy0, hCnotbase y hyC, Or.inl hyC⟩
      · exfalso
        have h1 := hge hystk
        have h2 := hbaselo y hyb
        omega
    · have hnb : y ∉ base := fun hb => hystk (hbasesub y hb)
      rcases hW.vis_in y hy0 with h | ⟨c, hc, hyc⟩
      · exact absurd h hystk
      · exact ⟨hy0, hnb, Or.inr (List.mem_flatten.mpr ⟨c, hc, hyc⟩)⟩
  rw [hpop]
  refine ⟨rfl, rfl, rfl, rfl, rfl, ?_, ?_⟩
  · constructor
    · exact hW.next_pos
    · exact hW.num_lt
    · exact hW.num_inj
    · exact hW.low_le
    · exact hW.vis_verts
    · intro x hx
      exact hW.stk_vis x (hbasesub x hx)
    · intro x
      show (if x ∈ d ++ [v] then false else s1.onStk x) = true ↔ x ∈ base
      by_cases hxC : x ∈ d ++ [v]
      · rw [if_pos hxC]
        simp only [Bool.false_eq_true, false_iff]
        exact hCnotbase x hxC
      · rw [if_neg hxC]
        rw [hW.onstk_iff x]
        constructor
        · intro hxs
          rcases hstkcase x hxs with h | h
          · exact absurd h hxC
          · exact h
        · exact fun h => hbasesub x h
    · have := hW.stk_num
      rw [hsplit] at this
      have hsub : base.Sublist (d ++ v :: base) :=
        (List.sublist_cons_self v base).trans (List.sublist_append_right d (v :: base))
      exact this.sublist hsub
    · intro u hu
      obtain ⟨ww, hww, hr, hnw⟩ := hW.low_wit u (hbasesub u hu)
      have hwwb : ww ∈ base := by
        have hlu : s1.low u < s1.num v :=
          lt_of_le_of_lt (hW.low_le u (hW.stk_vis u (hbasesub u hu))) (hbaselo u hu)
        rcases hstkcase ww hww with h | h
        · exfalso
          have := hCge ww h
          omega
        · exact h
      exact ⟨ww, hwwb, hr, hnw⟩
    · intro c hc x hx
      rcases List.mem_append.mp hc with h | h
      · exact hW.sccs_vis c h x hx
      · rcases List.mem_singleton.mp h with rfl
        exact hCvis x hx
    · intro c hc x hx
      rcases List.mem_append.mp hc with h | h
      · intro hb
        exact hW.sccs_off c h x hx (hbasesub x hb)
      · rcases List.mem_singleton.mp h with rfl
        exact hCnotbase x hx
    · intro x hx
      rcases hW.vis_in x hx with h | ⟨c, hc, hxc⟩
      · rcases hstkcase x h with hC | hb
        · exact Or.inr ⟨d ++ [v], List.mem_append_right _ (List.mem_singleton.mpr rfl), hC⟩
        · exact Or.inl hb
      · exact Or.inr ⟨c, List.mem_append_left _ hc, hxc⟩
    · rw [List.flatten_append]
      simp only [List.flatten_cons, List.flatten_nil, List.append_nil]
      rw [List.nodup_append]
      refine ⟨hW.sccs_nd, ?_, ?_⟩
      · have hnd : s1.stk.Nodup := pairwise_lt_nodup s1.num s1.stk hW.stk_num
        rw [hsplit] at hnd
        have hsub : (d ++ [v]).Sublist (d ++ v :: base) :=
          (List.cons_sublist_cons.mpr (List.nil_sublist base)).append_left d
        exact hnd.sublist hsub
      · intro x hxf hxC
        have hxstk := hCsub x hxC
        rcases List.mem_flatten.mp hxf with ⟨c, hc, hxc⟩
        exact hW.sccs_off c hc x hxc hxstk
    · intro c hc x hx y hy
      rcases List.mem_append.mp hc with h | h
      · exact hW.sccs_mut c h x hx y hy
      · rcases List.mem_singleton.mp h with rfl
        exact gReach_trans adj (hCreach x hx) (hvreach y hy)
    · intro A c B hAB x hx y hy
      rcases append_singleton_split s1.sccs (d ++ [v]) A B c hAB with
        ⟨B0, hB0⟩ | ⟨hA, hc, hB⟩
      · exact hW.sccs_closed A c B0 hB0 x hx y hy
      · rw [hc] at hx
        rw [hA]
        rcases hedge x hx y hy with ⟨_, _, h⟩
        rw [hc]
        exact h
  · constructor
    · intro p hp
      show p ∈ base
      have hps : p ∈ s1.stk := hP.sub p (List.mem_cons_of_mem _ hp)
      rcases hstkcase p hps with h | h
      · exfalso
        have h1 := hCge p h
        have h2 := hpathlt p hp
        omega
      · exact h
    · exact (List.pairwise_cons.mp hP.nums).2
    · intro u hu hup
      have huv : u ≠ v := by
        intro he
        have := hbaselo u hu
        rw [he] at this
        omega
      have : u ∉ v :: path := by
        simp only [List.mem_cons]
        rintro (rfl | hm)
        · exact huv rfl
        · exact hup hm
      exact hP.comp_low u (hbasesub u hu) this
    · intro x hx hxp y hy
      by_cases hxv : x = v
      · subst hxv
        obtain ⟨hy0, hyr⟩ := hQ6 y hy
        exact ⟨hy0, fun hystk => hyr (hbasesub y hystk)⟩
      · have : x ∉ v :: path := by
          simp only [List.mem_cons]
          rintro (rfl | hm)
          · exact hxv rfl
          · exact hxp hm
        obtain ⟨hy0, hyr⟩ := hP.record x hx this y hy
        exact ⟨hy0, fun hystk => hyr (hbasesub y hystk)⟩
    · intro u hu hup
      have huv : u ≠ v := by
        intro he
        have := hbaselo u hu
        rw [he] at this
        omega
      have hunotin : u ∉ v :: path := by
        simp only [List.mem_cons]
        rintro (rfl | hm)
        · exact huv rfl
        · exact hup hm
      obtain ⟨p, hp, hlo, hnm, hmax⟩ := hP.anchor u (hbasesub u hu) hunotin
      have hpv : p ≠ v := by
        intro he
        rw [he] at hnm
        have := hbaselo u hu
        omega
      have hp' : p ∈ path := by
        rcases List.mem_cons.mp hp with h | h
        · exact absurd h hpv
        · exact h
      exact ⟨p, hp', hlo, hnm, fun q hq hqu => hmax q (List.mem_cons_of_mem _ hq) hqu⟩
    · intro p hp u hu hpu
      exact hP.reach_up p (List.mem_cons_of_mem _ hp) u (hbasesub u hu) hpu

theorem sc_zero {V : Type} [DecidableEq V] (adj : V → List V) (verts : List V) :
    SCSpec adj verts 0 := by
  intro path v s hpre
  obtain ⟨hW, hP, hv0, hvm, hreach, hfu⟩ := hpre
  exfalso
  have : 0 < unvisCount verts s := by
    unfold unvisCount
    rw [List.countP_pos_iff]
    exact ⟨v, hvm, by simpa using hv0⟩
  omega

/-- What one iteration of the successor loop establishes for the state it
hands to the rest of the loop: invariants, frozen old vertices, stack grown
only by new vertices, and the processed successor `w` visited and recorded
in `v`'s lowlink (or permanently off the stack). -/
def SFMid {V : Type} [DecidableEq V] (adj : V → List V) (verts : List V)
    (path : List V) (v w : V) (s s2 : TState V) : Prop :=
  TWF adj verts s2 ∧ TPath adj (v :: path) s2 ∧
  (∀ x, s.num x ≠ 0 → s2.num x = s.num x ∧ (x ≠ v → s2.low x = s.low x)) ∧
  s.next ≤ s2.next ∧
  (∀ x, s2.num x ≠ 0 → s.num x ≠ 0 ∨ (GReach adj v x ∧ s.next ≤ s2.num x)) ∧
  unvisCount verts s2 ≤ unvisCount verts s ∧
  (∃ d0, s2.stk = d0 ++ s.stk ∧ ∀ u ∈ d0, s.num u = 0) ∧
  s2.low v ≤ s.low v ∧
  s2.num w ≠ 0 ∧ (w ∉ s2.stk ∨ s2.low v ≤ s2.num w)

theorem sf_cont {V : Type} [DecidableEq V] {adj : V → List V} {verts : List V}
    {fuel : Nat} {path : List V} {v w : V} {ws : List V} {s s2 : TState V}
    (hrest : SFPre adj verts fuel path v ws s2 →
      SFPost adj verts path v ws s2 (scFoldT adj fuel v ws s2))
    (hvm : v ∈ verts) (hws : ∀ y ∈ ws, y ∈ adj v)
    (hfu : unvisCount verts s ≤ fuel)
    (hM : SFMid adj verts path v w s s2) :
    SFPost adj verts path v (w :: ws) s (scFoldT adj fuel v ws s2) := by
  obtain ⟨hW2, hP2, hfr2, hnx2, hnew2, hu2, ⟨d0, hd0, hd0new⟩, hlo2, hw2, hwrec⟩ := hM
  have hpost := hrest ⟨hW2, hP2, hvm, hws, le_trans hu2 hfu⟩
  obtain ⟨hW3, hfr3, hnx3, hnew3, hu3, ⟨d1, hd1, hd1new⟩, hP3, hrec3, hlo3⟩ := hpost
  have hvis23 : ∀ x, s2.num x ≠ 0 → (scFoldT adj fuel v ws s2).num x ≠ 0 := by
    intro x hx
    rw [(hfr3 x hx).1]
    exact hx
  have hvis12 : ∀ x, s.num x ≠ 0 → s2.num x ≠ 0 := by
    intro x hx
    rw [(hfr2 x hx).1]
    exact hx
  refine ⟨hW3, ?_, le_trans hnx2 hnx3, ?_, le_trans hu3 hu2, ?_, hP3, ?_, ?_⟩
  · intro x hx
    obtain ⟨hn2, hl2⟩ := hfr2 x hx
    obtain ⟨hn3, hl3⟩ := hfr3 x (hvis12 x hx)
    refine ⟨by rw [hn3, hn2], ?_⟩
    intro hxv
    rw [hl3 hxv, hl2 hxv]
  · intro x hx
    rcases hnew3 x hx with h2 | ⟨hr, hth⟩
    · rcases hnew2 x h2 with h1 | ⟨hr1, hth1⟩
      · exact Or.inl h1
      · refine Or.inr ⟨hr1, ?_⟩
        rw [(hfr3 x h2).1]
        exact hth1
    · exact Or.inr ⟨hr, le_trans (le_trans hnx2 hnx3 |> fun _ => le_trans hnx2 hth) (le_refl _)⟩
  · refine ⟨d1 ++ d0, by rw [hd1, hd0, List.append_assoc], ?_⟩
    intro u hu
    rcases List.mem_append.mp hu with h | h
    · by_contra hne
      exact absurd (hvis12 u hne) (by rw [hd1new u h]; simp)
    · exact hd0new u h
  · intro y hy
    rcases List.mem_cons.mp hy with rfl | hy'
    · obtain ⟨hn3, _⟩ := hfr3 y hw2
      refine ⟨by rw [hn3]; exact hw2, ?_⟩
      intro hystk
      rcases hwrec with hout | hle
      · exfalso
        rw [hd1] at hystk
        rcases List.mem_append.mp hystk with h | h
        · exact absurd (hd1new y h) hw2
        · exact hout h
      · rw [hn3]
        exact le_trans hlo3 hle
    · exact hrec3 y hy'
  · exact le_trans hlo3 hlo2

theorem sf_mid_onstk {V : Type} [DecidableEq V] {adj : V → List V}
    {verts : List V} {path : List V} {v w : V} {s : TState V}
    (hW : TWF adj verts s) (hP : TPath adj (v :: path) s)
    (hwadj : w ∈ adj v) (hw0 : s.num w ≠ 0) (hwon : s.onStk w = true) :
    SFMid adj verts path v w s
      (if s.num w < s.low v then updateLow v (s.num w) s else s) := by
  obtain ⟨hW2, hP2, hn2, hk2, hc2, hx2, hlne, hlea, hlew⟩ :=
    onStackStep_spec hW hP hwadj hwon rfl
  have hueq : unvisCount verts (if s.num w < s.low v then updateLow v (s.num w) s else s)
      = unvisCount verts s := by
    unfold unvisCount
    rw [hn2]
  refine ⟨hW2, hP2, ?_, le_of_eq hx2.symm, ?_, le_of_eq hueq, ⟨[], by rw [hk2, List.nil_append], by simp⟩,
    hlea, by rw [hn2]; exact hw0, Or.inr (by rw [hn2]; exact hlew)⟩
  · intro x hx
    refine ⟨by rw [hn2], fun hxv => hlne x hxv⟩
  · intro x hx
    rw [hn2] at hx
    exact Or.inl hx

theorem sf_mid_off {V : Type} [DecidableEq V] {adj : V → List V}
    {verts : List V} {path : List V} {v w : V} {s : TState V}
    (hW : TWF adj verts s) (hP : TPath adj (v :: path) s)
    (hw0 : s.num w ≠ 0) (hwoff : s.onStk w = false) :
    SFMid adj verts path v w s s := by
  refine ⟨hW, hP, fun x _ => ⟨rfl, fun _ => rfl⟩, le_refl _,
    fun x hx => Or.inl hx, le_refl _, ⟨[], by rw [List.nil_append], by simp⟩,
    le_refl _, hw0, Or.inl ?_⟩
  intro hm
  rw [(hW.onstk_iff w).mpr hm] at hwoff
  cases hwoff

theorem sf_mid_ret {V : Type} [DecidableEq V] {adj : V → List V}
    {verts : List V} {path : List V} {v w : V} {s s1 s2 : TState V}
    (hW : TWF adj verts s) (hP : TPath adj (v :: path) s)
    (hwadj : w ∈ adj v) (hw0 : s.num w = 0)
    (hpost : SCPost adj verts (v :: path) w s s1)
    (hs2 : s2 = if s1.low w < s1.low v then updateLow v (s1.low w) s1 else s1) :
    SFMid adj verts path v w s s2 := by
  obtain ⟨hW1, hfr1, hnx1, hnw1, hnew1, hu1, hQ6w, hdisj⟩ := hpost
  have hvstk : v ∈ s.stk := hP.sub v (List.mem_cons_self _ _)
  have hv0 : s.num v ≠ 0 := hW.stk_vis v hvstk
  obtain ⟨hv1n, hv1l⟩ := hfr1 v hv0
  have hnp : 1 ≤ s.next := hW.next_pos
  have hw1 : s1.num w ≠ 0 := by
    rw [hnw1]
    omega
  rcases hdisj with ⟨hstk1, hwnot, hP1, hrooteq⟩ | ⟨d, hstk1, hwd, hdnew, hP1w, hlww⟩
  · -- popped: the lowlink comparison cannot fire
    have hcond : ¬ (s1.low w < s1.low v) := by
      rw [hrooteq, hnw1, hv1l]
      have h1 := hW.low_le v hv0
      have h2 := hW.num_lt v
      omega
    rw [if_neg hcond] at hs2
    subst hs2
    refine ⟨hW1, hP1, fun x hx => ⟨(hfr1 x hx).1, fun _ => (hfr1 x hx).2⟩,
      hnx1, ?_, le_of_lt hu1, ⟨[], by rw [hstk1, List.nil_append], by simp⟩,
      le_of_eq hv1l, hw1, Or.inl hwnot⟩
    intro x hx
    rcases hnew1 x hx with h | ⟨hr, hth⟩
    · exact Or.inl h
    · exact Or.inr ⟨gReach_trans adj (gReach_edge adj hwadj) hr, hth⟩
  · -- still on the stack: repair the frame after the recursive call
    have hwstk1 : w ∈ s1.stk := by
      rw [hstk1]
      exact List.mem_append_left _ hwd
    obtain ⟨hW2, hP2, hn2, hk2, hc2, hx2, hlne2, hlea2, hlew2⟩ :=
      returnStep_spec hW1 hP1w hwadj hwstk1 hlww hQ6w hs2
    have huveq : unvisCount verts s2 = unvisCount verts s1 := by
      unfold unvisCount
      rw [hn2]
    refine ⟨hW2, hP2, ?_, by rw [hx2]; exact hnx1, ?_, by rw [huveq]; exact le_of_lt hu1,
      ⟨d, by rw [hk2]; exact hstk1, hdnew⟩, by rw [hv1l] at hlea2; exact hlea2,
      by rw [hn2]; exact hw1, Or.inr ?_⟩
    · intro x hx
      obtain ⟨ha, hb⟩ := hfr1 x hx
      refine ⟨by rw [hn2]; exact ha, ?_⟩
      intro hxv
      rw [hlne2 x hxv, hb]
    · intro x hx
      rw [hn2] at hx
      rcases hnew1 x hx with h | ⟨hr, hth⟩
      · exact Or.inl h
      · refine Or.inr ⟨gReach_trans adj (gReach_edge adj hwadj) hr, ?_⟩
        rw [hn2]
        exact hth
    · rw [hn2]
      exact le_trans hlew2 (hW1.low_le w hw1)

theorem sf_of_sc {V : Type} [DecidableEq V] {adj : V → List V} {verts : List V}
    (hadj : ∀ x ∈ verts, ∀ y ∈ adj x, y ∈ verts) {fuel : Nat}
    (hsc : SCSpec adj verts fuel) : SFSpec adj verts fuel := by
  intro path v l
  induction l with
  | nil =>
    intro s hpre
    obtain ⟨hW, hP, hvm, hl, hfu⟩ := hpre
    have hunf : scFoldT adj fuel v [] s = s := by
      simp [scFoldT]
    rw [hunf]
    exact ⟨hW, fun x _ => ⟨rfl, fun _ => rfl⟩, le_refl _,
      fun x hx => Or.inl hx, le_refl _, ⟨[], by rw [List.nil_append], by simp⟩,
      hP, by simp, le_refl _⟩
  | cons w ws ih =>
    intro s hpre
    obtain ⟨hW, hP, hvm, hl, hfu⟩ := hpre
    have hwadj : w ∈ adj v := hl w (List.mem_cons_self _ _)
    have hwsadj : ∀ y ∈ ws, y ∈ adj v := fun y hy => hl y (List.mem_cons_of_mem _ hy)
    have hunf : scFoldT adj fuel v (w :: ws) s = scFoldT adj fuel v ws
        (if s.num w = 0 then
          (if (scT adj fuel w s).low w < (scT adj fuel w s).low v
            then updateLow v ((scT adj fuel w s).low w) (scT adj fuel w s)
            else (scT adj fuel w s))
         else if s.onStk w then
          (if s.num w < s.low v then updateLow v (s.num w) s else s)
         else s) := by
      simp [scFoldT]
    rw [hunf]
    by_cases hw0 : s.num w = 0
    · rw [if_pos hw0]
      have hvstk : v ∈ s.stk := hP.sub v (List.mem_cons_self _ _)
      have hwm : w ∈ verts := hadj v hvm w hwadj
      have hreachw : ∀ p ∈ v :: path, GReach adj p w := by
        intro p hp
        have hple : s.num p ≤ s.num v := by
          rcases List.mem_cons.mp hp with rfl | hp'
          · exact le_refl _
          · exact le_of_lt ((List.pairwise_cons.mp hP.nums).1 p hp')
        exact gReach_trans adj (hP.reach_up p hp v hvstk hple)
          (gReach_edge adj hwadj)
      have hpost := hsc (v :: path) w s ⟨hW, hP, hw0, hwm, hreachw, hfu⟩
      exact sf_cont (ih _) hvm hwsadj hfu
        (sf_mid_ret hW hP hwadj hw0 hpost rfl)
    · rw [if_neg hw0]
      by_cases hwon : s.onStk w = true
      · rw [if_pos hwon]
        exact sf_cont (ih _) hvm hwsadj hfu (sf_mid_onstk hW hP hwadj hw0 hwon)
      · rw [if_neg hwon]
        exact sf_cont (ih _) hvm hwsadj hfu
          (sf_mid_off hW hP hw0 (Bool.not_eq_true _ ▸ hwon |> fun h =>
            by revert h; cases s.onStk w <;> simp))

theorem sc_succ {V : Type} [DecidableEq V] {adj : V → List V} {verts : List V}
    {fuel : Nat} (hsf : SFSpec adj verts fuel) : SCSpec adj verts (fuel + 1) := by
  intro path v s hpre
  obtain ⟨hW, hP, hv0, hvm, hreach, hfu⟩ := hpre
  have hvnstk : v ∉ s.stk := fun hm => hW.stk_vis v hm hv0
  have hunf : scT adj (fuel + 1) v s
      = popSCC v (scFoldT adj fuel v (adj v) (visitV v s)) := by
    simp [scT]
  rw [hunf]
  have hW0 := visitV_TWF hW hv0 hvm
  have hP0 := visitV_TPath hW hP hv0 hreach
  have hnum0 : ∀ x, (visitV v s).num x = if x = v then s.next else s.num x := by
    intro x
    simp [visitV, Function.update_apply]
  have hlow0 : ∀ x, (visitV v s).low x = if x = v then s.next else s.low x := by
    intro x
    simp [visitV, Function.update_apply]
  have hnp : 1 ≤ s.next := hW.next_pos
  have hv0n : (visitV v s).num v = s.next := by
    rw [hnum0, if_pos rfl]
  have hv0ne : (visitV v s).num v ≠ 0 := by
    rw [hv0n]
    omega
  have hvis0 : ∀ x, s.num x ≠ 0 → (visitV v s).num x ≠ 0 := by
    intro x hx
    rw [hnum0]
    by_cases hxv : x = v
    · rw [if_pos hxv]
      omega
    · rw [if_neg hxv]
      exact hx
  have hu0 : unvisCount verts (visitV v s) < unvisCount verts s :=
    unvisCount_lt verts s (visitV v s) v hvis0 hv0 hv0ne hvm
  have hpost := hsf path v (adj v) (visitV v s)
    ⟨hW0, hP0, hvm, fun y hy => hy, by omega⟩
  obtain ⟨hW1, hfr1, hnx1, hnew1, hu1, ⟨d1, hd1, hd1new⟩, hP1, hrec1, hlo1⟩ := hpost
  have hs1v : (scFoldT adj fuel v (adj v) (visitV v s)).num v = s.next := by
    rw [(hfr1 v hv0ne).1, hv0n]
  have hs1vne : (scFoldT adj fuel v (adj v) (visitV v s)).num v ≠ 0 := by
    rw [hs1v]
    omega
  have hd1s : ∀ u ∈ d1, s.num u = 0 ∧ u ≠ v := by
    intro u hu
    have h0 := hd1new u hu
    rw [hnum0] at h0
    by_cases huv : u = v
    · rw [if_pos huv] at h0
      omega
    · rw [if_neg huv] at h0
      exact ⟨h0, huv⟩
  have hfr : ∀ x, s.num x ≠ 0 →
      (scFoldT adj fuel v (adj v) (visitV v s)).num x = s.num x ∧
      (scFoldT adj fuel v (adj v) (visitV v s)).low x = s.low x := by
    intro x hx
    have hxv : x ≠ v := fun he => hx (he ▸ hv0)
    have hx0 : (visitV v s).num x ≠ 0 := hvis0 x hx
    obtain ⟨ha, hb⟩ := hfr1 x hx0
    constructor
    · rw [ha, hnum0, if_neg hxv]
    · rw [hb hxv, hlow0, if_neg hxv]
  have hnew : ∀ x, (scFoldT adj fuel v (adj v) (visitV v s)).num x ≠ 0 →
      s.num x ≠ 0 ∨ (GReach adj v x ∧
        s.next ≤ (scFoldT adj fuel v (adj v) (visitV v s)).num x) := by
    intro x hx
    rcases hnew1 x hx with h | ⟨hr, hth⟩
    · rw [hnum0] at h
      by_cases hxv : x = v
      · refine Or.inr ⟨hxv ▸ gReach_refl adj v, ?_⟩
        rw [hxv, hs1v]
      · rw [if_neg hxv] at h
        exact Or.inl h
    · refine Or.inr ⟨hr, ?_⟩
      have : (visitV v s).next = s.next + 1 := rfl
      omega
  have hstk1 : (scFoldT adj fuel v (adj v) (visitV v s)).stk = d1 ++ v :: s.stk := hd1
  have hdhi : ∀ u ∈ d1,
      (scFoldT adj fuel v (adj v) (visitV v s)).num v
        < (scFoldT adj fuel v (adj v) (visitV v s)).num u := by
    intro u hu
    have hustk : u ∈ (scFoldT adj fuel v (adj v) (visitV v s)).stk := by
      rw [hstk1]
      exact List.mem_append_left _ hu
    have huvis := hW1.stk_vis u hustk
    rcases hnew1 u huvis with h | ⟨_, hth⟩
    · exact absurd (hd1new u hu) h
    · have : (visitV v s).next = s.next + 1 := rfl
      rw [hs1v]
      omega
  have hbaselo : ∀ u ∈ s.stk,
      (scFoldT adj fuel v (adj v) (visitV v s)).num u
        < (scFoldT adj fuel v (adj v) (visitV v s)).num v := by
    intro u hu
    have hu0 : s.num u ≠ 0 := hW.stk_vis u hu
    rw [hs1v, (hfr u hu0).1]
    exact hW.num_lt u
  by_cases hroot : (scFoldT adj fuel v (adj v) (visitV v s)).low v
      = (scFoldT adj fuel v (adj v) (visitV v s)).num v
  · obtain ⟨hpn, hpl, hpx, hpk, hpc, hTW, hTP⟩ :=
      popSCC_spec hW1 hP1 hstk1 hdhi hbaselo hroot hrec1
    refine ⟨hTW, ?_, ?_, ?_, ?_, ?_, ?_, Or.inl ⟨hpk, ?_, hTP, ?_⟩⟩
    · intro x hx
      rw [hpn, hpl]
      exact hfr x hx
    · rw [hpx]
      have : (visitV v s).next = s.next + 1 := rfl
      omega
    · rw [hpn]
      exact hs1v
    · intro x hx
      rw [hpn] at hx ⊢
      exact hnew x hx
    · have : unvisCount verts (popSCC v (scFoldT adj fuel v (adj v) (visitV v s)))
          = unvisCount verts (scFoldT adj fuel v (adj v) (visitV v s)) := by
        unfold unvisCount
        rw [hpn]
      omega
    · intro y hy
      obtain ⟨hy0, hyr⟩ := hrec1 y hy
      refine ⟨by rw [hpn]; exact hy0, ?_⟩
      intro hystk
      rw [hpk] at hystk
      rw [hpl, hpn]
      refine hyr ?_
      rw [hstk1]
      exact List.mem_append_right _ (List.mem_cons_of_mem _ hystk)
    · rw [hpk]
      exact hvnstk
    · rw [hpl, hpn]
      exact hroot
  · have hpid : popSCC v (scFoldT adj fuel v (adj v) (visitV v s))
        = scFoldT adj fuel v (adj v) (visitV v s) := by
      unfold popSCC
      rw [if_neg hroot]
    rw [hpid]
    refine ⟨hW1, hfr, ?_, hs1v, hnew, ?_, hrec1,
      Or.inr ⟨d1 ++ [v], ?_, ?_, ?_, hP1, ?_⟩⟩
    · have : (visitV v s).next = s.next + 1 := rfl
      omega
    · omega
    · rw [hstk1, List.append_assoc]
      rfl
    · exact List.mem_append_right _ (List.mem_singleton.mpr rfl)
    · intro u hu
      rcases List.mem_append.mp hu with h | h
      · exact (hd1s u h).1
      · rw [List.mem_singleton.mp h]
        exact hv0
    · have h1 := hW1.low_le v hs1vne
      omega

theorem tarjan_master {V : Type} [DecidableEq V] (adj : V → List V)
    (verts : List V) (hadj : ∀ x ∈ verts, ∀ y ∈ adj x, y ∈ verts) :
    ∀ fuel, SCSpec adj verts fuel ∧ SFSpec adj verts fuel := by
  intro fuel
  induction fuel with
  | zero => exact ⟨sc_zero adj verts, sf_of_sc hadj (sc_zero adj verts)⟩
  | succ k ih =>
    have hsc := sc_succ ih.2
    exact ⟨hsc, sf_of_sc hadj hsc⟩

theorem initTState_TWF {V : Type} [DecidableEq V] (adj : V → List V)
    (verts : List V) : TWF adj verts (initTState V) := by
  constructor
  · exact le_refl _
  · intro x
    exact Nat.zero_lt_one
  · intro x y hx
    exact absurd rfl hx
  · intro x hx
    exact absurd rfl hx
  · intro x hx
    exact absurd rfl hx
  · intro x hx
    cases hx
  · intro x
    simp [initTState]
  · exact List.Pairwise.nil
  · intro u hu
    cases hu
  · intro c hc
    cases hc
  · intro c hc
    cases hc
  · intro x hx
    exact absurd rfl hx
  · exact List.nodup_nil
  · intro c hc
    cases hc
  · intro A c B hAB
    exfalso
    have : A ++ c :: B = [] := hAB.symm
    rcases List.append_eq_nil.mp this with ⟨_, h2⟩
    exact List.cons_ne_nil c B h2

theorem initTState_TPath {V : Type} [DecidableEq V] (adj : V → List V) :
    TPath adj [] (initTState V) := by
  constructor
  · intro p hp
    cases hp
  · exact List.Pairwise.nil
  · intro u hu
    cases hu
  · intro x hx
    exact absurd rfl hx
  · intro u hu
    cases hu
  · intro p hp
    cases hp

/-- State of the root loop of `tarjan`: everything visited so far has been
fully processed (empty stack, empty call chain) and is reachable from an
already-processed root. -/
def TTop {V : Type} [DecidableEq V] (adj : V → List V) (verts : List V)
    (P : V → Prop) (s : TState V) : Prop :=
  TWF adj verts s ∧ TPath adj [] s ∧ s.stk = [] ∧
  (∀ x, s.num x ≠ 0 → ∃ r, P r ∧ GReach adj r x) ∧
  (∀ r, P r → s.num r ≠ 0)

theorem TTop_mono {V : Type} [DecidableEq V] {adj : V → List V}
    {verts : List V} {P Q : V → Prop} {s : TState V}
    (h : ∀ r, P r ↔ Q r) (hT : TTop adj verts P s) : TTop adj verts Q s := by
  obtain ⟨h1, h2, h3, h4, h5⟩ := hT
  refine ⟨h1, h2, h3, ?_, ?_⟩
  · intro x hx
    obtain ⟨r, hr, hre⟩ := h4 x hx
    exact ⟨r, (h r).mp hr, hre⟩
  · intro r hr
    exact h5 r ((h r).mpr hr)

theorem rootStep_spec {V : Type} [DecidableEq V] {adj : V → List V}
    {verts : List V} {fuel : Nat} (hsc : SCSpec adj verts fuel)
    (hfuel : verts.length ≤ fuel) {P : V → Prop} {v : V} {s : TState V}
    (hT : TTop adj verts P s) (hvm : v ∈ verts) :
    TTop adj verts (fun r => r = v ∨ P r)
      (if s.num v = 0 then scT adj fuel v s else s) := by
  obtain ⟨hW, hP, hstk, hcov, hvis⟩ := hT
  by_cases hv : s.num v = 0
  swap
  · rw [if_neg hv]
    refine ⟨hW, hP, hstk, ?_, ?_⟩
    · intro x hx
      obtain ⟨r, hr, hre⟩ := hcov x hx
      exact ⟨r, Or.inr hr, hre⟩
    · intro r hr
      rcases hr with rfl | hr
      · exact hv
      · exact hvis r hr
  · rw [if_pos hv]
    have hfu : unvisCount verts s ≤ fuel := by
      have h1 : unvisCount verts s ≤ verts.length := List.countP_le_length _
      omega
    have hpost := hsc [] v s ⟨hW, hP, hv, hvm, fun p hp => absurd hp (by simp), hfu⟩
    obtain ⟨hW1, hfr1, hnx1, hnv1, hnew1, hu1, hrec1, hdisj⟩ := hpost
    have hnp : 1 ≤ s.next := hW.next_pos
    have hstay_false : ∀ d, (scT adj fuel v s).stk = d ++ s.stk → v ∈ d →
        (∀ u ∈ d, s.num u = 0) →
        (scT adj fuel v s).low v < (scT adj fuel v s).num v → False := by
      intro d hdstk hvd hdnew hlt
      have hvstk : v ∈ (scT adj fuel v s).stk := by
        rw [hdstk]
        exact List.mem_append_left _ hvd
      obtain ⟨w, hw, _, hnw⟩ := hW1.low_wit v hvstk
      have hwd : w ∈ d := by
        rw [hdstk, hstk, List.append_nil] at hw
        exact hw
      have hw0 : (scT adj fuel v s).num w ≠ 0 := hW1.stk_vis w hw
      rcases hnew1 w hw0 with h | ⟨_, hth⟩
      · exact h (hdnew w hwd)
      · rw [hnw] at hth
        rw [hnv1] at hlt
        omega
    rcases hdisj with ⟨hstk1, _, hP1, _⟩ | ⟨d, hdstk, hvd, hdnew, _, hlt⟩
    swap
    · exact absurd hlt (by
        intro h
        exact hstay_false d hdstk hvd hdnew h)
    · refine ⟨hW1, hP1, by rw [hstk1, hstk], ?_, ?_⟩
      · intro x hx
        rcases hnew1 x hx with h | ⟨hr, _⟩
        · obtain ⟨r, hrP, hre⟩ := hcov x h
          exact ⟨r, Or.inr hrP, hre⟩
        · exact ⟨v, Or.inl rfl, hr⟩
      · intro r hr
        rcases hr with rfl | hr
        · rw [hnv1]
          omega
        · rw [(hfr1 r (hvis r hr)).1]
          exact hvis r hr

theorem rootFold_spec {V : Type} [DecidableEq V] {adj : V → List V}
    {verts : List V} {fuel : Nat} (hsc : SCSpec adj verts fuel)
    (hfuel : verts.length ≤ fuel) :
    ∀ (rs : List V) (P : V → Prop) (s : TState V),
      (∀ r ∈ rs, r ∈ verts) → TTop adj verts P s →
      TTop adj verts (fun r => r ∈ rs ∨ P r)
        (List.foldl (fun t v => if t.num v = 0 then scT adj fuel v t else t) s rs) := by
  intro rs
  induction rs with
  | nil =>
    intro P s _ hT
    refine TTop_mono ?_ hT
    intro r
    simp
  | cons v rs ih =>
    intro P s hrs hT
    rw [List.foldl_cons]
    have h1 := rootStep_spec hsc hfuel hT (hrs v (List.mem_cons_self _ _))
    have h2 := ih (fun r => r = v ∨ P r) _
      (fun r hr => hrs r (List.mem_cons_of_mem _ hr)) h1
    refine TTop_mono ?_ h2
    intro r
    simp only [List.mem_cons]
    constructor
    · rintro (h | h | h)
      · exact Or.inl (Or.inr h)
      · exact Or.inl (Or.inl h)
      · exact Or.inr h
    · rintro ((h | h) | h)
      · exact Or.inr (Or.inl h)
      · exact Or.inl h
      · exact Or.inr (Or.inr h)

theorem tarjanCore_TTop {V : Type} [DecidableEq V] (adj : V → List V)
    (verts : List V) (roots : List V) (fuel : Nat)
    (hadj : ∀ x ∈ verts, ∀ y ∈ adj x, y ∈ verts)
    (hroots : ∀ r ∈ roots, r ∈ verts) (hfuel : verts.length ≤ fuel) :
    TTop adj verts (fun r => r ∈ roots) (tarjanCore adj roots fuel) := by
  have hsc := (tarjan_master adj verts hadj fuel).1
  have hinit : TTop adj verts (fun _ => False) (initTState V) := by
    refine ⟨initTState_TWF adj verts, initTState_TPath adj, rfl, ?_, ?_⟩
    · intro x hx
      exact absurd rfl hx
    · intro r hr
      cases hr
  have h := rootFold_spec hsc hfuel roots (fun _ => False) (initTState V)
    hroots hinit
  refine TTop_mono ?_ h
  intro r
  simp

theorem flatten_nodup_each {α : Type} {l : List (List α)}
    (h : l.flatten.Nodup) : ∀ c ∈ l, c.Nodup := by
  induction l with
  | nil => intro c hc; cases hc
  | cons c0 t ih =>
    rw [List.flatten_cons, List.nodup_append] at h
    intro c hc
    rcases List.mem_cons.mp hc with rfl | hc'
    · exact h.1
    · exact ih h.2.1 c hc'

/-- Components are collected in dependency order: anything reachable from a
member of a component lies in that component or an earlier-collected one. -/
theorem scc_order {V : Type} [DecidableEq V] {adj : V → List V}
    {verts : List V} {s : TState V} (hW : TWF adj verts s) :
    ∀ x y, GReach adj x y → ∀ A c B, s.sccs = A ++ c :: B → x ∈ c →
      y ∈ c ∨ y ∈ A.flatten := by
  intro x y hxy
  induction hxy with
  | refl =>
    intro A c B _ hx
    exact Or.inl hx
  | tail hab hbc ih =>
    intro A c B hs hx
    rcases ih A c B hs hx with hb | hb
    · exact hW.sccs_closed A c B hs _ hb _ hbc
    · obtain ⟨c', hc', hbc'⟩ := List.mem_flatten.mp hb
      obtain ⟨A1, B1, hA⟩ := List.append_of_mem hc'
      have hs' : s.sccs = A1 ++ c' :: (B1 ++ c :: B) := by
        rw [hs, hA, List.append_assoc, List.cons_append]
      rcases hW.sccs_closed A1 c' (B1 ++ c :: B) hs' _ hbc' _ hbc with h | h
      · refine Or.inr (List.mem_flatten.mpr ⟨c', hc', h⟩)
      · obtain ⟨c'', hc'', hyc''⟩ := List.mem_flatten.mp h
        refine Or.inr (List.mem_flatten.mpr ⟨c'', ?_, hyc''⟩)
        rw [hA]
        exact List.mem_append_left _ hc''

theorem vis_closed {V : Type} [DecidableEq V] {adj : V → List V}
    {s : TState V} (hP : TPath adj [] s) :
    ∀ x y, s.num x ≠ 0 → GReach adj x y → s.num y ≠ 0 := by
  intro x y hx hxy
  induction hxy with
  | refl => exact hx
  | tail hab hbc ih =>
    exact (hP.record _ ih (by simp) _ hbc).1

theorem singleton_of_short {α : Type} {c : List α} {x : α}
    (hx : x ∈ c) (hlen : ¬ 1 < c.length) : c = [x] := by
  match c with
  | [] => cases hx
  | [a] =>
    rcases List.mem_singleton.mp hx with rfl
    rfl
  | a :: b :: t =>
    exfalso
    simp at hlen

/-- Full characterization of the cycle check on the Tarjan result: some
collected component has at least two members if and only if two distinct
mutually reachable vertices exist that are reachable from the roots. -/
theorem tarjanCore_cycles {V : Type} [DecidableEq V] (adj : V → List V)
    (verts : List V) (roots : List V) (fuel : Nat)
    (hadj : ∀ x ∈ verts, ∀ y ∈ adj x, y ∈ verts)
    (hroots : ∀ r ∈ roots, r ∈ verts) (hfuel : verts.length ≤ fuel) :
    ((tarjanCore adj roots fuel).sccs.any (fun c => decide (1 < c.length)) = true
      ↔ ∃ u w, u ≠ w ∧ GReach adj u w ∧ GReach adj w u ∧
          ∃ r ∈ roots, GReach adj r u) := by
  obtain ⟨hW, hP, hstk, hcov, hvroots⟩ :=
    tarjanCore_TTop adj verts roots fuel hadj hroots hfuel
  constructor
  · intro hany
    obtain ⟨c, hc, hlen⟩ := List.any_eq_true.mp hany
    rw [decide_eq_true_eq] at hlen
    have hnd : c.Nodup := flatten_nodup_each hW.sccs_nd c hc
    match c, hlen, hnd with
    | x :: y :: t, _, hnd =>
      have hxy : x ≠ y := by
        intro he
        rw [List.nodup_cons] at hnd
        exact hnd.1 (he ▸ List.mem_cons_self y t)
      have hxm : x ∈ x :: y :: t := List.mem_cons_self _ _
      have hym : y ∈ x :: y :: t := List.mem_cons_of_mem _ (List.mem_cons_self _ _)
      obtain ⟨r, hr, hrx⟩ := hcov x (hW.sccs_vis _ hc x hxm)
      exact ⟨x, y, hxy, hW.sccs_mut _ hc x hxm y hym,
        hW.sccs_mut _ hc y hym x hxm, r, hr, hrx⟩
  · intro hex
    by_contra hany
    have hall : ∀ c ∈ (tarjanCore adj roots fuel).sccs, ¬ 1 < c.length := by
      intro c hc hlen
      exact hany (List.any_eq_true.mpr ⟨c, hc, decide_eq_true hlen⟩)
    obtain ⟨u, w, hne, huw, hwu, r, hr, hru⟩ := hex
    have hu_vis := vis_closed hP r u (hvroots r hr) hru
    have hw_vis := vis_closed hP u w hu_vis huw
    have hu_in : ∃ c ∈ (tarjanCore adj roots fuel).sccs, u ∈ c := by
      rcases hW.vis_in u hu_vis with h | h
      · rw [hstk] at h
        cases h
      · exact h
    obtain ⟨cu, hcu, hucu⟩ := hu_in
    have hcu1 : cu = [u] := singleton_of_short hucu (hall cu hcu)
    obtain ⟨Au, Bu, hsu⟩ := List.append_of_mem hcu
    rcases scc_order hW u w huw Au cu Bu hsu hucu with h | h
    · rw [hcu1] at h
      exact hne (List.mem_singleton.mp h).symm
    · obtain ⟨cw, hcw, hwcw⟩ := List.mem_flatten.mp h
      have hcwm : cw ∈ (tarjanCore adj roots fuel).sccs := by
        rw [hsu]
        exact List.mem_append_left _ hcw
      have hcw1 : cw = [w] := singleton_of_short hwcw (hall cw hcwm)
      obtain ⟨A1, B1, hA⟩ := List.append_of_mem hcw
      have hs' : (tarjanCore adj roots fuel).sccs
          = A1 ++ cw :: (B1 ++ cu :: Bu) := by
        rw [hsu, hA, List.append_assoc, List.cons_append]
      rcases scc_order hW w u hwu A1 cw (B1 ++ cu :: Bu) hs' hwcw with h2 | h2
      · rw [hcw1] at h2
        exact hne (List.mem_singleton.mp h2)
      · have hnd := hW.sccs_nd
        rw [hs', List.flatten_append] at hnd
        have hdisj := (List.nodup_append.mp hnd).2.2
        refine hdisj h2 ?_
        rw [List.flatten_cons]
        refine List.mem_append_right _ ?_
        rw [List.flatten_append]
        refine List.mem_append_right _ ?_
        rw [List.flatten_cons]
        exact List.mem_append_left _ hucu

/-- The package keys of a collected package list (the key set of Go's
`allPackages` map). -/
def pkgKeys (pkgs : List PackageInfo) : List GoStr :=
  pkgs.map (fun p => p.computedPackage)

/-- `allPackages[k]`: the package stored under computed name `k`. -/
def lookupPkg (pkgs : List PackageInfo) (k : GoStr) : Option PackageInfo :=
  pkgs.find? (fun p => p.computedPackage = k)

/-- The successor function of `Wrapper.tarjan` (generate.go): the imported
package computed names of the package stored under key `k`. An absent key
or an unresolved dependency entry panics in Go; both are excluded by
hypothesis in the theorems below, and this embedding returns an empty
successor list for them. -/
def pkgAdj (pkgs : List PackageInfo) (k : GoStr) : List GoStr :=
  match lookupPkg pkgs k with
  | some p => (importedPackageComputedNames p).getD []
  | none => []

/-- Embeds `Wrapper.tarjan`: run `strongConnect` from every needed package
in order. The fuel argument only bounds the recursion depth of the Go
closure, which never exceeds the number of packages. -/
def tarjanSccs (allPkgs : List PackageInfo) (needed : List GoStr) :
    List (List GoStr) :=
  (tarjanCore (pkgAdj allPkgs) needed (pkgKeys allPkgs).length).sccs

/-- Embeds the error decision of `Wrapper.CheckCycles` (generate.go): an
error is returned exactly when some strongly connected component has more
than one package. -/
def checkCyclesHasError (allPkgs : List PackageInfo) (needed : List GoStr) :
    Bool :=
  (tarjanSccs allPkgs needed).any (fun c => decide (1 < c.length))

/-- Claim C4: for a run whose needed packages all exist and whose
dependency names all resolve to collected packages (otherwise `tarjan`
panics before returning), `CheckCycles` errors exactly when the package
graph contains two distinct mutually importing (directly or transitively)
packages reachable from a needed package — i.e. a strongly connected
component of more than one package in the reachable subgraph; and no
package ever imports itself in this graph (`ImportedPackageComputedNames`
seeds the seen-set with the package's own name), so a package whose
files import other files of the same package is never reported as a
cycle. -/
theorem claim4_cycle_check (allPkgs : List PackageInfo) (needed : List GoStr)
    (hneed : ∀ k ∈ needed, k ∈ pkgKeys allPkgs)
    (hres : ∀ p ∈ allPkgs, ∃ l, importedPackageComputedNames p = some l ∧
      ∀ n ∈ l, n ∈ pkgKeys allPkgs) :
    (checkCyclesHasError allPkgs needed = true ↔
      ∃ u w, u ≠ w ∧ GReach (pkgAdj allPkgs) u w ∧
        GReach (pkgAdj allPkgs) w u ∧
        ∃ r ∈ needed, GReach (pkgAdj allPkgs) r u) ∧
    (∀ k, k ∉ pkgAdj allPkgs k) := by
  have hadj : ∀ x ∈ pkgKeys allPkgs, ∀ y ∈ pkgAdj allPkgs x, y ∈ pkgKeys allPkgs := by
    intro x _ y hy
    unfold pkgAdj at hy
    cases hfind : lookupPkg allPkgs x with
    | none =>
      rw [hfind] at hy
      cases hy
    | some p =>
      rw [hfind] at hy
      change y ∈ (importedPackageComputedNames p).getD [] at hy
      have hpm : p ∈ allPkgs := List.mem_of_find?_eq_some hfind
      obtain ⟨l, hl, hsub⟩ := hres p hpm
      rw [hl] at hy
      exact hsub y hy
  constructor
  · exact tarjanCore_cycles (pkgAdj allPkgs) (pkgKeys allPkgs) needed
      (pkgKeys allPkgs).length hadj hneed (le_refl _)
  · intro k
    unfold pkgAdj
    cases hfind : lookupPkg allPkgs k with
    | none => simp
    | some p =>
      have hpk : p.computedPackage = k := by
        have := List.find?_some hfind
        simpa using this
      have hpm : p ∈ allPkgs := List.mem_of_find?_eq_some hfind
      obtain ⟨l, hl, _⟩ := hres p hpm
      show k ∉ (importedPackageComputedNames p).getD []
      rw [hl]
      intro hk
      rcases ipcnGo_mem p.deps [p.computedPackage] [] l hl k hk with h | h
      · cases h
      · exact h (by rw [hpk]; exact List.mem_singleton.mpr rfl)

/-- Witness for `claim4_cycle_check` on a two-package run where each
package imports the other. -/
theorem claim4_witness :
    (checkCyclesHasError
        [⟨"pa".toList, [⟨"a.proto".toList, [], [], [], ["b.proto".toList], "pa".toList⟩],
            [some ⟨"b.proto".toList, [], [], [], ["a.proto".toList], "pb".toList⟩]⟩,
         ⟨"pb".toList, [⟨"b.proto".toList, [], [], [], ["a.proto".toList], "pb".toList⟩],
            [some ⟨"a.proto".toList, [], [], [], ["b.proto".toList], "pa".toList⟩]⟩]
        ["pa".toList] = true ↔
      ∃ u w, u ≠ w ∧
        GReach (pkgAdj
          [⟨"pa".toList, [⟨"a.proto".toList, [], [], [], ["b.proto".toList], "pa".toList⟩],
              [some ⟨"b.proto".toList, [], [], [], ["a.proto".toList], "pb".toList⟩]⟩,
           ⟨"pb".toList, [⟨"b.proto".toList, [], [], [], ["a.proto".toList], "pb".toList⟩],
              [some ⟨"a.proto".toList, [], [], [], ["b.proto".toList], "pa".toList⟩]⟩]) u w ∧
        GReach (pkgAdj
          [⟨"pa".toList, [⟨"a.proto".toList, [], [], [], ["b.proto".toList], "pa".toList⟩],
              [some ⟨"b.proto".toList, [], [], [], ["a.proto".toList], "pb".toList⟩]⟩,
           ⟨"pb".toList, [⟨"b.proto".toList, [], [], [], ["a.proto".toList], "pb".toList⟩],
              [some ⟨"a.proto".toList, [], [], [], ["b.proto".toList], "pa".toList⟩]⟩]) w u ∧
        ∃ r ∈ ["pa".toList],
          GReach (pkgAdj
            [⟨"pa".toList, [⟨"a.proto".toList, [], [], [], ["b.proto".toList], "pa".toList⟩],
                [some ⟨"b.proto".toList, [], [], [], ["a.proto".toList], "pb".toList⟩]⟩,
             ⟨"pb".toList, [⟨"b.proto".toList, [], [], [], ["a.proto".toList], "pb".toList⟩],
                [some ⟨"a.proto".toList, [], [], [], ["b.proto".toList], "pa".toList⟩]⟩]) r u) ∧
    (∀ k, k ∉ pkgAdj
        [⟨"pa".toList, [⟨"a.proto".toList, [], [], [], ["b.proto".toList], "pa".toList⟩],
            [some ⟨"b.proto".toList, [], [], [], ["a.proto".toList], "pb".toList⟩]⟩,
         ⟨"pb".toList, [⟨"b.proto".toList, [], [], [], ["a.proto".toList], "pb".toList⟩],
            [some ⟨"a.proto".toList, [], [], [], ["b.proto".toList], "pa".toList⟩]⟩] k) :=
  claim4_cycle_check
    [⟨"pa".toList, [⟨"a.proto".toList, [], [], [], ["b.proto".toList], "pa".toList⟩],
        [some ⟨"b.proto".toList, [], [], [], ["a.proto".toList], "pb".toList⟩]⟩,
     ⟨"pb".toList, [⟨"b.proto".toList, [], [], [], ["a.proto".toList], "pb".toList⟩],
        [some ⟨"a.proto".toList, [], [], [], ["b.proto".toList], "pa".toList⟩]⟩]
    ["pa".toList]
    (by decide)
    (by
      intro p hp
      rcases List.mem_cons.mp hp with rfl | hp'
      · exact ⟨["pb".toList], by decide, by decide⟩
      · rcases List.mem_cons.mp hp' with rfl | hp''
        · exact ⟨["pa".toList], by decide, by decide⟩
        · cases hp'')
